import Mathlib

/-!
# Verification of the chessview PGN/marker parser and navigation model

A shallow embedding of the parsing, move-tree building, serialization and
navigation code of the chessview plugin (src/parser.ts, src/utils.ts
(navigation controller), src/types.ts), together with proofs about it.

The external move-legality engine (chess.js) is not part of the repository;
it is modelled abstractly as an `Engine` record of functions.  Engine state
is identified with the FEN string of the current position, which is exact
for a deterministic engine.  A rejected move in chess.js either returns
`null` (0.x API, as declared in the repository's own declarations.d.ts) or
throws (1.x API); both rejection modes are kept apart in `EngineReply`
because the source code treats them differently.

Strings are modelled as `List Char` internally; the JavaScript regular
expressions used by the source are translated into explicit character
scanners whose behaviour is matched case by case against the regex
semantics.  JS whitespace (`\s`) is modelled by its ASCII part, which is
exact for every input the source can meet in the claims considered here.
Loops that are not structurally recursive take an explicit fuel argument;
each iteration consumes at least one character, so fuel = input length is
always sufficient, and the wrappers supply exactly that.
-/

namespace ChessView

/-! ## Character classes and basic JS string operations -/

/-- ASCII part of the JS regex class `\s`. -/
def jsSpace (c : Char) : Bool :=
  c = ' ' || c = '\t' || c = '\n' || c = '\r' || c = Char.ofNat 11 || c = Char.ofNat 12

/-- JS regex class `\d`. -/
def isDigitChar (c : Char) : Bool := '0' ≤ c && c ≤ '9'

/-- The class `[\d.]` scanned when skipping move numbers. -/
def digitDot (c : Char) : Bool := isDigitChar c || c = '.'

/-- The class `[a-hKQRBNO]` that starts a move token. -/
def moveStartChar (c : Char) : Bool :=
  ('a' ≤ c && c ≤ 'h') || c = 'K' || c = 'Q' || c = 'R' || c = 'B' || c = 'N' || c = 'O'

/-- The class `[\s{}()$]` that terminates a move token. -/
def moveStopChar (c : Char) : Bool :=
  jsSpace c || c = '{' || c = '}' || c = '(' || c = ')' || c = '$'

/-- JS `String.prototype.trimStart`. -/
def jsTrimLeft (cs : List Char) : List Char := cs.dropWhile jsSpace

/-- JS `String.prototype.trimEnd`. -/
def jsTrimRight (cs : List Char) : List Char := (cs.reverse.dropWhile jsSpace).reverse

/-- JS `String.prototype.trim`. -/
def jsTrim (cs : List Char) : List Char := jsTrimRight (jsTrimLeft cs)

/-- Split before the first occurrence of `c`: `some (before, after)` when `c`
occurs (and does not occur in `before`), `none` otherwise.  Models
`indexOf` followed by the two `slice`s. -/
def splitAtChar (c : Char) : List Char → Option (List Char × List Char)
  | [] => none
  | x :: xs =>
    if x = c then some ([], xs)
    else
      match splitAtChar c xs with
      | none => none
      | some (a, b) => some (x :: a, b)

/-- JS `str.split(/\s+/)`: split at maximal nonempty whitespace runs, with a
leading empty field when the string starts with whitespace and a trailing
empty field when it ends with whitespace; `""` yields `[""]`. -/
def splitWsF : Nat → List Char → List Char → List (List Char)
  | 0, acc, _ => [acc.reverse]
  | _ + 1, acc, [] => [acc.reverse]
  | fuel + 1, acc, c :: cs =>
    if jsSpace c then acc.reverse :: splitWsF fuel [] (cs.dropWhile jsSpace)
    else splitWsF fuel (c :: acc) cs

/-- JS `str.split(/\s+/)` (fuel-supplying wrapper for `splitWsF`). -/
def splitWs (cs : List Char) : List (List Char) := splitWsF cs.length [] cs

/-! ## `normalizeFen` (src/parser.ts lines 802-814) -/

/-- `normalizeFen`: fill missing trailing FEN fields with the defaults
`w - - 0 1`; return the input unchanged when the first field does not split
into exactly 8 `/`-separated rank groups.  `parts[i] ?? d` is the JS
nullish-coalescing access, modelled by `getD`. -/
def normalizeFen (s : String) : String :=
  let parts := splitWs (jsTrim s.data)
  let p0 := parts.headD []
  if parts.length = 0 || (List.splitOn '/' p0).length ≠ 8 then s
  else
    let turn := parts.getD 1 ['w']
    let castling := parts.getD 2 ['-']
    let enPassant := parts.getD 3 ['-']
    let halfMove := parts.getD 4 ['0']
    let fullMove := parts.getD 5 ['1']
    String.mk (p0 ++ ' ' :: turn ++ ' ' :: castling ++ ' ' :: enPassant
      ++ ' ' :: halfMove ++ ' ' :: fullMove)

/-! ## PGN tokenizer (src/parser.ts lines 313-397) -/

/-- One token of the PGN token stream.  The source stores a `type` tag plus a
`value` string; the `(` and `)` tokens always carry the constant values `"("`
and `")"` and are modelled without a payload. -/
inductive PgnToken : Type where
  | move (v : String)
  | comment (v : String)
  | nag (v : String)
  | openVar
  | closeVar
  deriving DecidableEq, Repr

/-- Does a character run match `^\d+\.+$` (the move-number shape)? -/
def isMoveNumSeg (cs : List Char) : Bool :=
  let ds := cs.takeWhile isDigitChar
  let rest := cs.drop ds.length
  !ds.isEmpty && !rest.isEmpty && rest.all (· = '.')

/-- The tokenizer's scanning loop (`while (i < cleaned.length)`), one fuel
unit per iteration; every iteration consumes at least one character. -/
def tokF : Nat → List Char → List PgnToken
  | 0, _ => []
  | _ + 1, [] => []
  | fuel + 1, c :: cs =>
    if jsSpace c then tokF fuel cs
    else if isDigitChar c && isMoveNumSeg ((c :: cs).takeWhile digitDot) then
      tokF fuel ((c :: cs).dropWhile digitDot)
    else if c = '{' then
      match splitAtChar '}' cs with
      | none => tokF fuel cs
      | some (content, rest) => .comment (String.mk (jsTrim content)) :: tokF fuel rest
    else if c = '$' then
      .nag (String.mk ('$' :: cs.takeWhile isDigitChar))
        :: tokF fuel (cs.drop (cs.takeWhile isDigitChar).length)
    else if c = '(' then .openVar :: tokF fuel cs
    else if c = ')' then .closeVar :: tokF fuel cs
    else if moveStartChar c then
      .move (String.mk ((c :: cs).takeWhile (fun x => !moveStopChar x)))
        :: tokF fuel ((c :: cs).dropWhile (fun x => !moveStopChar x))
    else tokF fuel cs

/-- The scanning loop at its canonical fuel. -/
def tokenizeChars (cs : List Char) : List PgnToken := tokF cs.length cs

/-- Strip `[...".."]` header-like segments (the regex
`\[[^\]]*"[^\]]*"\]`, applied globally).  A candidate at `[` matches
exactly when the run up to the first following `]` contains at least two
`"` and ends with `"`. -/
def stripHF : Nat → List Char → List Char
  | 0, cs => cs
  | _ + 1, [] => []
  | fuel + 1, c :: cs =>
    if c = '[' then
      match splitAtChar ']' cs with
      | none => c :: stripHF fuel cs
      | some (content, rest) =>
        if 2 ≤ (content.filter (· = '"')).length && content.getLast? = some '"' then
          stripHF fuel rest
        else c :: stripHF fuel cs
    else c :: stripHF fuel cs

/-- Header stripping at its canonical fuel. -/
def stripHeaders (cs : List Char) : List Char := stripHF cs.length cs

/-- The four game-result tokens, longest first so that the longest suffix is
removed, matching the regex's leftmost-match rule. -/
def resultToks : List (List Char) :=
  [['1', '/', '2', '-', '1', '/', '2'], ['1', '-', '0'], ['0', '-', '1'], ['*']]

/-- Strip a trailing game-result token (the regex
`\s*(1-0|0-1|1\/2-1\/2|\*)\s*$`, replaced by the empty string). -/
def stripResult (cs : List Char) : List Char :=
  let t := jsTrimRight cs
  match resultToks.find? (fun tok => tok.isSuffixOf t) with
  | some tok => jsTrimRight (t.take (t.length - tok.length))
  | none => cs

/-- `tokenizePgn`: strip header segments, strip a trailing result token,
trim, then run the scanning loop. -/
def tokenizePgn (s : String) : List PgnToken :=
  tokenizeChars (jsTrim (stripResult (stripHeaders s.data)))

/-! ## Data model (src/types.ts) -/

/-- Board orientation / side colour. -/
inductive PColor : Type where
  | white
  | black
  deriving DecidableEq, Repr

/-- The opposite colour. -/
def PColor.flip : PColor → PColor
  | .white => .black
  | .black => .white

/-- The `type` tag of a parse result. -/
inductive ParseType : Type where
  | game
  | puzzle
  | fen
  deriving DecidableEq, Repr

/-- An arrow overlay (source fields `from`/`to`/`color`; `from` and `to` are
Lean keywords, hence `frm`/`dst`). -/
structure Arrow : Type where
  frm : String
  dst : String
  color : Option String
  deriving DecidableEq, Repr

/-- A circle overlay. -/
structure Circle : Type where
  square : String
  color : Option String
  deriving DecidableEq, Repr

/-- A highlight overlay. -/
structure Highlight : Type where
  square : String
  color : Option String
  deriving DecidableEq, Repr

/-- Overlays attached to one move (source name: MoveAnnotation). -/
structure MoveAnnot : Type where
  arrows : List Arrow
  circles : List Circle
  highlights : List Highlight
  deriving DecidableEq, Repr

/-- One ply of a game tree (source interface MoveNode): SAN, source and
destination squares, resulting FEN, optional comment/NAG/overlays, and the
ordered list of alternative continuation lines. -/
inductive MoveNode : Type where
  | mk (san frm dst fen : String) (comment nag : Option String)
       (annots : Option MoveAnnot) (variations : List (List MoveNode)) : MoveNode

def MoveNode.san : MoveNode → String
  | .mk v _ _ _ _ _ _ _ => v

def MoveNode.frm : MoveNode → String
  | .mk _ v _ _ _ _ _ _ => v

def MoveNode.dst : MoveNode → String
  | .mk _ _ v _ _ _ _ _ => v

def MoveNode.fen : MoveNode → String
  | .mk _ _ _ v _ _ _ _ => v

def MoveNode.comment : MoveNode → Option String
  | .mk _ _ _ _ v _ _ _ => v

def MoveNode.nag : MoveNode → Option String
  | .mk _ _ _ _ _ v _ _ => v

def MoveNode.annots : MoveNode → Option MoveAnnot
  | .mk _ _ _ _ _ _ v _ => v

def MoveNode.variations : MoveNode → List (List MoveNode)
  | .mk _ _ _ _ _ _ _ v => v

/-- Replace the variations list of a node. -/
def MoveNode.withVariations (n : MoveNode) (vs : List (List MoveNode)) : MoveNode :=
  match n with
  | .mk a b c d e f g _ => .mk a b c d e f g vs

/-- One ply of a flat (puzzle) move list (source interface MoveData). -/
structure MoveData : Type where
  san : String
  frm : String
  dst : String
  fen : String
  comment : Option String
  nag : Option String
  annots : Option MoveAnnot
  deriving DecidableEq, Repr

/-- The parse result record (source interface ParsedChessData).  `headers` is
the string-to-string header map, modelled as an association list in
insertion order. -/
structure ParsedChessData : Type where
  ptype : ParseType
  fen : Option String
  pgn : Option String
  moves : List MoveNode
  orientation : PColor
  isStatic : Bool
  isEditable : Bool
  isPuzzle : Bool
  playerColor : PColor
  solutionMoves : List MoveData
  puzzleRating : Option Int
  puzzleThemes : List String
  puzzleTitle : Option String
  headers : List (String × String)
  arrows : List Arrow
  circles : List Circle
  highlights : List Highlight
  startMove : Int
  error : Option String
  warnings : List String

/-! ## NAG definitions (src/types.ts, NAG_DEFINITIONS and derived maps) -/

/-- One NAG definition row. -/
structure NagDefinition : Type where
  code : String
  symbol : String
  inlinePgn : Option String
  label : String
  cssClass : String
  deriving DecidableEq, Repr

/-- The NAG definition table. -/
def NAG_DEFINITIONS : List NagDefinition :=
  [⟨"$1", "!", some "!", "Great move", "nag-good"⟩,
   ⟨"$2", "?", some "?", "Mistake", "nag-mistake"⟩,
   ⟨"$3", "!!", some "!!", "Brilliant move", "nag-brilliant"⟩,
   ⟨"$4", "??", some "??", "Blunder", "nag-blunder"⟩,
   ⟨"$5", "!?", some "!?", "Interesting move", "nag-interesting"⟩,
   ⟨"$6", "?!", some "?!", "Inaccuracy", "nag-inaccuracy"⟩,
   ⟨"$7", "□", none, "Forced move", "nag-forced"⟩,
   ⟨"$9", "✕", none, "Miss", "nag-miss"⟩,
   ⟨"$10", "=", none, "Equal position", "nag-equal"⟩,
   ⟨"$13", "∞", none, "Unclear position", "nag-unclear"⟩,
   ⟨"$14", "⩲", none, "White is slightly better", "nag-white-slight"⟩,
   ⟨"$15", "⩱", none, "Black is slightly better", "nag-black-slight"⟩,
   ⟨"$16", "±", none, "White is better", "nag-white-better"⟩,
   ⟨"$17", "∓", none, "Black is better", "nag-black-better"⟩,
   ⟨"$18", "+−", none, "White is winning", "nag-white-winning"⟩,
   ⟨"$19", "−+", none, "Black is winning", "nag-black-winning"⟩]

/-- `NAG_BY_CODE[s]` (codes are unique, so first match equals map lookup). -/
def nagByCode (s : String) : Option NagDefinition :=
  NAG_DEFINITIONS.find? (fun d => d.code = s)

/-- `NAG_BY_INLINE[s]` (inline forms are unique). -/
def nagByInline (s : String) : Option NagDefinition :=
  NAG_DEFINITIONS.find? (fun d => d.inlinePgn = some s)

/-! ## Inline NAG extraction (src/parser.ts lines 403-419) -/

/-- A `!` or `?` character. -/
def glyphChar (c : Char) : Bool := c = '!' || c = '?'

/-- `extractInlineNag`: capture the trailing one-or-two glyph run
(`([!?]{1,2})$`, greedy, so two when the last two characters are both
glyphs); when the captured glyph is a known inline form, strip the whole
trailing glyph run (`replace(/[!?]+$/, '')`) and return the NAG code. -/
def extractInlineNag (moveStr : String) : String × Option String :=
  let cs := moveStr.data
  let tail := (cs.reverse.takeWhile glyphChar).reverse
  if tail.isEmpty then (moveStr, none)
  else
    let cap := String.mk (tail.drop (tail.length - 2))
    match nagByInline cap with
    | none => (moveStr, none)
    | some d => (String.mk ((cs.reverse.dropWhile glyphChar).reverse), some d.code)

/-! ## Colour table (src/types.ts ANNOTATION_COLORS) -/

/-- The colour-name table. -/
def annotationColors : List (String × String) :=
  [("R", "red"), ("G", "green"), ("B", "blue"), ("Y", "yellow"),
   ("O", "orange"), ("P", "purple"),
   ("red", "red"), ("green", "green"), ("blue", "blue"), ("yellow", "yellow"),
   ("orange", "orange"), ("purple", "purple")]

/-- `ANNOTATION_COLORS[k]` as an optional lookup. -/
def annotationColor (k : String) : Option String :=
  (annotationColors.find? (fun p => p.1 = k)).map (fun p => p.2)

/-! ## Comment annotation directives (src/parser.ts lines 711-752):
`[%cal ...]` and `[%csl ...]` extraction and stripping -/

/-- JS regex class `\w`. -/
def wordChar (c : Char) : Bool :=
  ('a' ≤ c && c ≤ 'z') || ('A' ≤ c && c ≤ 'Z') || isDigitChar c || c = '_'

/-- Case-insensitive character comparison (ASCII lowering, as in regex `/i`). -/
def ciChar (a b : Char) : Bool := a.toLower = b.toLower

/-- Case-insensitive prefix test. -/
def ciPrefix : List Char → List Char → Bool
  | [], _ => true
  | _ :: _, [] => false
  | p :: ps, c :: cs => ciChar c p && ciPrefix ps cs

/-- Try to match the directive `\[%TAG\s+([^\]]+)\]` (case-insensitive) at
the head of `cs`.  Matches exactly when `cs` begins with `[%TAG`, a `]`
follows, and the run `seg` up to that first `]` starts with whitespace and
splits as nonempty-whitespace ++ nonempty-rest; the (greedy, with the one
backtracking step the regex engine performs) capture then trims to
`jsTrim seg`, which is what every consumer uses.  Returns
`(trimmed capture, rest after the closing bracket)`. -/
def matchDirectiveAt (tag : List Char) (cs : List Char) : Option (List Char × List Char) :=
  match cs with
  | '[' :: '%' :: cs2 =>
    if ciPrefix tag cs2 then
      match splitAtChar ']' (cs2.drop tag.length) with
      | none => none
      | some (seg, rest) =>
        match seg with
        | [] => none
        | s0 :: srest =>
          if jsSpace s0 && !srest.isEmpty then some (jsTrim seg, rest) else none
    else none
  | _ => none

/-- First directive capture in the string (JS `comment.match(re)` with a
non-global regex): scan left to right for the first match. -/
def firstDirectiveF (tag : List Char) : Nat → List Char → Option (List Char)
  | 0, _ => none
  | _ + 1, [] => none
  | fuel + 1, c :: cs =>
    match matchDirectiveAt tag (c :: cs) with
    | some (cap, _) => some cap
    | none => firstDirectiveF tag fuel cs

/-- First directive capture, canonical fuel. -/
def firstDirective (tag : List Char) (cs : List Char) : Option (List Char) :=
  firstDirectiveF tag cs.length cs

/-- Remove every directive occurrence (JS `replace(re, '')` with a global
regex): scan left to right, skipping matches. -/
def stripDirectivesF (tag : List Char) : Nat → List Char → List Char
  | 0, cs => cs
  | _ + 1, [] => []
  | fuel + 1, c :: cs =>
    match matchDirectiveAt tag (c :: cs) with
    | some (_, rest) => stripDirectivesF tag fuel rest
    | none => c :: stripDirectivesF tag fuel cs

/-- Directive stripping, canonical fuel. -/
def stripDirectives (tag : List Char) (cs : List Char) : List Char :=
  stripDirectivesF tag cs.length cs

/-- The text of a comment after removing `[%cal ...]` and `[%csl ...]`
directives and trimming (the two `replace` calls followed by `trim()`). -/
def commentText (content : List Char) : List Char :=
  jsTrim (stripDirectives ['c', 's', 'l'] (stripDirectives ['c', 'a', 'l'] content))

/-- A square-file letter, case-insensitively (`[a-h]` under `/i`). -/
def fileCharCi (c : Char) : Bool := ('a' ≤ c.toLower && c.toLower ≤ 'h')

/-- A rank digit (`[1-8]`). -/
def rankChar (c : Char) : Bool := ('1' ≤ c && c ≤ '8')

/-- A colour-code letter (`[RGBYOP]` under `/i`). -/
def colorCodeChar (c : Char) : Bool :=
  let u := c.toUpper
  u = 'R' || u = 'G' || u = 'B' || u = 'Y' || u = 'O' || u = 'P'

/-- Match one arrow entry `^([RGBYOP]?)([a-h][1-8])([a-h][1-8])$/i`:
either 4 characters (two squares) or 5 (colour letter then two squares). -/
def matchCalEntry (cs : List Char) : Option (Option Char × List Char × List Char) :=
  match cs with
  | [a, b, c, d] =>
    if fileCharCi a && rankChar b && fileCharCi c && rankChar d then
      some (none, [a, b], [c, d])
    else none
  | [k, a, b, c, d] =>
    if colorCodeChar k && fileCharCi a && rankChar b && fileCharCi c && rankChar d then
      some (some k, [a, b], [c, d])
    else none
  | _ => none

/-- Match one circle entry `^([RGBYOP]?)([a-h][1-8])$/i`. -/
def matchCslEntry (cs : List Char) : Option (Option Char × List Char) :=
  match cs with
  | [a, b] => if fileCharCi a && rankChar b then some (none, [a, b]) else none
  | [k, a, b] =>
    if colorCodeChar k && fileCharCi a && rankChar b then some (some k, [a, b]) else none
  | _ => none

/-- Resolve an optional colour-code letter from a directive entry:
`m[1] ? ANNOTATION_COLORS[m[1].toUpperCase()] ?? 'green' : 'green'`. -/
def resolveEntryColor (k : Option Char) : String :=
  match k with
  | none => "green"
  | some c => (annotationColor (String.mk [c.toUpper])).getD "green"

/-- Lower-case a square capture (`.toLowerCase()`). -/
def lowerStr (cs : List Char) : String := String.mk (cs.map Char.toLower)

/-- `parseCommentAnnotations`: extract the first `[%cal ...]` and the first
`[%csl ...]` directive, split each capture on `,`, and keep the entries
that match the per-entry patterns (malformed entries are skipped). -/
def parseCommentAnnotations (comment : List Char) : MoveAnnot :=
  let arrows :=
    match firstDirective ['c', 'a', 'l'] comment with
    | none => []
    | some cap =>
      (List.splitOn ',' cap).filterMap (fun d =>
        (matchCalEntry (jsTrim d)).map (fun m =>
          Arrow.mk (lowerStr m.2.1) (lowerStr m.2.2) (some (resolveEntryColor m.1))))
  let circles :=
    match firstDirective ['c', 's', 'l'] comment with
    | none => []
    | some cap =>
      (List.splitOn ',' cap).filterMap (fun d =>
        (matchCslEntry (jsTrim d)).map (fun m =>
          Circle.mk (lowerStr m.2) (some (resolveEntryColor m.1))))
  ⟨arrows, circles, []⟩

/-- `mergeAnnotations`: concatenate overlay lists. -/
def mergeAnnotations (existing : Option MoveAnnot) (incoming : MoveAnnot) : MoveAnnot :=
  match existing with
  | none => incoming
  | some e => ⟨e.arrows ++ incoming.arrows, e.circles ++ incoming.circles,
               e.highlights ++ incoming.highlights⟩

/-! ## Marker parsing (src/parser.ts lines 224-302) -/

/-- Case-insensitive whole-string comparison against a lowercase literal
(an anchored regex under `/i`). -/
def ciEqStr (cs : List Char) (s : String) : Bool := cs.map Char.toLower == s.data

/-- A hexadecimal digit value. -/
def hexDigitVal (c : Char) : Option Nat :=
  if isDigitChar c then some (c.toNat - 48)
  else if 'a' ≤ c && c ≤ 'f' then some (c.toNat - 87)
  else if 'A' ≤ c && c ≤ 'F' then some (c.toNat - 55)
  else none

/-- Digits-to-number accumulation in a given base. -/
def digitsToNat (base : Nat) (vals : List Nat) : Nat :=
  vals.foldl (fun a v => a * base + v) 0

/-- JS `parseInt(value)` with no explicit radix: skip leading whitespace,
optional sign, `0x`/`0X` prefix selects base 16, otherwise leading decimal
digits; `none` models `NaN`. -/
def parseIntJs (cs : List Char) : Option Int :=
  let t := cs.dropWhile jsSpace
  let sgn : Int := match t with
    | '-' :: _ => -1
    | _ => 1
  let t2 := match t with
    | '-' :: r => r
    | '+' :: r => r
    | _ => t
  match t2 with
  | '0' :: x :: r =>
    if x = 'x' || x = 'X' then
      let hs := r.takeWhile (fun c => (hexDigitVal c).isSome)
      if hs.isEmpty then none
      else some (sgn * (digitsToNat 16 (hs.filterMap hexDigitVal) : Nat))
    else
      let ds := t2.takeWhile isDigitChar
      some (sgn * (digitsToNat 10 (ds.filterMap (fun c => some (c.toNat - 48))) : Nat))
  | _ =>
    let ds := t2.takeWhile isDigitChar
    if ds.isEmpty then none
    else some (sgn * (digitsToNat 10 (ds.filterMap (fun c => some (c.toNat - 48))) : Nat))

/-- `value.split(/[,\s]+/)`: split at maximal runs of commas/whitespace. -/
def splitCommaWsF : Nat → List Char → List Char → List (List Char)
  | 0, acc, _ => [acc.reverse]
  | _ + 1, acc, [] => [acc.reverse]
  | fuel + 1, acc, c :: cs =>
    if c = ',' || jsSpace c then
      acc.reverse :: splitCommaWsF fuel [] (cs.dropWhile (fun x => x = ',' || jsSpace x))
    else splitCommaWsF fuel (c :: acc) cs

/-- `value.split(/[,\s]+/)`, canonical fuel. -/
def splitCommaWs (cs : List Char) : List (List Char) := splitCommaWsF cs.length [] cs

/-- Match `^\[(\w+)\s*:\s*([^\]]+)\]$/i`: returns the key and the trimmed
value capture (`kvMatch[2].trim()`; the regex's greedy `\s*`-vs-capture
split disappears under the trim, so the trimmed capture is the trimmed
bracket content). -/
def kvMatch (cs : List Char) : Option (List Char × List Char) :=
  match cs with
  | '[' :: rest =>
    let key := rest.takeWhile wordChar
    if key.isEmpty then none
    else
      match (rest.drop key.length).dropWhile jsSpace with
      | ':' :: r2 =>
        match splitAtChar ']' r2 with
        | none => none
        | some (seg, after) =>
          if after.isEmpty && !seg.isEmpty then some (key, jsTrim seg) else none
      | _ => none
  | _ => none

/-- A two-character square, file letter case-insensitively. -/
def squareCi (a b : Char) : Bool := fileCharCi a && rankChar b

/-- Match the trailing `(?:\s+(\w+))?\]$` part of an overlay marker:
either exactly `]`, or whitespace, a word, and `]`. -/
def matchColorTail (cs : List Char) : Option (Option (List Char)) :=
  match cs with
  | [']'] => some none
  | w :: r7 =>
    if jsSpace w then
      let r8 := r7.dropWhile jsSpace
      let word := r8.takeWhile wordChar
      if !word.isEmpty && r8.drop word.length = [']'] then some (some word) else none
    else none
  | [] => none

/-- Match `^\[arrow\s*:\s*([a-h][1-8])[-]?([a-h][1-8])(?:\s+(\w+))?\]$/i`. -/
def matchArrowMarker (cs : List Char) : Option (List Char × List Char × Option (List Char)) :=
  match cs with
  | '[' :: rest =>
    if ciPrefix ['a', 'r', 'r', 'o', 'w'] rest then
      match (rest.drop 5).dropWhile jsSpace with
      | ':' :: r2 =>
        match r2.dropWhile jsSpace with
        | a :: b :: r4 =>
          if squareCi a b then
            let r5 := match r4 with
              | '-' :: t => t
              | _ => r4
            match r5 with
            | c :: d :: r6 =>
              if squareCi c d then
                (matchColorTail r6).map (fun w => ([a, b], [c, d], w))
              else none
            | _ => none
          else none
        | _ => none
      | _ => none
    else none
  | _ => none

/-- Match `^\[KEYWORD\s*:\s*([a-h][1-8])(?:\s+(\w+))?\]$/i` for the
`circle` and `highlight` markers. -/
def matchSquareMarker (kw : List Char) (cs : List Char) : Option (List Char × Option (List Char)) :=
  match cs with
  | '[' :: rest =>
    if ciPrefix kw rest then
      match (rest.drop kw.length).dropWhile jsSpace with
      | ':' :: r2 =>
        match r2.dropWhile jsSpace with
        | a :: b :: r4 =>
          if squareCi a b then (matchColorTail r4).map (fun w => ([a, b], w)) else none
        | _ => none
      | _ => none
    else none
  | _ => none

/-- `arrowMatch[3] ? ANNOTATION_COLORS[arrowMatch[3]] ?? arrowMatch[3] :
undefined`: resolve a colour word through the table, passing unknown words
through verbatim; absent words give no colour. -/
def resolveMarkerColor : Option (List Char) → Option String
  | none => none
  | some w => some ((annotationColor (String.mk w)).getD (String.mk w))

/-- `parseAnnotationMarker`: append an arrow, circle or highlight overlay
for each of the three patterns the line matches. -/
def parseAnnotationMarker (cs : List Char) (r : ParsedChessData) : ParsedChessData :=
  let r :=
    match matchArrowMarker cs with
    | some (a, b, w) =>
      { r with arrows := r.arrows ++ [Arrow.mk (lowerStr a) (lowerStr b) (resolveMarkerColor w)] }
    | none => r
  let r :=
    match matchSquareMarker ['c', 'i', 'r', 'c', 'l', 'e'] cs with
    | some (a, w) =>
      { r with circles := r.circles ++ [Circle.mk (lowerStr a) (resolveMarkerColor w)] }
    | none => r
  match matchSquareMarker ['h', 'i', 'g', 'h', 'l', 'i', 'g', 'h', 't'] cs with
  | some (a, w) =>
    { r with highlights := r.highlights ++ [Highlight.mk (lowerStr a) (resolveMarkerColor w)] }
  | none => r

/-- The key:value switch of `parseMarkerLine` (the `kvMatch` block). -/
def kvStage (cs : List Char) (r : ParsedChessData) : ParsedChessData :=
  match kvMatch cs with
  | some (k, v) =>
    let keyL := String.mk (k.map Char.toLower)
    if keyL = "rating" then
      { r with puzzleRating :=
          match parseIntJs v with
          | some n => if n = 0 then none else some n
          | none => none }
    else if keyL = "themes" then
      { r with puzzleThemes :=
          ((splitCommaWs v).filter (fun t => !t.isEmpty)).map String.mk }
    else if keyL = "title" then { r with puzzleTitle := some (String.mk v) }
    else if keyL = "ply" then { r with startMove := (parseIntJs v).getD 0 }
    else r
  | none => r

/-- The boolean-marker `if`/`else if` chain of `parseMarkerLine`. -/
def boolStage (cs : List Char) (r : ParsedChessData) : ParsedChessData :=
  if ciEqStr cs "[puzzle]" then { r with isPuzzle := true }
  else if ciEqStr cs "[black]" || ciEqStr cs "[flip]" then { r with orientation := .black }
  else if ciEqStr cs "[white]" then { r with orientation := .white }
  else if ciEqStr cs "[static]" then { r with isStatic := true, isEditable := false }
  else if ciEqStr cs "[noeditable]" then { r with isEditable := false }
  else r

/-- `parseMarkerLine`: the key:value switch, then the boolean-marker
chain, then `parseAnnotationMarker` — three sequential stages, as in the
source. -/
def parseMarkerLine (line : String) (r : ParsedChessData) : ParsedChessData :=
  parseAnnotationMarker line.data (boolStage line.data (kvStage line.data r))

/-- The fresh result record `parseChessInput` starts from (src/parser.ts
lines 20-41). -/
def initialData : ParsedChessData :=
  ⟨.game, none, none, [], .white, false, true, false, .white, [], none, [], none,
   [], [], [], [], 0, none, []⟩

/-- The marker loop of `parseChessInput`
(`for (const line of markers) parseMarkerLine(line, result)`). -/
def processMarkers (lines : List String) (r : ParsedChessData) : ParsedChessData :=
  lines.foldl (fun acc l => parseMarkerLine l acc) r

/-! ## Puzzle finalization (src/parser.ts lines 187-218 and 58-63) -/

/-- The test `/^\[(white|black|flip)\]$/i` applied to one marker line. -/
def isOrientationMarker (line : String) : Bool :=
  ciEqStr line.data "[white]" || ciEqStr line.data "[black]" || ciEqStr line.data "[flip]"

/-- The side to move of the base position:
`result.fen.split(/\s+/)[1] === 'b' ? 'black' : 'white'`, `white` when no
FEN is stored. -/
def baseFenTurn (fen : Option String) : PColor :=
  match fen with
  | some f => if (splitWs f.data).getD 1 [] = ['b'] then .black else .white
  | none => .white

/-- `finalizePuzzle`: bare-position and empty-solution errors, then the
parity rule for the solving side, then the default orientation unless an
explicit orientation marker was present. -/
def finalizePuzzle (r : ParsedChessData) (hasOrientationMarker : Bool) : ParsedChessData :=
  if r.ptype = .fen then
    { r with error := some "Puzzle requires PGN with moves, not just a FEN position" }
  else if r.solutionMoves.isEmpty then
    { r with error := some "Puzzle has no valid moves" }
  else
    let fenTurn := baseFenTurn r.fen
    let pc := if r.solutionMoves.length % 2 = 0 then fenTurn.flip else fenTurn
    let r2 := { r with isEditable := false, playerColor := pc }
    if !hasOrientationMarker then { r2 with orientation := pc } else r2

/-! ## The external legality engine (chess.js), modelled abstractly

Engine state is the FEN of the current position.  `load` returns the
engine's position after a successful load and `none` when the load fails by
throwing.  `moveSan`/`moveFromTo` return `legal r` (with `r.fen` the
position after the move, i.e. `chess.fen()`), `illegalNull` for a `null`
return (the 0.x chess.js API, as declared in the repository's
declarations.d.ts) or `illegalThrow` for an exception (the 1.x API); the
source handles the two rejection modes differently, so both are kept. -/

/-- The move record returned by a successful engine move, together with the
engine's resulting position. -/
structure MoveRec : Type where
  san : String
  frm : String
  dst : String
  fen : String
  deriving DecidableEq, Repr

/-- The outcome of submitting a move to the engine. -/
inductive EngineReply : Type where
  | legal (r : MoveRec)
  | illegalNull
  | illegalThrow
  deriving DecidableEq, Repr

/-- The abstract engine: a deterministic function of the current FEN. -/
structure Engine : Type where
  load : String → Option String
  moveSan : String → String → EngineReply
  moveFromTo : String → String → String → Option String → EngineReply
  undo : String → String

/-- `new Chess().fen()`: the standard initial position. -/
def defaultFen : String := "rnbqkbnr/pppppppp/8/8/8/8/PPPPPPPP/RNBQKBNR w KQkq - 0 1"

/-! ## Move-tree builder (src/parser.ts lines 425-597) -/

def MoveNode.withComment (n : MoveNode) (c : String) : MoveNode :=
  match n with
  | .mk a b c0 d _ f g h => .mk a b c0 d (some c) f g h

def MoveNode.withNag (n : MoveNode) (v : String) : MoveNode :=
  match n with
  | .mk a b c d e _ g h => .mk a b c d e (some v) g h

def MoveNode.withAnnots (n : MoveNode) (v : Option MoveAnnot) : MoveNode :=
  match n with
  | .mk a b c d e f _ h => .mk a b c d e f v h

/-- `parentMove.variations.push(line)` at index `bfi` of `parent`
(no effect when the index is out of range: `if (parentMove)`). -/
def attachVariation (parent : List MoveNode) (bfi : Nat) (v : List MoveNode) : List MoveNode :=
  match parent.get? bfi with
  | none => parent
  | some n => parent.set bfi (n.withVariations (n.variations ++ [v]))

/-- A parse-stack frame.  The source frame stores the parent engine, the
parent line (the `moves` and `parentMoves` fields alias the same array) and
the branch index.  `saved` is the normal case (the variation engine loaded
and the builder switched to a fresh line); `aliased` is the case where the
variation engine's `load` threw, leaving `chess`/`currentMoves` aliasing
the parent's — for that frame the JS references track the still-current
engine and line, so the pure model stores nothing but the index. -/
inductive BFrame : Type where
  | saved (fen : String) (moves : List MoveNode) (branchFromIndex : Nat)
  | aliased (branchFromIndex : Nat)

instance : Inhabited MoveNode := ⟨.mk "" "" "" "" none none none []⟩

/-- The builder's mutable state: current engine position, current line,
frame stack (head = innermost frame), the three pending slots, and the
warnings list. -/
structure BuildState : Type where
  fen : String
  cur : List MoveNode
  stack : List BFrame
  pc : Option String
  pa : Option MoveAnnot
  pn : Option String
  warnings : List String

/-- Popping one frame (the body shared by the `close_variation` case and
the end-of-input drain loop): attach the just-closed line (when nonempty)
as a new variation of `parentMoves[branchFromIndex]`, restore the parent
engine and line.  For an `aliased` frame the parent line and engine ARE
the current ones; the `variations.push` there would create a cyclic array
reference in JS, which the pure model renders as a snapshot. -/
def closeStep (st : BuildState) (f : BFrame) (rest : List BFrame) : BuildState :=
  match f with
  | .saved fs ms bfi =>
    let parent := if st.cur.isEmpty then ms else attachVariation ms bfi st.cur
    { st with fen := fs, cur := parent, stack := rest }
  | .aliased bfi =>
    let c2 := if st.cur.isEmpty then st.cur else attachVariation st.cur bfi st.cur
    { st with cur := c2, stack := rest }

/-- One iteration of the token loop. -/
def buildStep (eng : Engine) (rootFallback : String) (st : BuildState) (t : PgnToken) :
    BuildState :=
  match t with
  | .comment v =>
    let content := v.data
    let annot := parseCommentAnnotations content
    let txt := commentText content
    match st.cur.getLast? with
    | some lastM =>
      let m1 := if txt.isEmpty then lastM else lastM.withComment (String.mk txt)
      let m2 :=
        if !annot.arrows.isEmpty || !annot.circles.isEmpty then
          m1.withAnnots (some (mergeAnnotations m1.annots annot))
        else m1
      { st with cur := st.cur.dropLast ++ [m2] }
    | none =>
      { st with pc := if txt.isEmpty then none else some (String.mk txt),
                pa := if !annot.arrows.isEmpty || !annot.circles.isEmpty then some annot
                      else none }
  | .nag v =>
    match nagByCode v with
    | some d =>
      match st.cur.getLast? with
      | some lastM => { st with cur := st.cur.dropLast ++ [lastM.withNag d.code] }
      | none => { st with pn := some d.code }
    | none => st
  | .openVar =>
    if st.cur.isEmpty then st
    else
      let branchIndex := st.cur.length - 1
      let branchFen :=
        if branchIndex > 0 then ((st.cur.getD (branchIndex - 1) default).fen)
        else rootFallback
      match eng.load branchFen with
      | some f2 =>
        { fen := f2, cur := [], stack := .saved st.fen st.cur branchIndex :: st.stack,
          pc := none, pa := none, pn := none, warnings := st.warnings }
      | none => { st with stack := .aliased branchIndex :: st.stack }
  | .closeVar =>
    match st.stack with
    | [] => st
    | f :: rest =>
      let st2 := closeStep st f rest
      { st2 with pc := none, pa := none, pn := none }
  | .move v =>
    let p := extractInlineNag v
    match eng.moveSan st.fen p.1 with
    | .legal rec =>
      let node : MoveNode := .mk rec.san rec.frm rec.dst rec.fen st.pc st.pn st.pa []
      let node :=
        match p.2 with
        | some c => node.withNag c
        | none => node
      { st with fen := rec.fen, cur := st.cur ++ [node],
                pc := none, pa := none, pn := none }
    | .illegalNull => st
    | .illegalThrow =>
      { st with warnings := st.warnings ++
          ["Skipped invalid move \"" ++ p.1 ++ "\" after "
            ++ toString st.cur.length ++ " moves"] }

/-- The end-of-input drain loop (`while (stack.length > 0)`), which closes
still-open frames without clearing pending slots. -/
def drainF : Nat → BuildState → BuildState
  | 0, st => st
  | n + 1, st =>
    match st.stack with
    | [] => st
    | f :: rest => drainF n (closeStep st f rest)

/-- Drain at canonical fuel (each step pops one frame). -/
def drainStack (st : BuildState) : BuildState := drainF st.stack.length st

/-- The token fold plus the drain, from a given root position. -/
def buildMoves (eng : Engine) (rootFallback f0 : String) (tokens : List PgnToken)
    (w0 : List String) : List MoveNode × List String :=
  let st := tokens.foldl (buildStep eng rootFallback) ⟨f0, [], [], none, none, none, w0⟩
  let st2 := drainStack st
  (st2.cur, st2.warnings)

/-- The `(startFen ? normalizeFen(startFen) : new Chess().fen())` fallback
used by `open_variation` when branching from a line's first node. -/
def rootBaseFen : Option String → String
  | some sf => normalizeFen sf
  | none => defaultFen

/-- `parseMovesWithVariations`: tokenize, load the starting position into
the root engine (a load failure returns the empty tree), then run the token
loop and the drain.  Warnings are threaded as a returned list (the source
appends to a caller-supplied array). -/
def parseMovesWithVariations (eng : Engine) (pgn : String) (startFen : Option String)
    (warnings0 : List String) : List MoveNode × List String :=
  let tokens := tokenizePgn pgn
  match startFen with
  | some sf =>
    match eng.load (normalizeFen sf) with
    | none => ([], warnings0)
    | some f0 => buildMoves eng (rootBaseFen startFen) f0 tokens warnings0
  | none => buildMoves eng (rootBaseFen none) defaultFen tokens warnings0

/-! ## Serializer (src/utils.ts navigation controller, serializeLine,
lines 1304-1350) -/

/-- The serializer's per-node NAG part: `def.inlinePgn ?? def.code` when the
node's NAG resolves in `NAG_BY_CODE`, nothing otherwise. -/
def serNagParts (n : MoveNode) : List String :=
  match n.nag with
  | some ng =>
    match nagByCode ng with
    | some d => [d.inlinePgn.getD d.code]
    | none => []
  | none => []

/-- The serializer's per-node comment part: `{comment}` when present and not
the reserved internal value `wrong`. -/
def serCommentParts (n : MoveNode) : List String :=
  match n.comment with
  | some c => if c = "" || c = "wrong" then [] else ["\x7b" ++ c ++ "\x7d"]
  | none => []

mutual

/-- The parts list built by `serializeLine`'s loop: a move-number part
before White moves (ellipsis form when a line opens with a Black move),
the SAN, the NAG and comment parts, then one parenthesized part per
variation. -/
def serParts : List MoveNode → Nat → Bool → Bool → List String
  | [], _, _, _ => []
  | .mk sa fr ds fe co ng an vars :: rest, moveNum, isBlack, isFirst =>
    (if !isBlack then [toString moveNum ++ "."]
     else if isFirst then [toString moveNum ++ "..."]
     else [])
    ++ [sa] ++ serNagParts (.mk sa fr ds fe co ng an vars)
    ++ serCommentParts (.mk sa fr ds fe co ng an vars)
    ++ serVars vars moveNum (!isBlack)
    ++ serParts rest (if isBlack then moveNum + 1 else moveNum) (!isBlack) false

/-- The parenthesized variation parts of one node
(`parts.push('(' + serializeLine(variation, moveNum, !isBlack) + ')')`). -/
def serVars : List (List MoveNode) → Nat → Bool → List String
  | [], _, _ => []
  | v :: vs, moveNum, b =>
    ("(" ++ String.intercalate " " (serParts v moveNum b true) ++ ")")
      :: serVars vs moveNum b

end

/-- `serializeLine`: the parts joined with single spaces. -/
def serializeLine (line : List MoveNode) (startMoveNum : Nat) (startsOnBlack : Bool) :
    String :=
  String.intercalate " " (serParts line startMoveNum startsOnBlack true)

/-! ## Navigation controller (src/utils.ts lines 571-1384)

The controller holds live references into the move tree (`currentLine` and
the `lineStack` entries are arrays inside the tree, and `handleUserMove`
mutates them in place).  The pure model names a line by its path from the
root — `[]` is the root line and a step `(i, v)` selects variation `v` of
node `i` — which preserves JS reference semantics across in-place tree
mutation, since a line's path is stable under `variations.push` and line
extension. -/

/-- The index of the first list entry satisfying `p` (the `for` loop over
`currentMove.variations` in `handleUserMove`). -/
def firstMatchIdx {α : Type} (p : α → Bool) : List α → Option Nat
  | [] => none
  | a :: l => if p a then some 0 else (firstMatchIdx p l).map (fun i => i + 1)

/-- A line address inside the tree. -/
abbrev LinePath := List (Nat × Nat)

/-- Resolve a path to the line it names. -/
def resolveLine : List MoveNode → LinePath → Option (List MoveNode)
  | line, [] => some line
  | line, (i, v) :: p =>
    match line.get? i with
    | none => none
    | some n =>
      match n.variations.get? v with
      | none => none
      | some sub => resolveLine sub p

/-- Apply an in-place mutation to the line a path names. -/
def updateLineAt : List MoveNode → LinePath → (List MoveNode → List MoveNode) →
    List MoveNode
  | line, [], f => f line
  | line, (i, v) :: p, f =>
    match line.get? i with
    | none => line
    | some n =>
      match n.variations.get? v with
      | none => line
      | some sub =>
        line.set i (n.withVariations (n.variations.set v (updateLineAt sub p f)))

/-- The navigator state: starting position, the (mutable) move tree, the
current line (as a path), the cursor index, the frame stack
`{line, index}[]` in push order (last entry = innermost), and the engine's
current position. -/
structure Nav : Type where
  startFen : String
  tree : List MoveNode
  curPath : LinePath
  curIndex : Nat
  lineStack : List (LinePath × Nat)
  fen : String

/-- The current line (`this.currentLine`). -/
def Nav.curLine (nav : Nav) : List MoveNode :=
  (resolveLine nav.tree nav.curPath).getD []

/-- Replay up to `count` plies of a line (`for (i = 0; i < count; i++) if
(i < line.length) try { move } catch { return }`): a `null` return leaves
the position unchanged and continues; a throw aborts (second component
`true`). -/
def replaySeg (eng : Engine) : String → List MoveNode → Nat → String × Bool
  | f, _, 0 => (f, false)
  | f, [], _ + 1 => (f, false)
  | f, n :: rest, k + 1 =>
    match eng.moveSan f n.san with
    | .legal r => replaySeg eng r.fen rest k
    | .illegalNull => replaySeg eng f rest k
    | .illegalThrow => (f, true)

/-- Replay every stack frame up to its resume point minus one
(`frame.index - 1`); a throw aborts the whole replay. -/
def replayFrames (eng : Engine) (tree : List MoveNode) :
    String → List (LinePath × Nat) → String × Bool
  | f, [] => (f, false)
  | f, (p, idx) :: rest =>
    let r := replaySeg eng f ((resolveLine tree p).getD []) (idx - 1)
    if r.2 then r else replayFrames eng tree r.1 rest

/-- `replayToPosition`: reload the starting position (this `chess.load` is
not wrapped in a `try`, so a load failure escapes — modelled as `none`),
then replay the ancestor frames and the current line; move failures are
swallowed (`return`), leaving the engine at the last reached position. -/
def replayToPosition (eng : Engine) (nav : Nav) (line : List MoveNode) (index : Nat) :
    Option String :=
  match eng.load nav.startFen with
  | none => none
  | some f0 =>
    let r1 := replayFrames eng nav.tree f0 nav.lineStack
    if r1.2 then some r1.1
    else some (replaySeg eng r1.1 line index).1

/-- `goToMove`: clamp the index to `[0, currentLine.length]`, replay, then
set the cursor to the clamped index.  The second component records whether
an exception escaped (possible only from the unguarded `chess.load`); in
that case the cursor has not been updated. -/
def goToMove (eng : Engine) (nav : Nav) (index : Nat) : Nav × Bool :=
  let line := nav.curLine
  let idx := min line.length index
  match replayToPosition eng nav line idx with
  | none => (nav, true)
  | some f => ({ nav with curIndex := idx, fen := f }, false)

/-- `goToVariation` as invoked by `handleUserMove` (always with
`parentLine = this.currentLine`): push `{line: currentLine, index:
moveIndex+1}`, enter the addressed variation, reset the cursor and navigate
to index 0.  Missing node or variation returns unchanged. -/
def goToVariation (eng : Engine) (nav : Nav) (moveIndex varIndex : Nat) : Nav × Bool :=
  let line := nav.curLine
  match line.get? moveIndex with
  | none => (nav, false)
  | some pm =>
    match pm.variations.get? varIndex with
    | none => (nav, false)
    | some _ =>
      let nav2 := { nav with
        lineStack := nav.lineStack ++ [(nav.curPath, moveIndex + 1)],
        curPath := nav.curPath ++ [(moveIndex, varIndex)],
        curIndex := 0 }
      goToMove eng nav2 0

/-- `handleUserMove` (src/utils.ts lines 893-977).  The promotion choice
obtained from the board collaborator is the `promo` argument.  The four
outcomes for an accepted move: advance the cursor when the SAN matches the
next node of the current line; enter the first variation whose first move
has the matching SAN; otherwise create a one-node variation at the current
position and enter it, or — at the end of the line — append the move to the
current line.  The surrounding `try`/`catch` turns an escaped replay
exception into a visual resync, keeping whatever state mutations already
happened. -/
def handleUserMove (eng : Engine) (nav : Nav) (orig dest : String)
    (promo : Option String) : Nav :=
  match eng.moveFromTo nav.fen orig dest promo with
  | .illegalThrow => nav
  | .illegalNull => nav
  | .legal mv =>
    let line := nav.curLine
    if nav.curIndex < line.length && (line.getD nav.curIndex default).san == mv.san then
      { nav with curIndex := nav.curIndex + 1, fen := mv.fen }
    else
      let varHit :=
        if nav.curIndex < line.length then
          firstMatchIdx (fun v => !v.isEmpty && (v.headD default).san == mv.san)
            (line.getD nav.curIndex default).variations
        else none
      match varHit with
      | some vIdx =>
        let nav1 := { nav with fen := eng.undo mv.fen }
        let r2 := goToVariation eng nav1 nav.curIndex vIdx
        if r2.2 then r2.1 else (goToMove eng r2.1 1).1
      | none =>
        let newNode : MoveNode := .mk mv.san mv.frm mv.dst mv.fen none none none []
        if nav.curIndex < line.length then
          let tree2 := updateLineAt nav.tree nav.curPath
            (fun l => attachVariation l nav.curIndex [newNode])
          let nav1 := { nav with tree := tree2, fen := eng.undo mv.fen }
          let newCount :=
            (((resolveLine tree2 nav.curPath).getD []).getD nav.curIndex default).variations.length
          let r2 := goToVariation eng nav1 nav.curIndex (newCount - 1)
          if r2.2 then r2.1 else (goToMove eng r2.1 1).1
        else
          let tree2 := updateLineAt nav.tree nav.curPath (fun l => l ++ [newNode])
          { nav with tree := tree2, curIndex := line.length + 1, fen := mv.fen }

/-! ## Engine laws and replay consistency -/

/-- The engine laws the theorems assume of a real chess.js instance: a
successful `load` reproduces the requested position (the FENs handled here
are engine-produced, hence canonical); a FEN produced by a move is
loadable; replaying the canonical SAN of a successful move reproduces it;
submitting the canonical SAN of a successful from/to move reproduces its
record; the initial position is loadable. -/
structure Engine.Good (eng : Engine) : Prop where
  load_id : ∀ f g, eng.load f = some g → g = f
  move_load : ∀ f s r, eng.moveSan f s = .legal r → eng.load r.fen = some r.fen
  san_idem : ∀ f s r, eng.moveSan f s = .legal r → eng.moveSan f r.san = .legal r
  fromTo_san : ∀ f o d p r, eng.moveFromTo f o d p = .legal r → eng.moveSan f r.san = .legal r
  load_default : eng.load defaultFen = some defaultFen

/-- A line replays exactly from `base`: each node's SAN is accepted by the
engine at the preceding position and returns precisely the recorded
record and resulting FEN.  (Replay consistency of the line's own nodes;
variations are covered by the invariants below.) -/
def Consistent (eng : Engine) : String → List MoveNode → Prop
  | _, [] => True
  | base, n :: rest =>
    eng.moveSan base n.san = .legal ⟨n.san, n.frm, n.dst, n.fen⟩ ∧ Consistent eng n.fen rest

/-- The position after replaying a whole line from `base` (the last node's
FEN, or `base` for an empty line). -/
def endFen (base : String) (l : List MoveNode) : String :=
  match l.getLast? with
  | some n => n.fen
  | none => base

/-! The invariant the claims discuss, in three variants.

`StrictLineInv` formalises the claim's own words (spec §3 data-model
invariant): every variation of a node is a nonempty continuation replaying
from the position before that node — the previous node's FEN, or the
LINE's starting position for the line's first node.

`RLineInv` is the rule the tree builder actually implements: for a line's
first node the fallback position is the ROOT starting position
(`rootBaseFen`), at every nesting depth.  The two coincide on the root
line and differ for a variation branching at the first node of an
enclosing variation.

`VLineInv` is the disjunction of the two base choices at first nodes; it is
established by the parser and preserved by `handleUserMove`, which uses
the line's own base (the claim's rule) when attaching at index 0. -/

mutual

/-- The claim's branching invariant, stated verbatim from the spec:
`before` is the position before the node under inspection (the line's base
for the first node). -/
def StrictLineInv (eng : Engine) : String → List MoveNode → Prop
  | _, [] => True
  | before, (.mk _ _ _ fe _ _ _ vars) :: rest =>
    StrictVarsInv eng before vars ∧ StrictLineInv eng fe rest

/-- Each variation is a nonempty continuation replaying from `b`, and
satisfies the invariant with `b` as its line base. -/
def StrictVarsInv (eng : Engine) : String → List (List MoveNode) → Prop
  | _, [] => True
  | b, v :: vs =>
    (v ≠ [] ∧ Consistent eng b v ∧ StrictLineInv eng b v) ∧ StrictVarsInv eng b vs

end

mutual

/-- The builder's branching invariant: variations of a line's first node
replay from the root fallback position `R`; later nodes from the previous
node's FEN. -/
def RLineInv (eng : Engine) (R : String) : String → Bool → List MoveNode → Prop
  | _, _, [] => True
  | before, isFirst, (.mk _ _ _ fe _ _ _ vars) :: rest =>
    RVarsInv eng R (if isFirst then R else before) vars ∧ RLineInv eng R fe false rest

/-- Each variation is nonempty, replays from `b`, and recursively satisfies
the builder's invariant with base `b`. -/
def RVarsInv (eng : Engine) (R : String) : String → List (List MoveNode) → Prop
  | _, [] => True
  | b, v :: vs =>
    (v ≠ [] ∧ Consistent eng b v ∧ RLineInv eng R b true v) ∧ RVarsInv eng R b vs

end

mutual

/-- The invariant preserved by both tree producers: at a line's first node
a variation replays either from the line's base (`handleUserMove`) or from
the root fallback (`parseMovesWithVariations`); later nodes always from
the previous node's FEN. -/
def VLineInv (eng : Engine) (R : String) : String → Bool → List MoveNode → Prop
  | _, _, [] => True
  | before, isFirst, (.mk _ _ _ fe _ _ _ vars) :: rest =>
    VVarsInv eng R before isFirst vars ∧ VLineInv eng R fe false rest

/-- Each variation is nonempty and replays from `b` (always allowed) or —
at a first node — from the root fallback `R`. -/
def VVarsInv (eng : Engine) (R : String) : String → Bool → List (List MoveNode) → Prop
  | _, _, [] => True
  | b, isFirst, v :: vs =>
    (v ≠ [] ∧
      ((Consistent eng b v ∧ VLineInv eng R b true v) ∨
       (isFirst = true ∧ Consistent eng R v ∧ VLineInv eng R R true v))) ∧
    VVarsInv eng R b isFirst vs

end

/-! ## Round-trip support: what re-parsing the serializer's output keeps -/

/-- The NAG a re-parse of the serialized text retains: codes with an inline
PGN form are emitted as a bare glyph part, which the tokenizer then drops;
codes without one are emitted as `$N` and survive; unknown codes are not
emitted at all. -/
def roundNag : Option String → Option String
  | none => none
  | some c =>
    match nagByCode c with
    | some d => if d.inlinePgn.isSome then none else some c
    | none => none

/-- The comment a re-parse retains (the serializer drops empty comments and
the reserved value `wrong`). -/
def roundComment : Option String → Option String
  | none => none
  | some c => if c = "" || c = "wrong" then none else some c

mutual

/-- The tree that re-parsing the serialized text reproduces, for a
well-formed engine-consistent tree: same SANs, squares, FENs and variation
structure; comments kept (minus the reserved value), inline-form NAGs
dropped, overlays (never serialized) dropped. -/
def roundTripLine : List MoveNode → List MoveNode
  | [] => []
  | (.mk sa fr ds fe co ng _ vars) :: rest =>
    .mk sa fr ds fe (roundComment co) (roundNag ng) none (roundTripVars vars)
      :: roundTripLine rest

def roundTripVars : List (List MoveNode) → List (List MoveNode)
  | [] => []
  | v :: vs => roundTripLine v :: roundTripVars vs

end

/-- The tokens contributed by one serialized NAG part. -/
def canonNagToks : Option String → List PgnToken
  | none => []
  | some c =>
    match nagByCode c with
    | some d => if d.inlinePgn.isSome then [] else [.nag c]
    | none => []

/-- The tokens contributed by one serialized comment part. -/
def canonCommentToks : Option String → List PgnToken
  | none => []
  | some c => if c = "" || c = "wrong" then [] else [.comment c]

mutual

/-- The token stream the tokenizer produces from `serializeLine`'s output
for a well-formed tree (move-number parts and bare glyph parts lex to
nothing). -/
def canonLine : List MoveNode → List PgnToken
  | [] => []
  | (.mk sa _ _ _ co ng _ vars) :: rest =>
    .move sa :: (canonNagToks ng ++ canonCommentToks co ++ canonVars vars) ++ canonLine rest

def canonVars : List (List MoveNode) → List PgnToken
  | [] => []
  | v :: vs => (.openVar :: canonLine v ++ [.closeVar]) ++ canonVars vs

end

/-! ## Well-formedness of serialized trees -/

/-- The character set of canonical engine SANs: files, ranks, piece
letters, `x = + # -` and castling `O`. -/
def sanBodyChar (c : Char) : Bool :=
  ('a' ≤ c && c ≤ 'h') || rankChar c || c = 'K' || c = 'Q' || c = 'R' || c = 'B'
  || c = 'N' || c = 'O' || c = 'x' || c = '=' || c = '+' || c = '#' || c = '-'

/-- A SAN that lexes back as a single move token: nonempty, starts with a
move-start character, built from canonical SAN characters. -/
def WfSan (s : String) : Prop :=
  s.data ≠ [] ∧ moveStartChar (s.data.headD ' ') = true ∧ ∀ c ∈ s.data, sanBodyChar c = true

/-- A comment that round-trips verbatim: nonempty, not the reserved value,
already trimmed, and free of `}` (comment delimiter), `"` (header-strip
trigger) and `[` (embedded-directive trigger). -/
def WfComment (s : String) : Prop :=
  s.data ≠ [] ∧ s ≠ "wrong" ∧ jsTrim s.data = s.data ∧
  ∀ c ∈ s.data, c ≠ '}' ∧ c ≠ '"' ∧ c ≠ '['

/-- A NAG value as the parser produces it: a known `$N` code. -/
def WfNag (s : String) : Prop := (nagByCode s).isSome

mutual

/-- Well-formedness of every node of a tree (SANs, comments, NAGs),
hereditarily through variations. -/
def WfLine : List MoveNode → Prop
  | [] => True
  | (.mk sa _ _ _ co ng _ vars) :: rest =>
    (WfSan sa ∧ (∀ c, co = some c → WfComment c) ∧ (∀ g, ng = some g → WfNag g) ∧
      WfVars vars) ∧ WfLine rest

def WfVars : List (List MoveNode) → Prop
  | [] => True
  | v :: vs => WfLine v ∧ WfVars vs

end

mutual

/-- The move skeleton of a tree: SANs, squares, FENs and the nested
variation structure, with comments, NAGs and overlays erased.  Two trees
with the same skeleton have identical SAN sequences and identical
variation structure at every depth. -/
def stripMeta : List MoveNode → List MoveNode
  | [] => []
  | .mk sa fr ds fe _ _ _ vars :: rest =>
    .mk sa fr ds fe none none none (stripMetaVars vars) :: stripMeta rest

def stripMetaVars : List (List MoveNode) → List (List MoveNode)
  | [] => []
  | v :: vs => stripMeta v :: stripMetaVars vs

end

/-- The number of plies of a line a replay attempt actually applies before
stopping (the count the claim's truncation rule refers to). -/
def replaySegCount (eng : Engine) : String → List MoveNode → Nat → Nat
  | _, _, 0 => 0
  | _, [], _ + 1 => 0
  | f, n :: rest, k + 1 =>
    match eng.moveSan f n.san with
    | .legal r => 1 + replaySegCount eng r.fen rest k
    | .illegalNull => replaySegCount eng f rest k
    | .illegalThrow => 0

/-! ## Round-trip support: parts, joined text, token contributions -/

/-- The character stream of a nonempty parts list joined by single
spaces (what `parts.join(' ')` produces). -/
def joinParts : List String → List Char
  | [] => []
  | [p] => p.data
  | p :: q :: ps => p.data ++ ' ' :: joinParts (q :: ps)

/-- The contexts in which one serialized part is tokenized: end of input,
a following separator space, or the closing parenthesis of an enclosing
variation. -/
def RestOk : List Char → Prop
  | [] => True
  | c :: _ => c = ' ' ∨ c = ')'

/-- `p` contributes exactly `toks` to the token stream in any `RestOk`
context. -/
def SegOk (p : String) (toks : List PgnToken) : Prop :=
  ∀ rest, RestOk rest → tokenizeChars (p.data ++ rest) = toks ++ tokenizeChars rest

/-- Boundary well-formedness of one serialized part: nonempty, non-space
boundary characters, no `[`, and no game-result token as a suffix. -/
def PartWf (p : String) : Prop :=
  p.data ≠ [] ∧ jsSpace (p.data.headD ' ') = false ∧
  jsSpace (p.data.getLastD ' ') = false ∧
  (∀ c ∈ p.data, c ≠ '[') ∧
  (∀ tok ∈ resultToks, tok.isSuffixOf p.data = false)

mutual

/-- `serParts` with each part paired with its token contribution. -/
def serPairs : List MoveNode → Nat → Bool → Bool → List (String × List PgnToken)
  | [], _, _, _ => []
  | .mk sa fr ds fe co ng an vars :: rest, moveNum, isBlack, isFirst =>
    (if !isBlack then [(toString moveNum ++ ".", ([] : List PgnToken))]
     else if isFirst then [(toString moveNum ++ "...", ([] : List PgnToken))]
     else [])
    ++ [(sa, [.move sa])]
    ++ (serNagParts (.mk sa fr ds fe co ng an vars)).map (fun p => (p, canonNagToks ng))
    ++ (serCommentParts (.mk sa fr ds fe co ng an vars)).map
        (fun p => (p, canonCommentToks co))
    ++ varPairs vars moveNum (!isBlack)
    ++ serPairs rest (if isBlack then moveNum + 1 else moveNum) (!isBlack) false

def varPairs : List (List MoveNode) → Nat → Bool → List (String × List PgnToken)
  | [], _, _ => []
  | v :: vs, moveNum, b =>
    ("(" ++ String.intercalate " " (serParts v moveNum b true) ++ ")",
      .openVar :: canonLine v ++ [.closeVar]) :: varPairs vs moveNum b

end

/-- Attach several variations in order to node `i`. -/
def attachAll (i : Nat) : List MoveNode → List (List MoveNode) → List MoveNode
  | cur, [] => cur
  | cur, v :: vs => attachAll i (attachVariation cur i v) vs

/-! ## The tree builder's loop invariant -/

/-- Well-formedness of the parse stack: `b` is the base position of the
current line.  Each `saved` frame records an invariant-satisfying parent
line, its end position, and the branch index (always the parent's last
node); the base of the line opened by the frame is the position before
that node — the previous node's FEN, or the root fallback `R` for a
first node.  `aliased` frames arise only from a failing `load`, which the
theorems exclude. -/
def StackInv (eng : Engine) (R : String) : List BFrame → String → Prop
  | [], b => b = R
  | .saved fs ms bfi :: rest, b =>
    ∃ bp, StackInv eng R rest bp ∧ RLineInv eng R bp true ms ∧ Consistent eng bp ms ∧
      fs = endFen bp ms ∧ ms ≠ [] ∧ bfi = ms.length - 1 ∧
      b = (if bfi > 0 then (ms.getD (bfi - 1) default).fen else R)
  | .aliased _ :: _, _ => False

/-- The builder-state invariant maintained by the token loop: for some base
`b` of the current line, the stack is well formed, the current line
satisfies the builder's branching invariant and replays from `b`, and the
engine sits at the line's end position. -/
def BInv (eng : Engine) (R : String) (st : BuildState) : Prop :=
  ∃ b, StackInv eng R st.stack b ∧ RLineInv eng R b true st.cur ∧
    Consistent eng b st.cur ∧ st.fen = endFen b st.cur

/-! ## Concrete engines and fixtures for the claims' concrete instances -/

/-- A table engine over abstract position labels.  `load` accepts
everything (identity); SAN moves are drawn from a small opening table;
rejections throw (the chess.js 1.x behaviour). -/
def engA : Engine where
  load := fun f => some f
  moveSan := fun f s =>
    if f = defaultFen && s = "e4" then .legal ⟨"e4", "e2", "e4", "A"⟩
    else if f = "A" && s = "e5" then .legal ⟨"e5", "e7", "e5", "B"⟩
    else if f = "A" && s = "d5" then .legal ⟨"d5", "d7", "d5", "C"⟩
    else if f = "A" && s = "c5" then .legal ⟨"c5", "c7", "c5", "E"⟩
    else if f = defaultFen && s = "c5" then .legal ⟨"c5", "c7", "c5", "D"⟩
    else if f = "B" && s = "Nf3" then .legal ⟨"Nf3", "g1", "f3", "N"⟩
    else if f = "B" && s = "Nc3" then .legal ⟨"Nc3", "b1", "c3", "M"⟩
    else .illegalThrow
  moveFromTo := fun f o d _ =>
    if f = "B" && o = "g1" && d = "f3" then .legal ⟨"Nf3", "g1", "f3", "N"⟩
    else if f = "B" && o = "b1" && d = "c3" then .legal ⟨"Nc3", "b1", "c3", "M"⟩
    else .illegalNull
  undo := fun _ => "UNDONE"

/-- `engA` with `null`-style rejections (the chess.js 0.x behaviour
declared in the repository's declarations.d.ts). -/
def engANull : Engine where
  load := engA.load
  moveSan := fun f s =>
    match engA.moveSan f s with
    | .illegalThrow => .illegalNull
    | r => r
  moveFromTo := engA.moveFromTo
  undo := engA.undo

/-- The root line `[e4, e5, Nc3]` over `engA`'s labels. -/
def treeA : List MoveNode :=
  [.mk "e4" "e2" "e4" "A" none none none [],
   .mk "e5" "e7" "e5" "B" none none none [],
   .mk "Nc3" "b1" "c3" "M" none none none []]

/-- A navigator over `treeA` positioned after `e5` (index 2). -/
def navA : Nav := ⟨defaultFen, treeA, [], 2, [], "B"⟩

/-- A well-formed tree over `engA`'s labels with a comment, a
non-inline-form NAG and a nested variation. -/
def treeC1 : List MoveNode :=
  [.mk "e4" "e2" "e4" "A" (some "good") (some "$7") none [],
   .mk "e5" "e7" "e5" "B" none none none
     [[.mk "d5" "d7" "d5" "C" none none none []]]]

/-- A one-node line whose SAN `engA` rejects everywhere: replay fails. -/
def badLine : List MoveNode := [.mk "Zz9" "a1" "a2" "X" none none none []]

/-- A navigator whose current line cannot be replayed. -/
def navBad : Nav := ⟨defaultFen, badLine, [], 0, [], defaultFen⟩

/-- A puzzle parse result with a one-ply solution from a black-to-move
base position. -/
def puzzleFixture : ParsedChessData :=
  { initialData with
      ptype := ParseType.puzzle,
      fen := some "8/8/8/8/8/8/8/8 b - - 0 1",
      solutionMoves := [⟨"Qf2#", "f6", "f2", "Z", none, none, none⟩] }

/-! # Theorems -/

/-! ## Character-class lemmas -/

theorem stop_not_start {c : Char} (h : moveStopChar c = true) : moveStartChar c = false := by
  simp only [moveStopChar, jsSpace, Bool.or_eq_true, decide_eq_true_eq] at h
  rcases h with ((((((((((h | h) | h) | h) | h) | h) | h) | h) | h) | h) | h) <;>
    subst h <;> decide

theorem start_not_stop {c : Char} (h : moveStartChar c = true) : moveStopChar c = false := by
  cases hs : moveStopChar c with
  | false => rfl
  | true => rw [stop_not_start hs] at h; exact absurd h (by decide)

theorem start_not_space {c : Char} (h : moveStartChar c = true) : jsSpace c = false := by
  have := start_not_stop h
  simp only [moveStopChar, Bool.or_eq_false_iff] at this
  exact this.1.1.1.1.1

theorem digit_not_start {c : Char} (h : isDigitChar c = true) : moveStartChar c = false := by
  simp only [isDigitChar, Bool.and_eq_true, decide_eq_true_eq] at h
  simp only [moveStartChar, Bool.or_eq_false_iff, Bool.and_eq_false_iff,
    decide_eq_false_iff_not]
  refine ⟨⟨⟨⟨⟨⟨?_, ?_⟩, ?_⟩, ?_⟩, ?_⟩, ?_⟩, ?_⟩ <;>
    first
    | (left; intro hc; exact absurd (le_trans hc h.2) (by decide))
    | (intro hc; subst hc; exact absurd h.2 (by decide))

theorem start_not_digit {c : Char} (h : moveStartChar c = true) : isDigitChar c = false := by
  cases hd : isDigitChar c with
  | false => rfl
  | true => rw [digit_not_start hd] at h; exact absurd h (by decide)

theorem digit_not_space {c : Char} (h : isDigitChar c = true) : jsSpace c = false := by
  simp only [isDigitChar, Bool.and_eq_true, decide_eq_true_eq] at h
  simp only [jsSpace, Bool.or_eq_false_iff, decide_eq_false_iff_not]
  refine ⟨⟨⟨⟨⟨?_, ?_⟩, ?_⟩, ?_⟩, ?_⟩, ?_⟩ <;>
    (intro hc; subst hc; exact absurd h.1 (by decide))

/-! ## Fuel adequacy for the tokenizer -/

@[simp]
theorem tokF_nil (n : Nat) : tokF n [] = [] := by cases n <;> rfl

theorem splitAtChar_some_length {c : Char} :
    ∀ {cs a b : List Char}, splitAtChar c cs = some (a, b) →
      cs.length = a.length + b.length + 1 := by
  intro cs
  induction cs with
  | nil => intro a b h; simp [splitAtChar] at h
  | cons x xs ih =>
    intro a b h
    by_cases hx : x = c
    · simp [splitAtChar, hx] at h
      simp [← h.1, ← h.2]
    · simp only [splitAtChar, if_neg hx] at h
      match hsp : splitAtChar c xs with
      | none => rw [hsp] at h; exact absurd h (by simp)
      | some (a2, b2) =>
        rw [hsp] at h
        simp only [Option.some.injEq, Prod.mk.injEq] at h
        have := ih hsp
        simp [← h.1, ← h.2, this]
        omega

theorem tokF_succ : ∀ (n : Nat) (cs : List Char), cs.length ≤ n →
    tokF (n + 1) cs = tokF n cs := by
  intro n
  induction n using Nat.strong_induction_on with
  | _ n ih =>
    intro cs h
    match cs with
    | [] => simp
    | c :: cs' =>
      match n, h with
      | n' + 1, h =>
        have hlen : cs'.length ≤ n' := by simpa using h
        have hstep : ∀ r : List Char, r.length ≤ n' → tokF (n' + 1) r = tokF n' r :=
          fun r hr => ih n' (Nat.lt_succ_self _) r hr
        show tokF (n' + 1 + 1) (c :: cs') = tokF (n' + 1) (c :: cs')
        rw [show n' + 1 + 1 = (n' + 1) + 1 from rfl]
        simp only [tokF]
        by_cases h1 : jsSpace c
        · simp only [h1, if_true]
          exact hstep cs' hlen
        · simp only [h1, if_false]
          by_cases h2 : (isDigitChar c && isMoveNumSeg ((c :: cs').takeWhile digitDot)) = true
          · simp only [h2, if_true]
            have hd : digitDot c = true := by
              have := (Bool.and_eq_true _ _).mp h2
              simp [digitDot, this.1]
            have : (c :: cs').dropWhile digitDot = cs'.dropWhile digitDot := by
              simp [List.dropWhile, hd]
            rw [this]
            exact hstep _ (le_trans (List.Sublist.length_le
              (List.dropWhile_sublist _)) hlen)
          · simp only [h2, if_false]
            by_cases h3 : c = '{'
            · simp only [h3, if_true]
              match hsp : splitAtChar '}' cs' with
              | none => exact hstep cs' hlen
              | some (content, rest) =>
                have := splitAtChar_some_length hsp
                have hr : rest.length ≤ n' := by omega
                simp [hstep rest hr]
            · simp only [h3, if_false]
              by_cases h4 : c = '$'
              · simp only [h4, if_true]
                have : (cs'.drop (cs'.takeWhile isDigitChar).length).length ≤ n' :=
                  le_trans (by simp) hlen
                simp [hstep _ this]
              · simp only [h4, if_false]
                by_cases h5 : c = '('
                · simp [h5, hstep cs' hlen]
                · simp only [h5, if_false]
                  by_cases h6 : c = ')'
                  · simp [h6, hstep cs' hlen]
                  · simp only [h6, if_false]
                    by_cases h7 : moveStartChar c
                    · simp only [h7, if_true]
                      have hns : moveStopChar c = false := start_not_stop h7
                      have : (c :: cs').dropWhile (fun x => !moveStopChar x) =
                          cs'.dropWhile (fun x => !moveStopChar x) := by
                        simp [List.dropWhile, hns]
                      rw [this]
                      simp [hstep _ (le_trans (List.Sublist.length_le
                        (List.dropWhile_sublist _)) hlen)]
                    · simp only [h7, if_false]
                      exact hstep cs' hlen

theorem tokF_of_le (n : Nat) (cs : List Char) (h : cs.length ≤ n) :
    tokF n cs = tokenizeChars cs := by
  obtain ⟨k, rfl⟩ : ∃ k, n = cs.length + k := ⟨n - cs.length, by omega⟩
  induction k with
  | zero => rfl
  | succ k ihk =>
    rw [show cs.length + (k + 1) = (cs.length + k) + 1 from rfl,
      tokF_succ _ _ (by omega)]
    exact ihk (by omega)

/-! ## Tokenizer step equations -/

theorem tokenizeChars_ws {c : Char} (cs : List Char) (h : jsSpace c = true) :
    tokenizeChars (c :: cs) = tokenizeChars cs := by
  show tokF (cs.length + 1) (c :: cs) = _
  simp only [tokF, h, if_true]
  rfl

theorem tokenizeChars_movenum {c : Char} (cs : List Char)
    (h1 : isDigitChar c = true)
    (h2 : isMoveNumSeg ((c :: cs).takeWhile digitDot) = true) :
    tokenizeChars (c :: cs) = tokenizeChars ((c :: cs).dropWhile digitDot) := by
  show tokF (cs.length + 1) (c :: cs) = _
  simp only [tokF, digit_not_space h1, if_false, h1, h2, Bool.and_self, if_true]
  have hd : digitDot c = true := by simp [digitDot, h1]
  have : (c :: cs).dropWhile digitDot = cs.dropWhile digitDot := by
    simp [List.dropWhile, hd]
  rw [this]
  exact tokF_of_le _ _ (List.Sublist.length_le (List.dropWhile_sublist _))

theorem tokenizeChars_comment (cs content rest : List Char)
    (h : splitAtChar '}' cs = some (content, rest)) :
    tokenizeChars ('{' :: cs) =
      .comment (String.mk (jsTrim content)) :: tokenizeChars rest := by
  have base : tokenizeChars ('{' :: cs) =
      (match splitAtChar '}' cs with
       | none => tokF cs.length cs
       | some (content, rest) =>
         PgnToken.comment (String.mk (jsTrim content)) :: tokF cs.length rest) := rfl
  rw [base, h]
  exact congrArg _ (tokF_of_le _ _ (by have := splitAtChar_some_length h; omega))

theorem tokenizeChars_comment_none (cs : List Char)
    (h : splitAtChar '}' cs = none) :
    tokenizeChars ('{' :: cs) = tokenizeChars cs := by
  have base : tokenizeChars ('{' :: cs) =
      (match splitAtChar '}' cs with
       | none => tokF cs.length cs
       | some (content, rest) =>
         PgnToken.comment (String.mk (jsTrim content)) :: tokF cs.length rest) := rfl
  rw [base, h]
  rfl

theorem tokenizeChars_nag (cs : List Char) :
    tokenizeChars ('$' :: cs) =
      .nag (String.mk ('$' :: cs.takeWhile isDigitChar))
        :: tokenizeChars (cs.drop (cs.takeWhile isDigitChar).length) := by
  have base : tokenizeChars ('$' :: cs) =
      .nag (String.mk ('$' :: cs.takeWhile isDigitChar))
        :: tokF cs.length (cs.drop (cs.takeWhile isDigitChar).length) := rfl
  rw [base]
  exact congrArg _ (tokF_of_le _ _ (by simp))

theorem tokenizeChars_open (cs : List Char) :
    tokenizeChars ('(' :: cs) = .openVar :: tokenizeChars cs := rfl

theorem tokenizeChars_close (cs : List Char) :
    tokenizeChars (')' :: cs) = .closeVar :: tokenizeChars cs := rfl

theorem tokenizeChars_move {c : Char} (cs : List Char)
    (h1 : moveStartChar c = true)
    (h2 : (isDigitChar c && isMoveNumSeg ((c :: cs).takeWhile digitDot)) = false) :
    tokenizeChars (c :: cs) =
      .move (String.mk ((c :: cs).takeWhile (fun x => !moveStopChar x)))
        :: tokenizeChars ((c :: cs).dropWhile (fun x => !moveStopChar x)) := by
  show tokF (cs.length + 1) (c :: cs) = _
  have hns := start_not_space h1
  have hstop := start_not_stop h1
  have hne1 : (c = '{') = False := by
    simp only [eq_iff_iff, iff_false]; intro hc; subst hc; exact absurd h1 (by decide)
  have hne2 : (c = '$') = False := by
    simp only [eq_iff_iff, iff_false]; intro hc; subst hc; exact absurd h1 (by decide)
  have hne3 : (c = '(') = False := by
    simp only [eq_iff_iff, iff_false]; intro hc; subst hc; exact absurd h1 (by decide)
  have hne4 : (c = ')') = False := by
    simp only [eq_iff_iff, iff_false]; intro hc; subst hc; exact absurd h1 (by decide)
  simp only [tokF, hns, h2, hne1, hne2, hne3, hne4, if_false, h1, if_true]
  have : (c :: cs).dropWhile (fun x => !moveStopChar x) =
      cs.dropWhile (fun x => !moveStopChar x) := by
    simp [List.dropWhile, hstop]
  rw [this]
  simp [tokF_of_le cs.length (cs.dropWhile (fun x => !moveStopChar x))
    (List.Sublist.length_le (List.dropWhile_sublist _))]

theorem tokenizeChars_skip {c : Char} (cs : List Char)
    (h1 : jsSpace c = false)
    (h2 : (isDigitChar c && isMoveNumSeg ((c :: cs).takeWhile digitDot)) = false)
    (h3 : c ≠ '{') (h4 : c ≠ '$') (h5 : c ≠ '(') (h6 : c ≠ ')')
    (h7 : moveStartChar c = false) :
    tokenizeChars (c :: cs) = tokenizeChars cs := by
  show tokF (cs.length + 1) (c :: cs) = _
  simp only [tokF, h1, h2, h3, h4, h5, h6, h7, if_false]
  rfl

/-- `takeWhile`/`dropWhile` over a satisfied prefix followed by a stopping
suffix. -/
theorem takeWhile_dropWhile_all_append (p : Char → Bool) :
    ∀ (l rest : List Char), (∀ c ∈ l, p c = true) →
      (rest = [] ∨ ∃ r rs, rest = r :: rs ∧ p r = false) →
      (l ++ rest).takeWhile p = l ∧ (l ++ rest).dropWhile p = rest := by
  intro l
  induction l with
  | nil =>
    intro rest _ hr
    rcases hr with rfl | ⟨r, rs, rfl, hpr⟩
    · simp
    · simp [List.takeWhile, List.dropWhile, hpr]
  | cons c l' ih =>
    intro rest hall hr
    have hc : p c = true := hall c (by simp)
    have := ih rest (fun x hx => hall x (by simp [hx])) hr
    simp [List.takeWhile, List.dropWhile, hc, this.1, this.2]

/-! ## C8: normalizeFen -/

/-- C8.  For a position string with 1 to 6 whitespace-separated fields
whose first field splits into exactly 8 rank groups, `normalizeFen` yields
the 6-field string obtained by filling missing trailing fields with the
defaults `w - - 0 1` (fields joined by single spaces); a string whose
first field does not split into 8 rank groups is returned unchanged; and
`"8/8/8/8/8/8/8/8"` maps to `"8/8/8/8/8/8/8/8 w - - 0 1"`. -/
theorem C8_normalizeFen_defaults :
    (∀ s : String, 1 ≤ (splitWs (jsTrim s.data)).length →
      (splitWs (jsTrim s.data)).length ≤ 6 →
      (List.splitOn '/' ((splitWs (jsTrim s.data)).headD [])).length = 8 →
      normalizeFen s = String.mk (List.intercalate [' ']
        ((splitWs (jsTrim s.data)) ++
          (List.drop ((splitWs (jsTrim s.data)).length - 1)
            [['w'], ['-'], ['-'], ['0'], ['1']])))) ∧
    (∀ s : String,
      (List.splitOn '/' ((splitWs (jsTrim s.data)).headD [])).length ≠ 8 →
      normalizeFen s = s) ∧
    normalizeFen "8/8/8/8/8/8/8/8" = "8/8/8/8/8/8/8/8 w - - 0 1" := by
  refine ⟨?_, ?_, by decide⟩
  · intro s _ h6 h8
    simp only [normalizeFen]
    rcases hp : splitWs (jsTrim s.data) with
      _ | ⟨a, _ | ⟨b, _ | ⟨c, _ | ⟨d, _ | ⟨e, _ | ⟨f, tl⟩⟩⟩⟩⟩⟩ <;>
      simp_all [List.intercalate, List.intersperse]
  · intro s h8
    simp only [normalizeFen]
    simp only [List.headD_eq_head?_getD] at h8
    simp [h8]

/-- Witness for `C8_normalizeFen_defaults` at the concrete input
`"8/8/8/8/8/8/8/8 b"`. -/
theorem C8_normalizeFen_defaults_witness :
    normalizeFen "8/8/8/8/8/8/8/8 b" = String.mk (List.intercalate [' ']
      ((splitWs (jsTrim ("8/8/8/8/8/8/8/8 b" : String).data)) ++
        (List.drop ((splitWs (jsTrim ("8/8/8/8/8/8/8/8 b" : String).data)).length - 1)
          [['w'], ['-'], ['-'], ['0'], ['1']]))) :=
  C8_normalizeFen_defaults.1 "8/8/8/8/8/8/8/8 b" (by decide) (by decide) (by decide)

/-! ## C7: the tokenizer -/

/-- C7.  The concrete input `"1. e4 {good} (1... d5 2. exd5) e5"` lexes to
exactly the claimed seven tokens; a move-number segment (digits then dots)
followed by a non-`[\d.]` character (or the end) contributes no token; and
a trailing game-result token is stripped (`"1. e4 1-0"` lexes to one move
token). -/
theorem C7_tokenizer :
    tokenizePgn "1. e4 {good} (1... d5 2. exd5) e5" =
      [.move "e4", .comment "good", .openVar, .move "d5", .move "exd5",
       .closeVar, .move "e5"] ∧
    (∀ ds dots rest : List Char, ds ≠ [] → (∀ c ∈ ds, isDigitChar c = true) →
      dots ≠ [] → (∀ c ∈ dots, c = '.') →
      (rest = [] ∨ ∃ r rs, rest = r :: rs ∧ digitDot r = false) →
      tokenizeChars (ds ++ (dots ++ rest)) = tokenizeChars rest) ∧
    tokenizePgn "1. e4 1-0" = [.move "e4"] := by
  refine ⟨by decide, ?_, by decide⟩
  intro ds dots rest hds hall hdots hdotall hrest
  match ds, hds with
  | d :: ds', _ =>
    have hd : isDigitChar d = true := hall d (by simp)
    have hdd : ∀ c ∈ (d :: ds') ++ dots, digitDot c = true := by
      intro c hc
      rcases List.mem_append.mp hc with hc | hc
      · simp [digitDot, hall c hc]
      · simp [digitDot, hdotall c hc]
    have htd := takeWhile_dropWhile_all_append digitDot ((d :: ds') ++ dots) rest hdd hrest
    have hseg : ((d :: ds') ++ (dots ++ rest)).takeWhile digitDot = (d :: ds') ++ dots := by
      rw [← List.append_assoc]; exact htd.1
    have hdrop : ((d :: ds') ++ (dots ++ rest)).dropWhile digitDot = rest := by
      rw [← List.append_assoc]; exact htd.2
    have hnum : isMoveNumSeg ((d :: ds') ++ dots) = true := by
      have hdig : ∀ c ∈ (d :: ds'), isDigitChar c = true := hall
      have hdots' : dots = [] ∨ ∃ r rs, dots = r :: rs ∧ isDigitChar r = false := by
        match dots, hdots with
        | q :: qs, _ =>
          right
          exact ⟨q, qs, rfl, by rw [hdotall q (by simp)]; decide⟩
      have h2 := takeWhile_dropWhile_all_append isDigitChar (d :: ds') dots hdig hdots'
      simp only [isMoveNumSeg, h2.1]
      have : ((d :: ds') ++ dots).drop (d :: ds').length = dots := by
        simp [List.drop_append_of_le_length]
      rw [this]
      simp only [Bool.and_eq_true, List.all_eq_true]
      refine ⟨⟨by simp, by simpa using hdots⟩, ?_⟩
      intro c hc
      simp [hdotall c hc]
    have := tokenizeChars_movenum (ds' ++ (dots ++ rest)) hd (by
      have : (d :: (ds' ++ (dots ++ rest))) = (d :: ds') ++ (dots ++ rest) := by simp
      rw [this, hseg]; exact hnum)
    calc tokenizeChars ((d :: ds') ++ (dots ++ rest))
        = tokenizeChars (((d :: ds') ++ (dots ++ rest)).dropWhile digitDot) := this
      _ = tokenizeChars rest := by rw [hdrop]

/-- Witness for `C7_tokenizer`'s quantified conjunct at `"12.." ++ "e4"`. -/
theorem C7_tokenizer_witness :
    tokenizeChars (['1', '2'] ++ (['.', '.'] ++ ['e', '4'])) = tokenizeChars ['e', '4'] :=
  C7_tokenizer.2.1 ['1', '2'] ['.', '.'] ['e', '4'] (by decide)
    (by decide) (by decide) (by decide)
    (Or.inr ⟨'e', ['4'], rfl, by decide⟩)

/-! ## C10: goToMove is idempotent -/

/-- C10.  Calling `goToMove` twice with the same index leaves the
navigator state (tree, current line, cursor, frame stack) and the engine
position exactly as after the first call: the second call is a no-op. -/
theorem C10_goToMove_idempotent (eng : Engine) (nav : Nav) (i : Nat) :
    goToMove eng (goToMove eng nav i).1 i = goToMove eng nav i := by
  simp only [goToMove]
  cases h : replayToPosition eng nav nav.curLine (min nav.curLine.length i) with
  | none => simp [h]
  | some f =>
    have hline : Nav.curLine { nav with
        curIndex := min nav.curLine.length i, fen := f } = nav.curLine := rfl
    have hrep : replayToPosition eng { nav with
        curIndex := min nav.curLine.length i, fen := f } nav.curLine
        (min nav.curLine.length i) =
        replayToPosition eng nav nav.curLine (min nav.curLine.length i) := rfl
    simp [h, hline, hrep]

/-! ## C4: goToMove clamping and replay-failure behaviour -/

/-- C4, counterexample to the claim as stated.  On a navigator whose
single-move line the engine rejects, `goToMove 1` sets the cursor to the
requested clamped index 1 even though 0 plies replay successfully: the
effective index is NOT truncated to the replayed count. -/
theorem C4_counterexample :
    (goToMove engA navBad 1).1.curIndex = 1 ∧
    replaySegCount engA defaultFen badLine (min badLine.length 1) = 0 ∧
    (1 : Nat) ≠ 0 := by decide

/-- C4, amended.  `goToMove` clamps the requested index to
`[0, currentLine.length]`, replays from the root through the ancestor
frames and the current line with failures swallowed, and — when the
starting position loads — no exception escapes, the tree, path and stack
are unchanged, the engine is left at the replayed (possibly truncated)
position, and the cursor is set to the requested CLAMPED index (not the
truncated replay count). -/
theorem C4_goToMove_amended (eng : Engine) (nav : Nav) (index : Nat) (f0 : String)
    (h : eng.load nav.startFen = some f0) :
    (goToMove eng nav index).2 = false ∧
    (goToMove eng nav index).1.curIndex = min nav.curLine.length index ∧
    (goToMove eng nav index).1.tree = nav.tree ∧
    (goToMove eng nav index).1.curPath = nav.curPath ∧
    (goToMove eng nav index).1.lineStack = nav.lineStack ∧
    replayToPosition eng nav nav.curLine (min nav.curLine.length index) =
      some (goToMove eng nav index).1.fen := by
  simp only [goToMove, replayToPosition, h]
  by_cases hb : (replayFrames eng nav.tree f0 nav.lineStack).2 = true <;>
    simp [hb, replayToPosition, h]

/-- Witness for `C4_goToMove_amended` on the concrete `navBad`. -/
theorem C4_goToMove_amended_witness :
    (goToMove engA navBad 1).2 = false ∧
    (goToMove engA navBad 1).1.curIndex = min navBad.curLine.length 1 ∧
    (goToMove engA navBad 1).1.tree = navBad.tree ∧
    (goToMove engA navBad 1).1.curPath = navBad.curPath ∧
    (goToMove engA navBad 1).1.lineStack = navBad.lineStack ∧
    replayToPosition engA navBad navBad.curLine (min navBad.curLine.length 1) =
      some (goToMove engA navBad 1).1.fen :=
  C4_goToMove_amended engA navBad 1 navBad.startFen rfl

/-! ## C6: puzzle finalization -/

/-- C6.  For a non-fen result with a nonempty solution list, the solving
side is the base side to move for an odd number of plies and its opposite
for an even number; the orientation becomes the solving side exactly when
no explicit orientation marker was supplied, and is kept otherwise. -/
theorem C6_finalizePuzzle (r : ParsedChessData) (hm : Bool)
    (ht : r.ptype ≠ .fen) (hs : r.solutionMoves ≠ []) :
    ((finalizePuzzle r hm).playerColor =
      (if r.solutionMoves.length % 2 = 0 then (baseFenTurn r.fen).flip
       else baseFenTurn r.fen)) ∧
    ((finalizePuzzle r hm).orientation =
      (if hm then r.orientation
       else if r.solutionMoves.length % 2 = 0 then (baseFenTurn r.fen).flip
       else baseFenTurn r.fen)) ∧
    (finalizePuzzle r hm).isEditable = false ∧
    (finalizePuzzle r hm).error = r.error := by
  have hs' : r.solutionMoves.isEmpty = false := by
    simpa [List.isEmpty_iff] using hs
  simp only [finalizePuzzle, ht, hs', if_false, Bool.false_eq_true]
  cases hm <;> simp

/-- Witness for `C6_finalizePuzzle`: a one-ply solution from a
black-to-move base position, no orientation marker. -/
theorem C6_finalizePuzzle_witness :
    ((finalizePuzzle puzzleFixture false).playerColor =
      (if puzzleFixture.solutionMoves.length % 2 = 0 then (baseFenTurn puzzleFixture.fen).flip
       else baseFenTurn puzzleFixture.fen)) ∧
    ((finalizePuzzle puzzleFixture false).orientation =
      (if false then puzzleFixture.orientation
       else if puzzleFixture.solutionMoves.length % 2 = 0
       then (baseFenTurn puzzleFixture.fen).flip
       else baseFenTurn puzzleFixture.fen)) ∧
    (finalizePuzzle puzzleFixture false).isEditable = false ∧
    (finalizePuzzle puzzleFixture false).error = puzzleFixture.error :=
  C6_finalizePuzzle puzzleFixture false (by decide) (by decide)

/-! ## C9: marker precedence and accumulation -/

/-- The arrow entry a marker line appends (empty when the line is not an
arrow marker). -/
def arrowAppend (cs : List Char) : List Arrow :=
  match matchArrowMarker cs with
  | some (a, b, w) => [Arrow.mk (lowerStr a) (lowerStr b) (resolveMarkerColor w)]
  | none => []

/-- The circle entry a marker line appends. -/
def circleAppend (cs : List Char) : List Circle :=
  match matchSquareMarker ['c', 'i', 'r', 'c', 'l', 'e'] cs with
  | some (a, w) => [Circle.mk (lowerStr a) (resolveMarkerColor w)]
  | none => []

/-- The highlight entry a marker line appends. -/
def highlightAppend (cs : List Char) : List Highlight :=
  match matchSquareMarker ['h', 'i', 'g', 'h', 'l', 'i', 'g', 'h', 't'] cs with
  | some (a, w) => [Highlight.mk (lowerStr a) (resolveMarkerColor w)]
  | none => []

theorem parseAnnotationMarker_overlays (cs : List Char) (r : ParsedChessData) :
    (parseAnnotationMarker cs r).arrows = r.arrows ++ arrowAppend cs ∧
    (parseAnnotationMarker cs r).circles = r.circles ++ circleAppend cs ∧
    (parseAnnotationMarker cs r).highlights = r.highlights ++ highlightAppend cs := by
  simp only [parseAnnotationMarker, arrowAppend, circleAppend, highlightAppend]
  cases matchArrowMarker cs <;>
    cases matchSquareMarker ['c', 'i', 'r', 'c', 'l', 'e'] cs <;>
    cases matchSquareMarker ['h', 'i', 'g', 'h', 'l', 'i', 'g', 'h', 't'] cs <;>
    simp

theorem kvStage_overlays (cs : List Char) (r : ParsedChessData) :
    (kvStage cs r).arrows = r.arrows ∧ (kvStage cs r).circles = r.circles ∧
    (kvStage cs r).highlights = r.highlights := by
  unfold kvStage
  cases kvMatch cs with
  | none => exact ⟨rfl, rfl, rfl⟩
  | some kv =>
    obtain ⟨k, v⟩ := kv
    dsimp only
    split_ifs <;> exact ⟨rfl, rfl, rfl⟩

theorem boolStage_overlays (cs : List Char) (r : ParsedChessData) :
    (boolStage cs r).arrows = r.arrows ∧ (boolStage cs r).circles = r.circles ∧
    (boolStage cs r).highlights = r.highlights := by
  unfold boolStage
  split_ifs <;> exact ⟨rfl, rfl, rfl⟩

theorem parseMarkerLine_overlays (line : String) (r : ParsedChessData) :
    (parseMarkerLine line r).arrows = r.arrows ++ arrowAppend line.data ∧
    (parseMarkerLine line r).circles = r.circles ++ circleAppend line.data ∧
    (parseMarkerLine line r).highlights = r.highlights ++ highlightAppend line.data := by
  have h1 := kvStage_overlays line.data r
  have h2 := boolStage_overlays line.data (kvStage line.data r)
  have h3 := parseAnnotationMarker_overlays line.data
    (boolStage line.data (kvStage line.data r))
  simp only [parseMarkerLine]
  rw [h3.1, h3.2.1, h3.2.2, h2.1, h2.2.1, h2.2.2, h1.1, h1.2.1, h1.2.2]
  exact ⟨rfl, rfl, rfl⟩

/-- C9.  Later boolean markers of the same kind overwrite earlier state
(`[black]`/`[flip]` and `[white]` set the orientation regardless of what
came before, so the last one wins), while overlay markers accumulate:
every marker line appends exactly its matched arrow/circle/highlight entry
to the corresponding list.  Concretely, processing `[white]` then
`[black]` yields orientation black, and `[arrow: e2e4]` then
`[arrow: d2d4 blue]` yields two arrows, the second blue, the first with no
colour. -/
theorem C9_markers :
    (∀ r : ParsedChessData, (parseMarkerLine "[black]" r).orientation = .black ∧
      (parseMarkerLine "[flip]" r).orientation = .black ∧
      (parseMarkerLine "[white]" r).orientation = .white) ∧
    (∀ (line : String) (r : ParsedChessData),
      (parseMarkerLine line r).arrows = r.arrows ++ arrowAppend line.data ∧
      (parseMarkerLine line r).circles = r.circles ++ circleAppend line.data ∧
      (parseMarkerLine line r).highlights = r.highlights ++ highlightAppend line.data) ∧
    (processMarkers ["[white]", "[black]"] initialData).orientation = .black ∧
    (processMarkers ["[arrow: e2e4]", "[arrow: d2d4 blue]"] initialData).arrows =
      [Arrow.mk "e2" "e4" none, Arrow.mk "d2" "d4" (some "blue")] := by
  refine ⟨fun r => ⟨rfl, rfl, rfl⟩, parseMarkerLine_overlays, rfl, by decide⟩

/-! ## C5: warnings for engine-rejected moves -/

/-- C5, counterexample to the claim as stated.  The input
`"1. e4 Xyz e5"` parses to the two-node main line `[e4, e5]` with an EMPTY
warnings list: `Xyz` never lexes as a move token (X, y and z are all
outside `[a-hKQRBNO]` and are skipped one character at a time), so no
engine rejection and no warning occurs, contradicting the claimed
"exactly one warning". -/
theorem C5_counterexample :
    parseMovesWithVariations engA "1. e4 Xyz e5" none [] =
      ([.mk "e4" "e2" "e4" "A" none none none [],
        .mk "e5" "e7" "e5" "B" none none none []], []) := rfl

/-- C5, amended.  A move token the engine rejects by THROWING appends one
warning recording the move text and the number of moves parsed so far,
contributes no node, and leaves the rest of the builder state unchanged; a
move token rejected by a `null` return is skipped silently; a move token
the tokenizer never produces (such as `Xyz`) causes no warning at all.
Concretely, `"1. e4 b9 e5"` parses to `[e4, e5]` plus exactly one warning
after move count 1, while `"1. e4 Xyz e5"` parses to `[e4, e5]` with no
warning. -/
theorem C5_warnings_amended :
    (∀ (eng : Engine) (rb : String) (st : BuildState) (v : String),
      eng.moveSan st.fen (extractInlineNag v).1 = .illegalThrow →
      buildStep eng rb st (.move v) =
        { st with warnings := st.warnings ++
            ["Skipped invalid move \"" ++ (extractInlineNag v).1 ++ "\" after "
              ++ toString st.cur.length ++ " moves"] }) ∧
    (∀ (eng : Engine) (rb : String) (st : BuildState) (v : String),
      eng.moveSan st.fen (extractInlineNag v).1 = .illegalNull →
      buildStep eng rb st (.move v) = st) ∧
    parseMovesWithVariations engA "1. e4 b9 e5" none [] =
      ([.mk "e4" "e2" "e4" "A" none none none [],
        .mk "e5" "e7" "e5" "B" none none none []],
       ["Skipped invalid move \"b9\" after 1 moves"]) ∧
    (parseMovesWithVariations engA "1. e4 Xyz e5" none []).2 = [] := by
  refine ⟨?_, ?_, rfl, rfl⟩
  · intro eng rb st v h
    simp only [buildStep, h]
  · intro eng rb st v h
    simp only [buildStep, h]

/-- Witness for `C5_warnings_amended`'s quantified conjuncts at a concrete
builder state. -/
theorem C5_warnings_amended_witness :
    buildStep engA defaultFen ⟨"A", [], [], none, none, none, []⟩ (.move "b9") =
      { (⟨"A", [], [], none, none, none, []⟩ : BuildState) with warnings :=
          ([] : List String) ++
            ["Skipped invalid move \"" ++ (extractInlineNag "b9").1 ++ "\" after "
              ++ toString ([] : List MoveNode).length ++ " moves"] } :=
  C5_warnings_amended.1 engA defaultFen ⟨"A", [], [], none, none, none, []⟩ "b9" rfl

/-! ## Path and list helpers for the navigation claims -/

theorem resolveLine_append_one (t : List MoveNode) :
    ∀ (p : LinePath) (i j : Nat),
      resolveLine t (p ++ [(i, j)]) =
        match resolveLine t p with
        | some l =>
          match l.get? i with
          | some n => n.variations.get? j
          | none => none
        | none => none := by
  intro p
  induction p generalizing t with
  | nil =>
    intro i j
    simp only [List.nil_append, resolveLine]
    match hga : t.get? i with
    | none => rfl
    | some n =>
      dsimp only
      match hgb : n.variations.get? j with
      | none => rfl
      | some sub => simp [resolveLine]
  | cons step p' ih =>
    intro i j
    obtain ⟨a, b⟩ := step
    simp only [List.cons_append, resolveLine]
    match hga : t.get? a with
    | none => rfl
    | some n =>
      dsimp only
      match hgb : n.variations.get? b with
      | none => rfl
      | some sub => exact ih sub i j

theorem resolveLine_updateLineAt (f : List MoveNode → List MoveNode) :
    ∀ (p : LinePath) (t l : List MoveNode), resolveLine t p = some l →
      resolveLine (updateLineAt t p f) p = some (f l) := by
  intro p
  induction p with
  | nil =>
    intro t l h
    simp only [resolveLine] at h
    cases h
    simp [resolveLine, updateLineAt]
  | cons step p' ih =>
    intro t l h
    obtain ⟨a, b⟩ := step
    simp only [resolveLine] at h
    match hga : t.get? a with
    | none => rw [hga] at h; exact absurd h (by simp)
    | some n =>
      rw [hga] at h
      dsimp only at h
      match hgb : n.variations.get? b with
      | none => rw [hgb] at h; exact absurd h (by simp)
      | some sub =>
        rw [hgb] at h
        have ha : a < t.length := List.get?_eq_some.mp hga |>.1
        have hb : b < n.variations.length := List.get?_eq_some.mp hgb |>.1
        simp only [updateLineAt, hga, hgb, resolveLine]
        rw [List.get?_set_eq_of_lt _ ha]
        cases n with
        | mk sa fr ds fe co ng an vars =>
          simp only [MoveNode.withVariations, MoveNode.variations] at hgb ⊢
          rw [List.get?_set_eq_of_lt _ (by simpa using hb)]
          exact ih sub l h

theorem firstMatchIdx_spec {α : Type} (p : α → Bool) :
    ∀ (l : List α) (i : Nat), firstMatchIdx p l = some i →
      ∃ x, l.get? i = some x ∧ p x = true := by
  intro l
  induction l with
  | nil => intro i h; simp [firstMatchIdx] at h
  | cons a l' ih =>
    intro i h
    simp only [firstMatchIdx] at h
    by_cases hp : p a
    · rw [if_pos hp] at h
      cases h
      exact ⟨a, rfl, hp⟩
    · rw [if_neg hp] at h
      rcases Option.map_eq_some'.mp h with ⟨j, hj, rfl⟩
      obtain ⟨x, hx, hpx⟩ := ih j hj
      exact ⟨x, by simpa using hx, hpx⟩

/-! ## C3: handleUserMove divergence rule -/

theorem getD_of_get? {l : List MoveNode} {i : Nat} {x : MoveNode}
    (h : l.get? i = some x) : l.getD i default = x := by
  simp [List.getD, ← List.get?_eq_getElem?, h]

/-- When the unguarded `chess.load` succeeds, `goToMove` cannot throw: it
returns the same navigator with the cursor set to the clamped index and
some engine-produced position. -/
theorem goToMove_ok (eng : Engine) (nv : Nav) (k : Nat) (f0 : String)
    (hload : eng.load nv.startFen = some f0) :
    ∃ fe, goToMove eng nv k =
      ({ nv with curIndex := min nv.curLine.length k, fen := fe }, false) := by
  by_cases hb : (replayFrames eng nv.tree f0 nv.lineStack).2 = true
  · refine ⟨(replayFrames eng nv.tree f0 nv.lineStack).1, ?_⟩
    simp only [goToMove, replayToPosition, hload, hb, if_true]
  · refine ⟨(replaySeg eng (replayFrames eng nv.tree f0 nv.lineStack).1 nv.curLine
      (min nv.curLine.length k)).1, ?_⟩
    simp only [goToMove, replayToPosition, hload]
    rw [if_neg hb]

/-- C3.  For an accepted user move: (1) when its SAN equals the next
node's SAN, only the cursor advances and the tree is unchanged; (2) when
it equals the first-move SAN of an existing variation of the next node,
that variation is entered (frame pushed, cursor 1) and the tree is
unchanged — no duplicate; (3) at the end of the line the move is appended
to the current line and no variation is created; (4) otherwise exactly one
new one-node variation is attached to the next node — whose other fields
and the rest of the line are untouched — and it is entered. -/
theorem C3_handleUserMove (eng : Engine) (nav : Nav) (orig dest : String)
    (promo : Option String) (mv : MoveRec) (line : List MoveNode) (f0 : String)
    (hmv : eng.moveFromTo nav.fen orig dest promo = .legal mv)
    (hres : resolveLine nav.tree nav.curPath = some line)
    (hload : eng.load nav.startFen = some f0) :
    (∀ next, line.get? nav.curIndex = some next → next.san = mv.san →
      handleUserMove eng nav orig dest promo =
        { nav with curIndex := nav.curIndex + 1, fen := mv.fen }) ∧
    (∀ next vIdx, line.get? nav.curIndex = some next → next.san ≠ mv.san →
      firstMatchIdx (fun v => !v.isEmpty && (v.headD default).san == mv.san)
          next.variations = some vIdx →
      (handleUserMove eng nav orig dest promo).tree = nav.tree ∧
      (handleUserMove eng nav orig dest promo).curPath =
        nav.curPath ++ [(nav.curIndex, vIdx)] ∧
      (handleUserMove eng nav orig dest promo).lineStack =
        nav.lineStack ++ [(nav.curPath, nav.curIndex + 1)] ∧
      (handleUserMove eng nav orig dest promo).curIndex = 1) ∧
    (line.length ≤ nav.curIndex →
      handleUserMove eng nav orig dest promo =
        { nav with
            tree := updateLineAt nav.tree nav.curPath
              (fun l => l ++ [MoveNode.mk mv.san mv.frm mv.dst mv.fen none none none []]),
            curIndex := line.length + 1, fen := mv.fen }) ∧
    (∀ next, line.get? nav.curIndex = some next → next.san ≠ mv.san →
      firstMatchIdx (fun v => !v.isEmpty && (v.headD default).san == mv.san)
          next.variations = none →
      (handleUserMove eng nav orig dest promo).tree =
        updateLineAt nav.tree nav.curPath
          (fun l => attachVariation l nav.curIndex
            [MoveNode.mk mv.san mv.frm mv.dst mv.fen none none none []]) ∧
      resolveLine (handleUserMove eng nav orig dest promo).tree nav.curPath =
        some (line.set nav.curIndex (next.withVariations (next.variations ++
          [[MoveNode.mk mv.san mv.frm mv.dst mv.fen none none none []]]))) ∧
      (handleUserMove eng nav orig dest promo).curPath =
        nav.curPath ++ [(nav.curIndex, next.variations.length)] ∧
      (handleUserMove eng nav orig dest promo).lineStack =
        nav.lineStack ++ [(nav.curPath, nav.curIndex + 1)] ∧
      (handleUserMove eng nav orig dest promo).curIndex = 1) := by
  have hcur : nav.curLine = line := by simp [Nav.curLine, hres]
  refine ⟨?_, ?_, ?_, ?_⟩
  · -- case 1: retrace the existing next node
    intro next hnext hsan
    have hlt : nav.curIndex < line.length := (List.get?_eq_some.mp hnext).1
    have hgd := getD_of_get? hnext
    simp only [handleUserMove, hmv, hcur, hgd, hsan, hlt]
    simp
  · -- case 2: enter the matching existing variation
    intro next vIdx hnext hsan hfm
    have hlt : nav.curIndex < line.length := (List.get?_eq_some.mp hnext).1
    have hgd := getD_of_get? hnext
    obtain ⟨v, hv, hpv⟩ := firstMatchIdx_spec _ next.variations vIdx hfm
    have hvne : v.isEmpty = false := by
      rcases Bool.and_eq_true _ _ |>.mp hpv with ⟨h1, _⟩
      simpa using h1
    have hbeq : (next.san == mv.san) = false := by
      simpa using hsan
    simp only [handleUserMove, hmv, hcur, hgd, hbeq, hlt, if_true, Bool.and_false,
      decide_True, Bool.true_and, Bool.false_eq_true, if_false, hfm]
    -- evaluate goToVariation and the two goToMove calls
    have hcur1 : ∀ fe, Nav.curLine { nav with fen := fe } = line := fun _ => hcur
    simp only [goToVariation, hcur1, hnext, hv]
    have hpath2 : resolveLine nav.tree (nav.curPath ++ [(nav.curIndex, vIdx)]) = some v := by
      rw [resolveLine_append_one, hres]
      dsimp only
      rw [hnext]
      dsimp only
      exact hv
    obtain ⟨fe1, h1⟩ := goToMove_ok eng
      { nav with
        fen := eng.undo mv.fen,
        lineStack := nav.lineStack ++ [(nav.curPath, nav.curIndex + 1)],
        curPath := nav.curPath ++ [(nav.curIndex, vIdx)],
        curIndex := 0 } 0 f0 hload
    simp only [Nat.min_zero] at h1
    rw [h1]
    simp only [Bool.false_eq_true, if_false]
    have hminv : min v.length 1 = 1 := by
      cases v with
      | nil => simp at hvne
      | cons a t => exact min_eq_right (Nat.succ_le_succ (Nat.zero_le _))
    obtain ⟨fe2, h2⟩ := goToMove_ok eng
      { nav with
        fen := fe1,
        lineStack := nav.lineStack ++ [(nav.curPath, nav.curIndex + 1)],
        curPath := nav.curPath ++ [(nav.curIndex, vIdx)],
        curIndex := 0 } 1 f0 hload
    simp only [Nav.curLine, hpath2, Option.getD_some, hminv] at h2
    rw [h2]
    exact ⟨rfl, rfl, rfl, rfl⟩
  · -- case 3: append at the end of the current line
    intro hge
    have hnlt : (nav.curIndex < line.length) = False := by
      simp only [eq_iff_iff, iff_false]; omega
    simp only [handleUserMove, hmv, hcur, hnlt]
    simp
  · -- case 4: create and enter a brand-new one-node variation
    intro next hnext hsan hfm
    have hlt : nav.curIndex < line.length := (List.get?_eq_some.mp hnext).1
    have hgd := getD_of_get? hnext
    have hbeq : (next.san == mv.san) = false := by simpa using hsan
    simp only [handleUserMove, hmv, hcur, hgd, hbeq, hlt, hfm, if_true, Bool.and_false,
      Bool.false_eq_true, if_false]
    set nd : MoveNode := .mk mv.san mv.frm mv.dst mv.fen none none none [] with hnd
    have hattach : attachVariation line nav.curIndex [nd] =
        line.set nav.curIndex (next.withVariations (next.variations ++ [[nd]])) := by
      simp only [attachVariation, hnext]
    have hres2 : resolveLine
        (updateLineAt nav.tree nav.curPath (fun l => attachVariation l nav.curIndex [nd]))
        nav.curPath =
        some (line.set nav.curIndex (next.withVariations (next.variations ++ [[nd]]))) := by
      rw [resolveLine_updateLineAt _ nav.curPath nav.tree line hres, hattach]
    have hget2 : (line.set nav.curIndex
        (next.withVariations (next.variations ++ [[nd]]))).get? nav.curIndex =
        some (next.withVariations (next.variations ++ [[nd]])) :=
      List.get?_set_eq_of_lt _ hlt
    have hvars2 : (next.withVariations (next.variations ++ [[nd]])).variations =
        next.variations ++ [[nd]] := by
      cases next with
      | mk a b c d e f g h => simp [MoveNode.withVariations, MoveNode.variations]
    have hcount : ((((resolveLine
        (updateLineAt nav.tree nav.curPath (fun l => attachVariation l nav.curIndex [nd]))
        nav.curPath).getD []).getD nav.curIndex default).variations).length =
        next.variations.length + 1 := by
      rw [hres2]
      simp only [Option.getD_some]
      rw [getD_of_get? hget2, hvars2]
      simp
    have hgetv : (next.variations ++ [[nd]]).get? next.variations.length = some [nd] :=
      List.get?_concat_length _ _
    have hpath2 : resolveLine
        (updateLineAt nav.tree nav.curPath (fun l => attachVariation l nav.curIndex [nd]))
        (nav.curPath ++ [(nav.curIndex, next.variations.length)]) = some [nd] := by
      rw [resolveLine_append_one, hres2]
      dsimp only
      rw [hget2]
      dsimp only
      rw [hvars2]
      exact hgetv
    -- evaluate the let-bound navigation
    have hcur4 : Nav.curLine
        { nav with
          tree := updateLineAt nav.tree nav.curPath
            (fun l => attachVariation l nav.curIndex [nd]),
          fen := eng.undo mv.fen } =
        line.set nav.curIndex (next.withVariations (next.variations ++ [[nd]])) := by
      simp [Nav.curLine, hres2]
    simp only [goToVariation, hcount, Nat.add_sub_cancel, hcur4, hget2, hvars2, hgetv]
    obtain ⟨fe1, h1⟩ := goToMove_ok eng
      { nav with
        tree := updateLineAt nav.tree nav.curPath
          (fun l => attachVariation l nav.curIndex [nd]),
        fen := eng.undo mv.fen,
        lineStack := nav.lineStack ++ [(nav.curPath, nav.curIndex + 1)],
        curPath := nav.curPath ++ [(nav.curIndex, next.variations.length)],
        curIndex := 0 } 0 f0 hload
    simp only [Nat.min_zero] at h1
    rw [h1]
    simp only [Bool.false_eq_true, if_false]
    obtain ⟨fe2, h2⟩ := goToMove_ok eng
      { nav with
        tree := updateLineAt nav.tree nav.curPath
          (fun l => attachVariation l nav.curIndex [nd]),
        fen := fe1,
        lineStack := nav.lineStack ++ [(nav.curPath, nav.curIndex + 1)],
        curPath := nav.curPath ++ [(nav.curIndex, next.variations.length)],
        curIndex := 0 } 1 f0 hload
    simp only [Nav.curLine, hpath2, Option.getD_some, List.length_singleton,
      Nat.min_self] at h2
    rw [h2]
    exact ⟨rfl, hres2, rfl, rfl, rfl⟩

theorem C3_handleUserMove_witness :
    (handleUserMove engA navA "g1" "f3" none).tree =
      [MoveNode.mk "e4" "e2" "e4" "A" none none none [],
       MoveNode.mk "e5" "e7" "e5" "B" none none none [],
       MoveNode.mk "Nc3" "b1" "c3" "M" none none none
         [[MoveNode.mk "Nf3" "g1" "f3" "N" none none none []]]] ∧
    (handleUserMove engA navA "g1" "f3" none).curPath = [(2, 0)] ∧
    (handleUserMove engA navA "g1" "f3" none).lineStack = [([], 3)] ∧
    (handleUserMove engA navA "g1" "f3" none).curIndex = 1 := by
  obtain ⟨-, -, -, h4⟩ := C3_handleUserMove engA navA "g1" "f3" none
    ⟨"Nf3", "g1", "f3", "N"⟩ treeA defaultFen rfl rfl rfl
  obtain ⟨ht, -, hp, hs, hi⟩ := h4 (MoveNode.mk "Nc3" "b1" "c3" "M" none none none [])
    rfl (by decide) rfl
  exact ⟨ht, hp, hs, hi⟩

/-! ## C2: the branching invariant -/

theorem attachVariation_cons_succ (x : MoveNode) (rest : List MoveNode) (k : Nat)
    (v : List MoveNode) :
    attachVariation (x :: rest) (k + 1) v = x :: attachVariation rest k v := by
  cases h : rest[k]? <;>
    simp [attachVariation, List.get?_eq_getElem?, List.getElem?_cons_succ, h,
      List.set_cons_succ]

theorem attachVariation_zero (x : MoveNode) (rest : List MoveNode) (v : List MoveNode) :
    attachVariation (x :: rest) 0 v = x.withVariations (x.variations ++ [v]) :: rest := by
  simp [attachVariation]

theorem endFen_cons (b : String) (m : MoveNode) (l : List MoveNode) :
    endFen b (m :: l) = endFen m.fen l := by
  cases l with
  | nil => rfl
  | cons y t =>
    cases h : (y :: t).getLast? with
    | none => simp at h
    | some n => simp [endFen, List.getLast?_cons_cons, h]

theorem endFen_append_one (b : String) (l : List MoveNode) (n : MoveNode) :
    endFen b (l ++ [n]) = n.fen := by
  simp [endFen, List.getLast?_concat]

theorem endFen_set : ∀ (l : List MoveNode) (b : String) (i : Nat) (m m' : MoveNode),
    l.get? i = some m → m'.fen = m.fen → endFen b (l.set i m') = endFen b l
  | [], _, _, _, _, h, _ => by simp at h
  | x :: rest, b, 0, m, m', h, hf => by
    have hm : x = m := by simpa using h
    subst hm
    rw [List.set_cons_zero, endFen_cons, endFen_cons, hf]
  | x :: rest, b, k + 1, m, m', h, hf => by
    rw [List.set_cons_succ, endFen_cons, endFen_cons]
    exact endFen_set rest x.fen k m m' (by simpa using h) hf

theorem dropLast_append_eq_set : ∀ (l : List MoveNode) (m' : MoveNode), l ≠ [] →
    l.dropLast ++ [m'] = l.set (l.length - 1) m'
  | [], _, h => absurd rfl h
  | [_], _, _ => rfl
  | x :: y :: t, m', _ => by
    show x :: ((y :: t).dropLast ++ [m']) = x :: (y :: t).set ((y :: t).length - 1) m'
    rw [dropLast_append_eq_set (y :: t) m' (by simp)]

theorem Consistent_set (eng : Engine) :
    ∀ (l : List MoveNode) (b : String) (i : Nat) (m m' : MoveNode),
    Consistent eng b l → l.get? i = some m →
    m'.san = m.san → m'.frm = m.frm → m'.dst = m.dst → m'.fen = m.fen →
    Consistent eng b (l.set i m')
  | [], _, _, _, _, _, hg, _, _, _, _ => by simp at hg
  | x :: rest, b, 0, m, m', hc, hg, hsa, hfr, hds, hfe => by
    have hm : x = m := by simpa using hg
    subst hm
    rw [List.set_cons_zero]
    simp only [Consistent] at hc ⊢
    exact ⟨by rw [hsa, hfr, hds, hfe]; exact hc.1, by rw [hfe]; exact hc.2⟩
  | x :: rest, b, k + 1, m, m', hc, hg, hsa, hfr, hds, hfe => by
    rw [List.set_cons_succ]
    simp only [Consistent] at hc ⊢
    exact ⟨hc.1, Consistent_set eng rest x.fen k m m' hc.2 (by simpa using hg)
      hsa hfr hds hfe⟩

theorem consistent_replaceLast (eng : Engine) (l : List MoveNode) (b : String)
    (m m' : MoveNode) (hc : Consistent eng b l) (hl : l.getLast? = some m)
    (hsa : m'.san = m.san) (hfr : m'.frm = m.frm) (hds : m'.dst = m.dst)
    (hfe : m'.fen = m.fen) :
    Consistent eng b (l.dropLast ++ [m']) := by
  have hne : l ≠ [] := by rintro rfl; simp at hl
  rw [dropLast_append_eq_set l m' hne]
  exact Consistent_set eng l b (l.length - 1) m m' hc
    (by rw [← List.getLast?_eq_get?]; exact hl) hsa hfr hds hfe

theorem endFen_replaceLast (b : String) (l : List MoveNode) (m m' : MoveNode)
    (hl : l.getLast? = some m) (hfe : m'.fen = m.fen) :
    endFen b (l.dropLast ++ [m']) = endFen b l := by
  have hne : l ≠ [] := by rintro rfl; simp at hl
  rw [dropLast_append_eq_set l m' hne]
  exact endFen_set l b (l.length - 1) m m' (by rw [← List.getLast?_eq_get?]; exact hl) hfe

theorem Consistent_append_one (eng : Engine) :
    ∀ (l : List MoveNode) (b : String) (n : MoveNode),
    Consistent eng b l →
    eng.moveSan (endFen b l) n.san = .legal ⟨n.san, n.frm, n.dst, n.fen⟩ →
    Consistent eng b (l ++ [n])
  | [], b, n, _, hm => by
    simp only [List.nil_append, Consistent]
    exact ⟨hm, trivial⟩
  | x :: rest, b, n, hc, hm => by
    rw [List.cons_append]
    simp only [Consistent] at hc ⊢
    refine ⟨hc.1, Consistent_append_one eng rest x.fen n hc.2 ?_⟩
    rw [← endFen_cons b]
    exact hm

theorem RLineInv_set_samevars (eng : Engine) (R : String) :
    ∀ (l : List MoveNode) (b : String) (isF : Bool) (i : Nat)
      (sa fr ds fe : String) (c n : Option String) (a : Option MoveAnnot)
      (vs : List (List MoveNode)) (c' n' : Option String) (a' : Option MoveAnnot),
    RLineInv eng R b isF l → l.get? i = some (.mk sa fr ds fe c n a vs) →
    RLineInv eng R b isF (l.set i (.mk sa fr ds fe c' n' a' vs))
  | [], _, _, _, _, _, _, _, _, _, _, _, _, _, _, _, hg => by simp at hg
  | x :: rest, b, isF, 0, sa, fr, ds, fe, c, n, a, vs, c', n', a', h, hg => by
    have hm : x = .mk sa fr ds fe c n a vs := by simpa using hg
    subst hm
    rw [List.set_cons_zero]
    simp only [RLineInv] at h ⊢
    exact h
  | x :: rest, b, isF, k + 1, sa, fr, ds, fe, c, n, a, vs, c', n', a', h, hg => by
    rw [List.set_cons_succ]
    cases x with
    | mk xsa xfr xds xfe xc xn xa xvs =>
      simp only [RLineInv] at h ⊢
      exact ⟨h.1, RLineInv_set_samevars eng R rest xfe false k sa fr ds fe c n a vs c' n' a'
        h.2 (by simpa using hg)⟩

theorem rlineInv_replaceLast (eng : Engine) (R : String) (l : List MoveNode) (b : String)
    (isF : Bool) (sa fr ds fe : String) (c n : Option String) (a : Option MoveAnnot)
    (vs : List (List MoveNode)) (c' n' : Option String) (a' : Option MoveAnnot)
    (h : RLineInv eng R b isF l) (hl : l.getLast? = some (.mk sa fr ds fe c n a vs)) :
    RLineInv eng R b isF (l.dropLast ++ [.mk sa fr ds fe c' n' a' vs]) := by
  have hne : l ≠ [] := by rintro rfl; simp at hl
  rw [dropLast_append_eq_set l _ hne]
  exact RLineInv_set_samevars eng R l b isF (l.length - 1) sa fr ds fe c n a vs c' n' a' h
    (by rw [← List.getLast?_eq_get?]; exact hl)

theorem RLineInv_append_novars (eng : Engine) (R : String) :
    ∀ (l : List MoveNode) (b : String) (isF : Bool) (sa fr ds fe : String)
      (c n : Option String) (a : Option MoveAnnot),
    RLineInv eng R b isF l →
    RLineInv eng R b isF (l ++ [.mk sa fr ds fe c n a []])
  | [], b, isF, sa, fr, ds, fe, c, n, a, _ => by
    simp [RLineInv, RVarsInv]
  | x :: rest, b, isF, sa, fr, ds, fe, c, n, a, h => by
    cases x with
    | mk xsa xfr xds xfe xc xn xa xvs =>
      rw [List.cons_append]
      simp only [RLineInv] at h ⊢
      exact ⟨h.1, RLineInv_append_novars eng R rest xfe false sa fr ds fe c n a h.2⟩

theorem RVarsInv_append_one (eng : Engine) (R : String) :
    ∀ (vs : List (List MoveNode)) (bv : String) (v : List MoveNode),
    RVarsInv eng R bv vs → v ≠ [] → Consistent eng bv v → RLineInv eng R bv true v →
    RVarsInv eng R bv (vs ++ [v])
  | [], bv, v, _, hne, hcv, hlv => by
    simp only [List.nil_append, RVarsInv]
    exact ⟨⟨hne, hcv, hlv⟩, trivial⟩
  | w :: ws, bv, v, h, hne, hcv, hlv => by
    rw [List.cons_append]
    simp only [RVarsInv] at h ⊢
    exact ⟨h.1, RVarsInv_append_one eng R ws bv v h.2 hne hcv hlv⟩

theorem RLineInv_attach (eng : Engine) (R : String) :
    ∀ (ms : List MoveNode) (b : String) (isF : Bool) (i : Nat) (v : List MoveNode),
    RLineInv eng R b isF ms → i < ms.length → v ≠ [] →
    Consistent eng (if i = 0 then (if isF then R else b)
      else (ms.getD (i - 1) default).fen) v →
    RLineInv eng R (if i = 0 then (if isF then R else b)
      else (ms.getD (i - 1) default).fen) true v →
    RLineInv eng R b isF (attachVariation ms i v)
  | [], _, _, i, _, _, hi, _, _, _ => absurd hi (by simp)
  | x :: rest, b, isF, 0, v, h, hi, hne, hcv, hlv => by
    cases x with
    | mk xsa xfr xds xfe xc xn xa xvs =>
      rw [attachVariation_zero]
      simp only [MoveNode.withVariations, MoveNode.variations]
      simp only [RLineInv] at h ⊢
      refine ⟨?_, h.2⟩
      exact RVarsInv_append_one eng R xvs _ v h.1 hne (by simpa using hcv)
        (by simpa using hlv)
  | x :: rest, b, isF, k + 1, v, h, hi, hne, hcv, hlv => by
    cases x with
    | mk xsa xfr xds xfe xc xn xa xvs =>
      rw [attachVariation_cons_succ]
      simp only [RLineInv] at h ⊢
      refine ⟨h.1, ?_⟩
      have hb : (if k = 0 then (if false then R else xfe)
          else (rest.getD (k - 1) default).fen)
          = (if k + 1 = 0 then (if isF then R else b)
             else ((MoveNode.mk xsa xfr xds xfe xc xn xa xvs :: rest).getD
               (k + 1 - 1) default).fen) := by
        cases k with
        | zero => simp [MoveNode.fen]
        | succ k2 => simp
      exact RLineInv_attach eng R rest xfe false k v h.2 (by simpa using hi) hne
        (by rw [hb]; exact hcv) (by rw [hb]; exact hlv)

theorem VVarsInv_append_one (eng : Engine) (R : String) :
    ∀ (vs : List (List MoveNode)) (bv : String) (isF : Bool) (v : List MoveNode),
    VVarsInv eng R bv isF vs → v ≠ [] → Consistent eng bv v → VLineInv eng R bv true v →
    VVarsInv eng R bv isF (vs ++ [v])
  | [], bv, isF, v, _, hne, hcv, hlv => by
    simp only [List.nil_append, VVarsInv]
    exact ⟨⟨hne, Or.inl ⟨hcv, hlv⟩⟩, trivial⟩
  | w :: ws, bv, isF, v, h, hne, hcv, hlv => by
    rw [List.cons_append]
    simp only [VVarsInv] at h ⊢
    exact ⟨h.1, VVarsInv_append_one eng R ws bv isF v h.2 hne hcv hlv⟩

theorem VLineInv_attach (eng : Engine) (R : String) :
    ∀ (ms : List MoveNode) (b : String) (isF : Bool) (i : Nat) (v : List MoveNode),
    VLineInv eng R b isF ms → i < ms.length → v ≠ [] →
    Consistent eng (if i = 0 then b else (ms.getD (i - 1) default).fen) v →
    VLineInv eng R (if i = 0 then b else (ms.getD (i - 1) default).fen) true v →
    VLineInv eng R b isF (attachVariation ms i v)
  | [], _, _, i, _, _, hi, _, _, _ => absurd hi (by simp)
  | x :: rest, b, isF, 0, v, h, hi, hne, hcv, hlv => by
    cases x with
    | mk xsa xfr xds xfe xc xn xa xvs =>
      rw [attachVariation_zero]
      simp only [MoveNode.withVariations, MoveNode.variations]
      simp only [VLineInv] at h ⊢
      refine ⟨?_, h.2⟩
      exact VVarsInv_append_one eng R xvs b isF v h.1 hne (by simpa using hcv)
        (by simpa using hlv)
  | x :: rest, b, isF, k + 1, v, h, hi, hne, hcv, hlv => by
    cases x with
    | mk xsa xfr xds xfe xc xn xa xvs =>
      rw [attachVariation_cons_succ]
      simp only [VLineInv] at h ⊢
      refine ⟨h.1, ?_⟩
      have hb : (if k = 0 then xfe else (rest.getD (k - 1) default).fen)
          = (if k + 1 = 0 then b
             else ((MoveNode.mk xsa xfr xds xfe xc xn xa xvs :: rest).getD
               (k + 1 - 1) default).fen) := by
        cases k with
        | zero => simp [MoveNode.fen]
        | succ k2 => simp
      exact VLineInv_attach eng R rest xfe false k v h.2 (by simpa using hi) hne
        (by rw [hb]; exact hcv) (by rw [hb]; exact hlv)

mutual

theorem RLineInv_to_V (eng : Engine) (R : String) :
    ∀ (b : String) (isF : Bool) (l : List MoveNode),
    RLineInv eng R b isF l → VLineInv eng R b isF l
  | _, _, [], _ => by simp [VLineInv]
  | b, isF, .mk sa fr ds fe c n a vars :: rest, h => by
    simp only [RLineInv] at h
    simp only [VLineInv]
    exact ⟨RVarsInv_to_V eng R (if isF then R else b) b isF vars h.1
        (by cases isF <;> simp),
      RLineInv_to_V eng R fe false rest h.2⟩

theorem RVarsInv_to_V (eng : Engine) (R : String) :
    ∀ (bv b : String) (isF : Bool) (vs : List (List MoveNode)),
    RVarsInv eng R bv vs → (bv = b ∨ (isF = true ∧ bv = R)) →
    VVarsInv eng R b isF vs
  | _, _, _, [], _, _ => by simp [VVarsInv]
  | bv, b, isF, v :: ws, h, hbase => by
    simp only [RVarsInv] at h
    simp only [VVarsInv]
    obtain ⟨⟨hne, hcv, hlv⟩, hrest⟩ := h
    refine ⟨⟨hne, ?_⟩, RVarsInv_to_V eng R bv b isF ws hrest hbase⟩
    have hv := RLineInv_to_V eng R bv true v hlv
    cases hbase with
    | inl e => subst e; exact Or.inl ⟨hcv, hv⟩
    | inr e =>
      obtain ⟨hf, e⟩ := e
      subst e
      exact Or.inr ⟨hf, hcv, hv⟩

end

theorem BInv_replaceLast (eng : Engine) (R : String) (st : BuildState) (m m' : MoveNode)
    (h : BInv eng R st) (hl : st.cur.getLast? = some m)
    (hsa : m'.san = m.san) (hfr : m'.frm = m.frm) (hds : m'.dst = m.dst)
    (hfe : m'.fen = m.fen) (hvars : m'.variations = m.variations) :
    BInv eng R { st with cur := st.cur.dropLast ++ [m'] } := by
  obtain ⟨b, hst, hline, hcons, hfen⟩ := h
  refine ⟨b, hst, ?_, ?_, ?_⟩
  · cases m with
    | mk sa fr ds fe c n a vs =>
      cases m' with
      | mk sa' fr' ds' fe' c' n' a' vs' =>
        simp only [MoveNode.san, MoveNode.frm, MoveNode.dst, MoveNode.fen,
          MoveNode.variations] at hsa hfr hds hfe hvars
        subst hsa; subst hfr; subst hds; subst hfe; subst hvars
        exact rlineInv_replaceLast eng R st.cur b true _ _ _ _ _ _ _ _ _ _ _
          hline hl
  · exact consistent_replaceLast eng st.cur b m m' hcons hl hsa hfr hds hfe
  · rw [endFen_replaceLast b st.cur m m' hl hfe]
    exact hfen

theorem closeStep_stack (st : BuildState) (f : BFrame) (rest : List BFrame) :
    (closeStep st f rest).stack = rest := by
  cases f <;> simp [closeStep]

theorem closeStep_inv (eng : Engine) (R : String) (st : BuildState) (f : BFrame)
    (rest : List BFrame) (h : BInv eng R st) (hs : st.stack = f :: rest) :
    BInv eng R (closeStep st f rest) := by
  obtain ⟨b, hst, hline, hcons, hfen⟩ := h
  rw [hs] at hst
  cases f with
  | aliased bfi => simp [StackInv] at hst
  | saved fs ms bfi =>
    obtain ⟨bp, hrest, hpl, hpc, hfs, hmsne, hbfi, hb⟩ := hst
    by_cases hemp : st.cur.isEmpty = true
    · refine ⟨bp, ?_, ?_, ?_, ?_⟩ <;> simp only [closeStep, hemp, if_true]
      · exact hrest
      · exact hpl
      · exact hpc
      · exact hfs
    · rw [Bool.not_eq_true] at hemp
      have hne : st.cur ≠ [] := by
        intro he; rw [he] at hemp; simp at hemp
      have hlen : 0 < ms.length := List.length_pos.mpr hmsne
      have hilt : bfi < ms.length := by omega
      cases hg : ms.get? bfi with
      | none =>
        rw [List.get?_eq_none] at hg
        omega
      | some nodem =>
        have hg2 : ms[bfi]? = some nodem := by
          rw [← List.get?_eq_getElem?]; exact hg
        have hatt : attachVariation ms bfi st.cur =
            ms.set bfi (nodem.withVariations (nodem.variations ++ [st.cur])) := by
          simp [attachVariation, hg2]
        have hbase : (if bfi = 0 then (if true then R else bp)
            else (ms.getD (bfi - 1) default).fen) = b := by
          cases bfi with
          | zero => simp [hb]
          | succ k => simp [hb]
        refine ⟨bp, ?_, ?_, ?_, ?_⟩ <;>
          simp only [closeStep, hemp, Bool.false_eq_true, if_false]
        · exact hrest
        · exact RLineInv_attach eng R ms bp true bfi st.cur hpl hilt hne
            (by rw [hbase]; exact hcons) (by rw [hbase]; exact hline)
        · rw [hatt]
          exact Consistent_set eng ms bp bfi nodem _ hpc hg (by cases nodem; rfl)
            (by cases nodem; rfl) (by cases nodem; rfl) (by cases nodem; rfl)
        · rw [hatt, endFen_set ms bp bfi nodem _ hg (by cases nodem; rfl)]
          exact hfs

theorem buildStep_inv (eng : Engine) (R : String) (G : Engine.Good eng)
    (hld : ∀ f, eng.load f = some f) (st : BuildState) (t : PgnToken)
    (h : BInv eng R st) : BInv eng R (buildStep eng R st t) := by
  obtain ⟨b, hst, hline, hcons, hfen⟩ := h
  cases t with
  | comment v =>
    simp only [buildStep]
    cases hlast : st.cur.getLast? with
    | none => exact ⟨b, hst, hline, hcons, hfen⟩
    | some lastM =>
      refine BInv_replaceLast eng R st lastM _ ⟨b, hst, hline, hcons, hfen⟩ hlast
        ?_ ?_ ?_ ?_ ?_ <;>
      · split_ifs <;> cases lastM <;>
          simp [MoveNode.withComment, MoveNode.withAnnots, MoveNode.san, MoveNode.frm,
            MoveNode.dst, MoveNode.fen, MoveNode.variations]
  | nag v =>
    simp only [buildStep]
    cases hngc : nagByCode v with
    | none => exact ⟨b, hst, hline, hcons, hfen⟩
    | some d =>
      cases hlast : st.cur.getLast? with
      | none => exact ⟨b, hst, hline, hcons, hfen⟩
      | some lastM =>
        refine BInv_replaceLast eng R st lastM _ ⟨b, hst, hline, hcons, hfen⟩ hlast
          ?_ ?_ ?_ ?_ ?_ <;>
        · cases lastM <;>
            simp [MoveNode.withNag, MoveNode.san, MoveNode.frm, MoveNode.dst,
              MoveNode.fen, MoveNode.variations]
  | openVar =>
    simp only [buildStep]
    by_cases hemp : st.cur.isEmpty = true
    · simp only [hemp, if_true]
      exact ⟨b, hst, hline, hcons, hfen⟩
    · rw [Bool.not_eq_true] at hemp
      simp only [hemp, Bool.false_eq_true, if_false]
      rw [hld]
      refine ⟨if st.cur.length - 1 > 0 then (st.cur.getD (st.cur.length - 1 - 1) default).fen
          else R, ?_, ?_, ?_, ?_⟩
      · exact ⟨b, hst, hline, hcons, hfen,
          (by intro he; rw [he] at hemp; simp at hemp), rfl, rfl⟩
      · simp [RLineInv]
      · simp [Consistent]
      · rfl
  | closeVar =>
    simp only [buildStep]
    cases hs : st.stack with
    | nil => exact ⟨b, hst, hline, hcons, hfen⟩
    | cons f rest =>
      obtain ⟨b2, a1, a2, a3, a4⟩ :=
        closeStep_inv eng R st f rest ⟨b, hst, hline, hcons, hfen⟩ hs
      exact ⟨b2, a1, a2, a3, a4⟩
  | move v =>
    simp only [buildStep]
    cases hmv : eng.moveSan st.fen (extractInlineNag v).1 with
    | illegalNull => exact ⟨b, hst, hline, hcons, hfen⟩
    | illegalThrow => exact ⟨b, hst, hline, hcons, hfen⟩
    | legal rec =>
      cases rec with
      | mk rsa rfr rds rfe =>
        have hsan : eng.moveSan st.fen rsa = .legal ⟨rsa, rfr, rds, rfe⟩ :=
          G.san_idem st.fen (extractInlineNag v).1 ⟨rsa, rfr, rds, rfe⟩ hmv
        cases hn2 : (extractInlineNag v).2 with
        | none =>
          refine ⟨b, hst, ?_, ?_, ?_⟩
          · exact RLineInv_append_novars eng R st.cur b true rsa rfr rds rfe
              st.pc st.pn st.pa hline
          · refine Consistent_append_one eng st.cur b _ hcons ?_
            rw [← hfen]
            exact hsan
          · rw [endFen_append_one]
            rfl
        | some cnag =>
          refine ⟨b, hst, ?_, ?_, ?_⟩
          · exact RLineInv_append_novars eng R st.cur b true rsa rfr rds rfe
              st.pc (some cnag) st.pa hline
          · refine Consistent_append_one eng st.cur b _ hcons ?_
            rw [← hfen]
            exact hsan
          · rw [endFen_append_one]
            rfl

theorem foldl_buildStep_inv (eng : Engine) (R : String) (G : Engine.Good eng)
    (hld : ∀ f, eng.load f = some f) :
    ∀ (toks : List PgnToken) (st : BuildState), BInv eng R st →
    BInv eng R (toks.foldl (buildStep eng R) st)
  | [], _, h => h
  | t :: ts, st, h =>
    foldl_buildStep_inv eng R G hld ts _ (buildStep_inv eng R G hld st t h)

theorem drainF_inv (eng : Engine) (R : String) :
    ∀ (n : Nat) (st : BuildState), BInv eng R st → BInv eng R (drainF n st)
  | 0, _, h => h
  | n + 1, st, h => by
    simp only [drainF]
    cases hs : st.stack with
    | nil => exact h
    | cons f rest =>
      exact drainF_inv eng R n _ (closeStep_inv eng R st f rest h hs)

theorem drainF_stack : ∀ (n : Nat) (st : BuildState), st.stack.length = n →
    (drainF n st).stack = []
  | 0, _, h => List.length_eq_zero.mp h
  | n + 1, st, h => by
    simp only [drainF]
    cases hs : st.stack with
    | nil =>
      rw [hs] at h
      simp at h
    | cons f rest =>
      refine drainF_stack n _ ?_
      rw [closeStep_stack]
      rw [hs] at h
      simpa using h

theorem buildMoves_inv (eng : Engine) (R : String) (G : Engine.Good eng)
    (hld : ∀ f, eng.load f = some f) (toks : List PgnToken) (w0 : List String) :
    RLineInv eng R R true (buildMoves eng R R toks w0).1 := by
  have h0 : BInv eng R ⟨R, [], [], none, none, none, w0⟩ :=
    ⟨R, by simp [StackInv], by simp [RLineInv], by simp [Consistent], rfl⟩
  have h1 := foldl_buildStep_inv eng R G hld toks _ h0
  have h2 := drainF_inv eng R
    (toks.foldl (buildStep eng R) ⟨R, [], [], none, none, none, w0⟩).stack.length _ h1
  have h3 := drainF_stack
    (toks.foldl (buildStep eng R) ⟨R, [], [], none, none, none, w0⟩).stack.length _ rfl
  obtain ⟨b, hst, hline, -, -⟩ := h2
  rw [h3] at hst
  have hb : b = R := by simpa [StackInv] using hst
  subst hb
  simpa [buildMoves, drainStack] using hline

theorem parse_RLineInv (eng : Engine) (G : Engine.Good eng)
    (hld : ∀ f, eng.load f = some f) (pgn : String) (startFen : Option String)
    (w0 : List String) :
    RLineInv eng (rootBaseFen startFen) (rootBaseFen startFen) true
      (parseMovesWithVariations eng pgn startFen w0).1 := by
  cases startFen with
  | none =>
    simpa [parseMovesWithVariations, rootBaseFen] using
      buildMoves_inv eng defaultFen G hld (tokenizePgn pgn) w0
  | some sf =>
    simp only [parseMovesWithVariations, hld, rootBaseFen]
    exact buildMoves_inv eng (normalizeFen sf) G hld (tokenizePgn pgn) w0

/-- `engA` satisfies the assumed chess.js laws. -/
theorem engA_good : Engine.Good engA := by
  refine ⟨?_, ?_, ?_, ?_, rfl⟩
  · intro f g h
    simp only [engA] at h
    exact (Option.some.inj h).symm
  · intro f s r _
    rfl
  · intro f s r h
    simp only [engA] at h
    split_ifs at h with h1 h2 h3 h4 h5 h6 h7
    · simp only [Bool.and_eq_true, decide_eq_true_eq] at h1
      obtain ⟨hf, -⟩ := h1
      subst hf
      obtain rfl := EngineReply.legal.inj h
      rfl
    · simp only [Bool.and_eq_true, decide_eq_true_eq] at h2
      obtain ⟨hf, -⟩ := h2
      subst hf
      obtain rfl := EngineReply.legal.inj h
      rfl
    · simp only [Bool.and_eq_true, decide_eq_true_eq] at h3
      obtain ⟨hf, -⟩ := h3
      subst hf
      obtain rfl := EngineReply.legal.inj h
      rfl
    · simp only [Bool.and_eq_true, decide_eq_true_eq] at h4
      obtain ⟨hf, -⟩ := h4
      subst hf
      obtain rfl := EngineReply.legal.inj h
      rfl
    · simp only [Bool.and_eq_true, decide_eq_true_eq] at h5
      obtain ⟨hf, -⟩ := h5
      subst hf
      obtain rfl := EngineReply.legal.inj h
      rfl
    · simp only [Bool.and_eq_true, decide_eq_true_eq] at h6
      obtain ⟨hf, -⟩ := h6
      subst hf
      obtain rfl := EngineReply.legal.inj h
      rfl
    · simp only [Bool.and_eq_true, decide_eq_true_eq] at h7
      obtain ⟨hf, -⟩ := h7
      subst hf
      obtain rfl := EngineReply.legal.inj h
      rfl
  · intro f o d p r h
    simp only [engA] at h
    split_ifs at h with h1 h2
    · simp only [Bool.and_eq_true, decide_eq_true_eq] at h1
      obtain ⟨⟨hf, -⟩, -⟩ := h1
      subst hf
      obtain rfl := EngineReply.legal.inj h
      rfl
    · simp only [Bool.and_eq_true, decide_eq_true_eq] at h2
      obtain ⟨⟨hf, -⟩, -⟩ := h2
      subst hf
      obtain rfl := EngineReply.legal.inj h
      rfl

/-- C2 counterexample: the claim's invariant — a variation of a line's
FIRST node replays from that line's own starting position — fails on a
parser-produced tree.  Parsing `1. e4 e5 (1... d5 (1... c5))` attaches the
nested variation `(1... c5)` to the first node `d5` of the enclosing
variation, but replays it from the ROOT position (where `c5` yields
position D), not from the enclosing line's start after `e4` (where `c5`
would yield position E): the stored node carries FEN D, so the claimed
replay relation from the line's start does not hold. -/
theorem C2_counterexample :
    ¬ StrictLineInv engA defaultFen
      (parseMovesWithVariations engA "1. e4 e5 (1... d5 (1... c5))" none []).1 := by
  intro h
  have he : (parseMovesWithVariations engA "1. e4 e5 (1... d5 (1... c5))" none []).1 =
      [.mk "e4" "e2" "e4" "A" none none none [],
       .mk "e5" "e7" "e5" "B" none none none
         [[.mk "d5" "d7" "d5" "C" none none none
            [[.mk "c5" "c7" "c5" "D" none none none []]]]]] := by rfl
  rw [he] at h
  simp only [StrictLineInv, StrictVarsInv, Consistent] at h
  have hc := h.2.1.1.2.2.1.1.2.1.1
  simp only [MoveNode.san, MoveNode.frm, MoveNode.dst, MoveNode.fen] at hc
  have hE : engA.moveSan "A" "c5" = .legal ⟨"c5", "c7", "c5", "E"⟩ := rfl
  rw [hE] at hc
  injection hc with hr
  have hf := congrArg MoveRec.fen hr
  exact absurd hf (by decide)

/-- C2 (amended).  Over an engine satisfying the chess.js laws with total
`load`: (i) in every tree `parseMovesWithVariations` produces, each entry
of a node's variations list is a nonempty continuation branching from the
position before that node — the preceding node's FEN when the node is not
its line's first, and the ROOT starting position (`rootBaseFen`), not the
enclosing line's own start, when it is; (ii) this builder invariant
implies the disjunctive invariant `VLineInv` (previous-node FEN, or — at a
first node — root fallback); (iii) `VLineInv` is preserved when
`handleUserMove` attaches its new one-node variation, which continues from
the position before the node it is attached to (the previous node's FEN,
or the line's own base for a first node). -/
theorem C2_branching_amended (eng : Engine) (G : Engine.Good eng)
    (hld : ∀ f, eng.load f = some f) :
    (∀ (pgn : String) (startFen : Option String) (w0 : List String),
      RLineInv eng (rootBaseFen startFen) (rootBaseFen startFen) true
        (parseMovesWithVariations eng pgn startFen w0).1) ∧
    (∀ (R b : String) (isF : Bool) (l : List MoveNode),
      RLineInv eng R b isF l → VLineInv eng R b isF l) ∧
    (∀ (R b : String) (isF : Bool) (l : List MoveNode) (i : Nat)
       (orig dest : String) (promo : Option String) (mv : MoveRec),
      VLineInv eng R b isF l → i < l.length →
      eng.moveFromTo (if i = 0 then b else (l.getD (i - 1) default).fen)
        orig dest promo = .legal mv →
      VLineInv eng R b isF
        (attachVariation l i [.mk mv.san mv.frm mv.dst mv.fen none none none []])) := by
  refine ⟨fun pgn sf w0 => parse_RLineInv eng G hld pgn sf w0,
    fun R b isF l h => RLineInv_to_V eng R b isF l h,
    fun R b isF l i orig dest promo mv hv hi hm => ?_⟩
  have hsan := G.fromTo_san _ orig dest promo mv hm
  refine VLineInv_attach eng R l b isF i _ hv hi (by simp) ?_ ?_
  · cases mv with
    | mk msa mfr mds mfe =>
      simp only [Consistent]
      exact ⟨hsan, trivial⟩
  · cases mv with
    | mk msa mfr mds mfe =>
      simp [VLineInv, VVarsInv]

theorem C2_branching_amended_witness :
    RLineInv engA defaultFen defaultFen true
      (parseMovesWithVariations engA "1. e4 e5 (1... d5 (1... c5))" none []).1 :=
  (C2_branching_amended engA engA_good (fun _ => rfl)).1
    "1. e4 e5 (1... d5 (1... c5))" none []

/-! ## C1: round-trip serialization — character classes -/

theorem stop_not_sanBody {c : Char} (h : moveStopChar c = true) : sanBodyChar c = false := by
  simp only [moveStopChar, jsSpace, Bool.or_eq_true, decide_eq_true_eq] at h
  rcases h with ((((((((((h | h) | h) | h) | h) | h) | h) | h) | h) | h) | h) <;>
    subst h <;> decide

theorem sanBody_not_stop {c : Char} (h : sanBodyChar c = true) : moveStopChar c = false := by
  cases hs : moveStopChar c with
  | false => rfl
  | true => rw [stop_not_sanBody hs] at h; exact absurd h (by decide)

theorem glyph_not_sanBody {c : Char} (h : glyphChar c = true) : sanBodyChar c = false := by
  simp only [glyphChar, Bool.or_eq_true, decide_eq_true_eq] at h
  rcases h with h | h <;> subst h <;> decide

theorem sanBody_not_glyph {c : Char} (h : sanBodyChar c = true) : glyphChar c = false := by
  cases hs : glyphChar c with
  | false => rfl
  | true => rw [glyph_not_sanBody hs] at h; exact absurd h (by decide)

/-! ## Digits of `toString (n : Nat)` -/

theorem digitChar_digit (n : Nat) (h : n < 10) : isDigitChar (Nat.digitChar n) = true := by
  interval_cases n <;> decide

theorem toDigitsCore_digits :
    ∀ (fuel n : Nat) (acc : List Char), (∀ c ∈ acc, isDigitChar c = true) →
    ∀ c ∈ Nat.toDigitsCore 10 fuel n acc, isDigitChar c = true
  | 0, _, _, hacc => hacc
  | fuel + 1, n, acc, hacc => by
    intro c hc
    simp only [Nat.toDigitsCore] at hc
    have hd : isDigitChar ((n % 10).digitChar) = true :=
      digitChar_digit _ (Nat.mod_lt _ (by omega))
    by_cases h : n / 10 = 0
    · rw [if_pos h] at hc
      rcases List.mem_cons.mp hc with rfl | hc2
      · exact hd
      · exact hacc c hc2
    · rw [if_neg h] at hc
      exact toDigitsCore_digits fuel (n / 10) _ (fun x hx => by
        rcases List.mem_cons.mp hx with rfl | hx2
        · exact hd
        · exact hacc x hx2) c hc

theorem toDigitsCore_ne_nil :
    ∀ (fuel n : Nat) (acc : List Char), acc ≠ [] ∨ fuel ≠ 0 →
    Nat.toDigitsCore 10 fuel n acc ≠ []
  | 0, _, acc, h => by
    rcases h with h | h
    · exact h
    · exact absurd rfl h
  | fuel + 1, n, acc, _ => by
    simp only [Nat.toDigitsCore]
    by_cases h : n / 10 = 0
    · rw [if_pos h]; simp
    · rw [if_neg h]
      exact toDigitsCore_ne_nil fuel (n / 10) _ (Or.inl (by simp))

theorem repr_digits (n : Nat) : ∀ c ∈ (toString n).data, isDigitChar c = true :=
  fun c hc => toDigitsCore_digits (n + 1) n [] (by simp) c hc

theorem repr_ne_nil (n : Nat) : (toString n).data ≠ [] :=
  toDigitsCore_ne_nil (n + 1) n [] (Or.inr (by simp))

/-! ## List helpers for the round trip -/

theorem splitAtChar_append (sep : Char) :
    ∀ (l rest : List Char), (∀ c ∈ l, c ≠ sep) →
    splitAtChar sep (l ++ sep :: rest) = some (l, rest)
  | [], rest, _ => by simp [splitAtChar]
  | x :: xs, rest, h => by
    have hx : x ≠ sep := h x (by simp)
    simp [splitAtChar, hx, splitAtChar_append sep xs rest (fun c hc => h c (by simp [hc]))]

theorem suffix_of_suffix_le {l1 l2 l3 : List Char} (h1 : l1 <:+ l3) (h2 : l2 <:+ l3)
    (h : l1.length ≤ l2.length) : l1 <:+ l2 := by
  rw [← List.reverse_prefix] at h1 h2 ⊢
  exact List.prefix_of_prefix_length_le h1 h2 (by simpa using h)

theorem noSuffix_of_notMem {p tok : List Char} (x : Char) (hx : x ∈ tok) (hnp : x ∉ p) :
    tok.isSuffixOf p = false := by
  by_contra hc
  rw [Bool.not_eq_false, List.isSuffixOf_iff_suffix] at hc
  obtain ⟨t, rfl⟩ := hc
  exact hnp (List.mem_append.mpr (Or.inr hx))

theorem noSuffix_of_getLast {p tok : List Char} (htok : tok ≠ [])
    (h : tok.getLast? ≠ p.getLast?) : tok.isSuffixOf p = false := by
  by_contra hc
  rw [Bool.not_eq_false, List.isSuffixOf_iff_suffix] at hc
  obtain ⟨t, rfl⟩ := hc
  exact h (List.getLast?_append_of_ne_nil _ htok).symm

/-! ## Token contributions of the serialized parts -/

theorem segMove {sa : String} (h : WfSan sa) : SegOk sa [.move sa] := by
  obtain ⟨hne, hstart, hall⟩ := h
  intro rest hrest
  obtain ⟨c, cs, hdata⟩ : ∃ c cs, sa.data = c :: cs := by
    cases hd : sa.data with
    | nil => exact absurd hd hne
    | cons c cs => exact ⟨c, cs, rfl⟩
  have hc : moveStartChar c = true := by
    rw [hdata] at hstart; simpa using hstart
  have hdig : isDigitChar c = false := start_not_digit hc
  have hallc : ∀ x ∈ c :: cs, (!moveStopChar x) = true := by
    intro x hx
    have : sanBodyChar x = true := hall x (by rw [hdata]; exact hx)
    simp [sanBody_not_stop this]
  have hrest2 : rest = [] ∨ ∃ r rs, rest = r :: rs ∧ (!moveStopChar r) = false := by
    cases rest with
    | nil => exact Or.inl rfl
    | cons r rs =>
      refine Or.inr ⟨r, rs, rfl, ?_⟩
      rcases hrest with h | h <;> subst h <;> decide
  obtain ⟨ht, hd2⟩ :=
    takeWhile_dropWhile_all_append (fun x => !moveStopChar x) (c :: cs) rest hallc hrest2
  rw [hdata, List.cons_append,
    tokenizeChars_move (cs ++ rest) hc (by rw [hdig]; rfl)]
  rw [show (c :: (cs ++ rest)) = (c :: cs) ++ rest from rfl, ht, hd2, ← hdata]
  rfl

theorem segNum {p : String} (ds dots : List Char)
    (hp : p.data = ds ++ dots) (hds : ds ≠ []) (hd : ∀ c ∈ ds, isDigitChar c = true)
    (hdot : dots ≠ []) (hdc : ∀ c ∈ dots, c = '.') : SegOk p [] := by
  intro rest hrest
  obtain ⟨c, cs, hcons⟩ : ∃ c cs, ds = c :: cs := by
    cases hdd : ds with
    | nil => exact absurd hdd hds
    | cons c cs => exact ⟨c, cs, rfl⟩
  have hall : ∀ x ∈ ds ++ dots, digitDot x = true := by
    intro x hx
    rcases List.mem_append.mp hx with hx | hx
    · simp [digitDot, hd x hx]
    · simp [digitDot, hdc x hx]
  have hrest2 : rest = [] ∨ ∃ r rs, rest = r :: rs ∧ digitDot r = false := by
    cases rest with
    | nil => exact Or.inl rfl
    | cons r rs =>
      refine Or.inr ⟨r, rs, rfl, ?_⟩
      rcases hrest with h | h <;> subst h <;> decide
  obtain ⟨ht, hd2⟩ := takeWhile_dropWhile_all_append digitDot (ds ++ dots) rest hall hrest2
  have hc : isDigitChar c = true := hd c (by rw [hcons]; simp)
  have hdig : ∀ x ∈ ds, isDigitChar x = true := hd
  have hdots2 : dots = [] ∨ ∃ r rs, dots = r :: rs ∧ isDigitChar r = false := by
    cases hdd : dots with
    | nil => exact Or.inl rfl
    | cons r rs =>
      refine Or.inr ⟨r, rs, rfl, ?_⟩
      rw [hdc r (by rw [hdd]; simp)]
      decide
  obtain ⟨htd, hdd2⟩ := takeWhile_dropWhile_all_append isDigitChar ds dots hdig hdots2
  have hseg : isMoveNumSeg (ds ++ dots) = true := by
    simp only [isMoveNumSeg, htd]
    rw [List.drop_left]
    simp only [Bool.and_eq_true]
    refine ⟨⟨by simpa using hds, by simpa using hdot⟩, ?_⟩
    exact List.all_eq_true.mpr (fun x hx => by rw [hdc x hx]; decide)
  have hta : ((ds ++ dots) ++ rest).takeWhile digitDot = ds ++ dots := ht
  rw [hp, List.append_assoc, hcons, List.cons_append]
  rw [tokenizeChars_movenum (cs ++ (dots ++ rest)) hc
    (by rw [show (c :: (cs ++ (dots ++ rest))) = (ds ++ dots) ++ rest by
          rw [hcons]; simp, hta]
        exact hseg)]
  rw [show (c :: (cs ++ (dots ++ rest))) = (ds ++ dots) ++ rest by rw [hcons]; simp,
    hd2]
  rfl

theorem segNag {p : String} (ds : List Char) (hp : p.data = '$' :: ds)
    (hd : ∀ c ∈ ds, isDigitChar c = true) :
    SegOk p [.nag (String.mk ('$' :: ds))] := by
  intro rest hrest
  have hrest2 : rest = [] ∨ ∃ r rs, rest = r :: rs ∧ isDigitChar r = false := by
    cases rest with
    | nil => exact Or.inl rfl
    | cons r rs =>
      refine Or.inr ⟨r, rs, rfl, ?_⟩
      rcases hrest with h | h <;> subst h <;> decide
  obtain ⟨ht, -⟩ := takeWhile_dropWhile_all_append isDigitChar ds rest hd hrest2
  rw [hp, List.cons_append, tokenizeChars_nag, ht, List.drop_left]
  rfl

theorem skipChars (l : List Char) (h : ∀ c ∈ l, glyphChar c = true) :
    ∀ rest, tokenizeChars (l ++ rest) = tokenizeChars rest := by
  induction l with
  | nil => simp
  | cons c cs ih =>
    intro rest
    have hc := h c (by simp)
    have hcc : c = '!' ∨ c = '?' := by simpa [glyphChar] using hc
    rw [List.cons_append]
    rcases hcc with rfl | rfl <;>
      rw [tokenizeChars_skip _ (by decide) (by rfl) (by decide) (by decide) (by decide)
        (by decide) (by decide)] <;>
      exact ih (fun x hx => h x (by simp [hx])) rest

theorem segGlyph {p : String} (h : ∀ c ∈ p.data, glyphChar c = true) : SegOk p [] := by
  intro rest _
  rw [skipChars p.data h rest]
  rfl

theorem segComment {p co : String} (h : WfComment co)
    (hp : p.data = '{' :: (co.data ++ ['}'])) : SegOk p [.comment co] := by
  intro rest hrest
  rw [hp, List.cons_append, List.append_assoc]
  rw [show (['}'] ++ rest) = '}' :: rest from rfl]
  rw [tokenizeChars_comment _ co.data rest
    (splitAtChar_append '}' co.data rest (fun c hc => (h.2.2.2 c hc).1))]
  rw [h.2.2.1]
  rfl

theorem tokJoinParts :
    ∀ (ps : List (String × List PgnToken)) (rest : List Char),
    (∀ pt ∈ ps, SegOk pt.1 pt.2) → RestOk rest →
    tokenizeChars (joinParts (ps.map Prod.fst) ++ rest) =
      (ps.map Prod.snd).flatten ++ tokenizeChars rest
  | [], rest, _, _ => by simp [joinParts]
  | [pt], rest, h, hrest => by
    have := h pt (by simp) rest hrest
    simpa [joinParts] using this
  | pt :: qt :: ps, rest, h, hrest => by
    have hjp : joinParts ((pt :: qt :: ps).map Prod.fst) =
        pt.1.data ++ ' ' :: joinParts ((qt :: ps).map Prod.fst) := rfl
    rw [hjp, List.append_assoc]
    rw [h pt (by simp) _ (by simp [RestOk])]
    rw [List.cons_append]
    rw [tokenizeChars_ws (joinParts ((qt :: ps).map Prod.fst) ++ rest)
      (show jsSpace ' ' = true by decide)]
    rw [tokJoinParts (qt :: ps) rest (fun x hx => h x (by simp [hx])) hrest]
    simp

theorem joinParts_go_step (acc a : String) (as : List String) :
    joinParts ((acc ++ " " ++ a) :: as) = joinParts (acc :: a :: as) := by
  cases as with
  | nil => simp [joinParts, String.data_append]
  | cons b bs => simp [joinParts, String.data_append]

theorem intercalate_go_data : ∀ (as : List String) (acc : String),
    (String.intercalate.go acc " " as).data = joinParts (acc :: as)
  | [], _ => rfl
  | a :: as, acc => by
    show (String.intercalate.go (acc ++ " " ++ a) " " as).data = _
    rw [intercalate_go_data as (acc ++ " " ++ a), joinParts_go_step]

theorem intercalate_data (ps : List String) :
    (String.intercalate " " ps).data = joinParts ps := by
  cases ps with
  | nil => rfl
  | cons a as => exact intercalate_go_data as a

/-! ## The pairing's projections -/

mutual

theorem serPairs_fst : ∀ (l : List MoveNode) (n : Nat) (isB isF : Bool),
    (serPairs l n isB isF).map Prod.fst = serParts l n isB isF
  | [], _, _, _ => by simp [serPairs, serParts]
  | .mk sa fr ds fe co ng an vars :: rest, n, isB, isF => by
    simp only [serPairs, serParts, List.map_append, List.map_map, List.map_cons,
      List.map_nil, Function.comp]
    rw [serPairs_fst rest, varPairs_fst vars]
    cases isB <;> cases isF <;> simp [Function.comp_def]

theorem varPairs_fst : ∀ (vs : List (List MoveNode)) (n : Nat) (b : Bool),
    (varPairs vs n b).map Prod.fst = serVars vs n b
  | [], _, _ => by simp [varPairs, serVars]
  | v :: vs, n, b => by
    simp only [varPairs, serVars, List.map_cons]
    rw [varPairs_fst vs]

end

theorem nagParts_toks (sa fr ds fe : String) (co ng : Option String)
    (an : Option MoveAnnot) (vars : List (List MoveNode)) :
    (((serNagParts (.mk sa fr ds fe co ng an vars)).map
      (fun p => ((p, canonNagToks ng) : String × List PgnToken))).map Prod.snd).flatten =
      canonNagToks ng := by
  simp only [serNagParts, MoveNode.nag]
  cases ng with
  | none => rfl
  | some g =>
    cases hn : nagByCode g with
    | none => simp [canonNagToks, hn]
    | some d => by_cases hi : d.inlinePgn.isSome <;> simp [canonNagToks, hn, hi]

theorem commentParts_toks (sa fr ds fe : String) (co ng : Option String)
    (an : Option MoveAnnot) (vars : List (List MoveNode)) :
    (((serCommentParts (.mk sa fr ds fe co ng an vars)).map
      (fun p => ((p, canonCommentToks co) : String × List PgnToken))).map Prod.snd).flatten =
      canonCommentToks co := by
  simp only [serCommentParts, MoveNode.comment]
  cases co with
  | none => rfl
  | some c => by_cases hc : (c = "" || c = "wrong") = true <;> simp [canonCommentToks, hc]

mutual

theorem serPairs_snd : ∀ (l : List MoveNode) (n : Nat) (isB isF : Bool),
    ((serPairs l n isB isF).map Prod.snd).flatten = canonLine l
  | [], _, _, _ => by simp [serPairs, canonLine]
  | .mk sa fr ds fe co ng an vars :: rest, n, isB, isF => by
    simp only [serPairs, canonLine, List.map_append, List.flatten_append,
      List.map_cons, List.map_nil, List.flatten_cons]
    rw [serPairs_snd rest, varPairs_snd vars]
    rw [nagParts_toks sa fr ds fe co ng an vars,
      commentParts_toks sa fr ds fe co ng an vars]
    cases isB <;> cases isF <;> simp

theorem varPairs_snd : ∀ (vs : List (List MoveNode)) (n : Nat) (b : Bool),
    ((varPairs vs n b).map Prod.snd).flatten = canonVars vs
  | [], _, _ => by simp [varPairs, canonVars]
  | v :: vs, n, b => by
    simp only [varPairs, canonVars, List.map_cons, List.flatten_cons]
    rw [varPairs_snd vs]

end

/-! ## Boundary facts for the parts -/

theorem ne_of_class {c x : Char} (P : Char → Bool) (h : P c = true) (hx : P x = false) :
    c ≠ x := by
  intro he
  rw [he, hx] at h
  exact absurd h (by simp)

theorem notMem_of_class {x : Char} (P : Char → Bool) (l : List Char)
    (hall : ∀ c ∈ l, P c = true) (hx : P x = false) : x ∉ l := by
  intro hm
  rw [hall x hm] at hx
  exact absurd hx (by simp)

theorem getLastD_mem {l : List Char} (h : l ≠ []) (d : Char) : l.getLastD d ∈ l := by
  rw [List.getLastD_eq_getLast?, List.getLast?_eq_getLast l h]
  exact List.getLast_mem h

theorem resultSuffix_of_class {p : List Char} (P : Char → Bool)
    (hall : ∀ c ∈ p, P c = true) (x1 x2 x3 x4 : Char)
    (m1 : x1 ∈ (['1', '/', '2', '-', '1', '/', '2'] : List Char)) (f1 : P x1 = false)
    (m2 : x2 ∈ (['1', '-', '0'] : List Char)) (f2 : P x2 = false)
    (m3 : x3 ∈ (['0', '-', '1'] : List Char)) (f3 : P x3 = false)
    (m4 : x4 ∈ (['*'] : List Char)) (f4 : P x4 = false) :
    ∀ tok ∈ resultToks, tok.isSuffixOf p = false := by
  intro tok htok
  simp only [resultToks, List.mem_cons, List.not_mem_nil, or_false] at htok
  rcases htok with rfl | rfl | rfl | rfl
  · exact noSuffix_of_notMem x1 m1 (notMem_of_class P p hall f1)
  · exact noSuffix_of_notMem x2 m2 (notMem_of_class P p hall f2)
  · exact noSuffix_of_notMem x3 m3 (notMem_of_class P p hall f3)
  · exact noSuffix_of_notMem x4 m4 (notMem_of_class P p hall f4)

theorem resultSuffix_of_getLast {p : List Char} (c : Char) (hc : p.getLast? = some c)
    (h2 : c ≠ '2') (h0 : c ≠ '0') (h1 : c ≠ '1') (hs : c ≠ '*') :
    ∀ tok ∈ resultToks, tok.isSuffixOf p = false := by
  intro tok htok
  simp only [resultToks, List.mem_cons, List.not_mem_nil, or_false] at htok
  rcases htok with rfl | rfl | rfl | rfl
  · refine noSuffix_of_getLast (by decide) ?_
    rw [hc, show (['1', '/', '2', '-', '1', '/', '2'] : List Char).getLast? = some '2'
      from rfl]
    intro he
    exact h2 (Option.some.inj he).symm
  · refine noSuffix_of_getLast (by decide) ?_
    rw [hc, show (['1', '-', '0'] : List Char).getLast? = some '0' from rfl]
    intro he
    exact h0 (Option.some.inj he).symm
  · refine noSuffix_of_getLast (by decide) ?_
    rw [hc, show (['0', '-', '1'] : List Char).getLast? = some '1' from rfl]
    intro he
    exact h1 (Option.some.inj he).symm
  · refine noSuffix_of_getLast (by decide) ?_
    rw [hc, show (['*'] : List Char).getLast? = some '*' from rfl]
    intro he
    exact hs (Option.some.inj he).symm

theorem sanBody_not_space {c : Char} (h : sanBodyChar c = true) : jsSpace c = false := by
  have h2 := sanBody_not_stop h
  cases hs : jsSpace c with
  | false => rfl
  | true => exact absurd h2 (by simp [moveStopChar, hs])

theorem nag_code_shape : ∀ d ∈ NAG_DEFINITIONS,
    d.code.data ≠ [] ∧ d.code.data.headD ' ' = '$' ∧ d.code.data.tail ≠ [] ∧
    (∀ c ∈ d.code.data.tail, isDigitChar c = true) := by decide

theorem nag_inline_shape : ∀ d ∈ NAG_DEFINITIONS,
    (d.inlinePgn.getD "?").data ≠ [] ∧
    (∀ c ∈ (d.inlinePgn.getD "?").data, glyphChar c = true) := by decide

theorem nagByCode_mem {s : String} {d : NagDefinition} (h : nagByCode s = some d) :
    d ∈ NAG_DEFINITIONS := List.mem_of_find?_eq_some h

theorem nagByCode_code {s : String} {d : NagDefinition} (h : nagByCode s = some d) :
    d.code = s := by
  have := List.find?_some h
  simpa using this

theorem joinParts_chars : ∀ (ps : List String) (x : Char),
    (∀ p ∈ ps, x ∉ p.data) → x ≠ ' ' → x ∉ joinParts ps
  | [], _, _, _ => by simp [joinParts]
  | [p], x, h, _ => by
    simp only [joinParts]
    exact h p (by simp)
  | p :: q :: ps, x, h, hx => by
    simp only [joinParts, List.mem_append, List.mem_cons]
    rintro (hm | hm | hm)
    · exact h p (by simp) hm
    · exact hx hm
    · exact joinParts_chars (q :: ps) x (fun r hr => h r (by simp [hr])) hx hm

theorem headD_mem {l : List Char} (h : l ≠ []) (d : Char) : l.headD d ∈ l := by
  cases l with
  | nil => exact absurd rfl h
  | cons c cs => simp

theorem glyph_not_space {c : Char} (h : glyphChar c = true) : jsSpace c = false := by
  rcases (by simpa [glyphChar] using h : c = '!' ∨ c = '?') with rfl | rfl <;> decide

theorem partNum_ok (n : Nat) (dots : String) (hdot : dots.data ≠ [])
    (hdc : ∀ c ∈ dots.data, c = '.') :
    SegOk (toString n ++ dots) [] ∧ PartWf (toString n ++ dots) := by
  have hdata : (toString n ++ dots).data = (toString n).data ++ dots.data :=
    String.data_append _ _
  constructor
  · exact segNum (toString n).data dots.data hdata (repr_ne_nil n) (repr_digits n)
      hdot hdc
  · refine ⟨?_, ?_, ?_, ?_, ?_⟩
    · rw [hdata]
      simp [repr_ne_nil n]
    · rw [hdata]
      obtain ⟨c, cs, hc⟩ : ∃ c cs, (toString n).data = c :: cs := by
        cases hd : (toString n).data with
        | nil => exact absurd hd (repr_ne_nil n)
        | cons c cs => exact ⟨c, cs, rfl⟩
      rw [hc]
      exact digit_not_space (repr_digits n c (by rw [hc]; simp))
    · rw [hdata]
      have h1 : ((toString n).data ++ dots.data).getLastD ' ' = dots.data.getLastD ' ' := by
        rw [List.getLastD_eq_getLast?, List.getLastD_eq_getLast?,
          List.getLast?_append_of_ne_nil _ hdot]
      rw [h1, hdc _ (getLastD_mem hdot ' ')]
      decide
    · intro c hc
      rw [hdata] at hc
      rcases List.mem_append.mp hc with hm | hm
      · exact ne_of_class isDigitChar (repr_digits n c hm) (by decide)
      · rw [hdc c hm]
        decide
    · rw [hdata]
      refine resultSuffix_of_class digitDot ?_ '-' '-' '-' '*' (by decide) (by decide)
        (by decide) (by decide) (by decide) (by decide) (by decide) (by decide)
      intro c hc
      rcases List.mem_append.mp hc with hm | hm
      · simp [digitDot, repr_digits n c hm]
      · rw [hdc c hm]
        decide

theorem partSan_ok {sa : String} (h : WfSan sa) :
    SegOk sa [.move sa] ∧ PartWf sa := by
  obtain ⟨hne, hstart, hall⟩ := h
  refine ⟨segMove ⟨hne, hstart, hall⟩, hne, ?_, ?_, ?_, ?_⟩
  · exact start_not_space hstart
  · exact sanBody_not_space (hall _ (getLastD_mem hne ' '))
  · intro c hc
    exact ne_of_class sanBodyChar (hall c hc) (by decide)
  · exact resultSuffix_of_class sanBodyChar hall '/' '0' '0' '*' (by decide) (by decide)
      (by decide) (by decide) (by decide) (by decide) (by decide) (by decide)

theorem partGlyph_ok {g : String} (hne : g.data ≠ [])
    (hg : ∀ c ∈ g.data, glyphChar c = true) : SegOk g [] ∧ PartWf g := by
  refine ⟨segGlyph hg, hne, ?_, ?_, ?_, ?_⟩
  · exact glyph_not_space (hg _ (headD_mem hne ' '))
  · exact glyph_not_space (hg _ (getLastD_mem hne ' '))
  · intro c hc
    exact ne_of_class glyphChar (hg c hc) (by decide)
  · exact resultSuffix_of_class glyphChar hg '-' '-' '-' '*' (by decide) (by decide)
      (by decide) (by decide) (by decide) (by decide) (by decide) (by decide)

theorem partNag_ok {d : NagDefinition} (hd : d ∈ NAG_DEFINITIONS) :
    SegOk d.code [.nag d.code] ∧ PartWf d.code := by
  obtain ⟨hne, hhead, htne, htd⟩ := nag_code_shape d hd
  obtain ⟨c, cs, hc⟩ : ∃ c cs, d.code.data = c :: cs := by
    cases hcc : d.code.data with
    | nil => exact absurd hcc hne
    | cons c cs => exact ⟨c, cs, rfl⟩
  have hc0 : c = '$' := by rw [hc] at hhead; simpa using hhead
  subst hc0
  have hcs : d.code.data.tail = cs := by rw [hc]; rfl
  rw [hcs] at htne htd
  constructor
  · have hseg := segNag cs hc htd
    rw [show String.mk ('$' :: cs) = d.code by rw [← hc]] at hseg
    exact hseg
  · refine ⟨hne, ?_, ?_, ?_, ?_⟩
    · rw [hc]
      rfl
    · rw [hc]
      have h1 : (('$' :: cs).getLastD ' ') = cs.getLastD ' ' := by
        rw [show ('$' :: cs : List Char) = ['$'] ++ cs from rfl,
          List.getLastD_eq_getLast?, List.getLastD_eq_getLast?,
          List.getLast?_append_of_ne_nil _ htne]
      rw [h1]
      exact digit_not_space (htd _ (getLastD_mem htne ' '))
    · intro x hx
      rw [hc] at hx
      rcases List.mem_cons.mp hx with rfl | hm
      · decide
      · exact ne_of_class isDigitChar (htd x hm) (by decide)
    · rw [hc]
      refine resultSuffix_of_class (fun x => x = '$' || isDigitChar x) ?_ '-' '-' '-' '*'
        (by decide) (by decide) (by decide) (by decide) (by decide) (by decide)
        (by decide) (by decide)
      intro x hx
      rcases List.mem_cons.mp hx with rfl | hm
      · simp
      · simp [htd x hm]

theorem partComment_ok {c : String} (h : WfComment c) :
    SegOk ("\x7b" ++ c ++ "\x7d") [.comment c] ∧ PartWf ("\x7b" ++ c ++ "\x7d") := by
  have hdata : ("\x7b" ++ c ++ "\x7d").data = '{' :: (c.data ++ ['}']) := by
    simp [String.data_append]
  constructor
  · exact segComment h hdata
  · refine ⟨?_, ?_, ?_, ?_, ?_⟩
    · rw [hdata]
      simp
    · rw [hdata]
      rfl
    · rw [hdata]
      have h1 : (('{' :: (c.data ++ ['}'])).getLastD ' ') = '}' := by
        rw [List.getLastD_eq_getLast?,
          show ('{' :: (c.data ++ ['}']) : List Char) = ('{' :: c.data) ++ ['}'] by simp,
          List.getLast?_concat]
        rfl
      rw [h1]
      decide
    · intro x hx
      rw [hdata] at hx
      rcases List.mem_cons.mp hx with rfl | hm
      · decide
      · rcases List.mem_append.mp hm with hm2 | hm2
        · exact (h.2.2.2 x hm2).2.2
        · rw [List.mem_singleton.mp hm2]
          decide
    · rw [hdata]
      refine resultSuffix_of_getLast '}' ?_ (by decide) (by decide) (by decide) (by decide)
      rw [show ('{' :: (c.data ++ ['}']) : List Char) = ('{' :: c.data) ++ ['}'] by simp,
        List.getLast?_concat]

mutual

theorem serPairs_ok : ∀ (l : List MoveNode) (n : Nat) (isB isF : Bool),
    WfLine l → ∀ pt ∈ serPairs l n isB isF, SegOk pt.1 pt.2 ∧ PartWf pt.1
  | [], _, _, _, _ => by simp [serPairs]
  | .mk sa fr ds fe co ng an vars :: rest, n, isB, isF, hw => by
    simp only [WfLine] at hw
    obtain ⟨⟨hsan, hco, hng, hvars⟩, hrest⟩ := hw
    intro pt hpt
    simp only [serPairs, List.mem_append] at hpt
    rcases hpt with ((((hpt | hpt) | hpt) | hpt) | hpt) | hpt
    · cases isB with
      | false =>
        simp only [Bool.not_false, if_true, List.mem_singleton] at hpt
        subst hpt
        exact partNum_ok n "." (by decide) (by decide)
      | true =>
        simp only [Bool.not_true, Bool.false_eq_true, if_false] at hpt
        cases isF with
        | true =>
          simp only [if_true, List.mem_singleton] at hpt
          subst hpt
          exact partNum_ok n "..." (by decide) (by decide)
        | false => simp at hpt
    · rw [List.mem_singleton.mp hpt]
      exact partSan_ok hsan
    · rcases List.mem_map.mp hpt with ⟨p, hp, rfl⟩
      dsimp only
      cases ng with
      | none => simp [serNagParts, MoveNode.nag] at hp
      | some g =>
        simp only [serNagParts, MoveNode.nag] at hp
        cases hn : nagByCode g with
        | none => rw [hn] at hp; simp at hp
        | some d =>
          rw [hn] at hp
          rw [List.mem_singleton.mp hp]
          have hdm := nagByCode_mem hn
          by_cases hi : d.inlinePgn.isSome
          · obtain ⟨gl, hgl⟩ := Option.isSome_iff_exists.mp hi
            have hgd : d.inlinePgn.getD d.code = gl := by rw [hgl]; rfl
            have hq : d.inlinePgn.getD "?" = gl := by rw [hgl]; rfl
            obtain ⟨hne2, hgc⟩ := nag_inline_shape d hdm
            rw [hq] at hne2 hgc
            have htoks : canonNagToks (some g) = [] := by
              simp [canonNagToks, hn, hi]
            rw [hgd, htoks]
            exact partGlyph_ok hne2 hgc
          · have hgd : d.inlinePgn.getD d.code = d.code := by
              cases hip : d.inlinePgn with
              | none => rfl
              | some x => rw [hip] at hi; simp at hi
            have htoks : canonNagToks (some g) = [.nag g] := by
              simp [canonNagToks, hn, hi]
            rw [hgd, htoks, ← nagByCode_code hn]
            exact partNag_ok hdm
    · rcases List.mem_map.mp hpt with ⟨p, hp, rfl⟩
      dsimp only
      cases co with
      | none => simp [serCommentParts, MoveNode.comment] at hp
      | some c =>
        simp only [serCommentParts, MoveNode.comment] at hp
        by_cases hcw : (c = "" || c = "wrong") = true
        · rw [if_pos hcw] at hp
          simp at hp
        · rw [if_neg hcw] at hp
          rw [List.mem_singleton.mp hp]
          have htoks : canonCommentToks (some c) = [.comment c] := by
            simp [canonCommentToks, hcw]
          rw [htoks]
          exact partComment_ok (hco c rfl)
    · exact varPairs_ok vars n (!isB) hvars pt hpt
    · exact serPairs_ok rest (if isB then n + 1 else n) (!isB) false hrest pt hpt

theorem varPairs_ok : ∀ (vs : List (List MoveNode)) (n : Nat) (b : Bool),
    WfVars vs → ∀ pt ∈ varPairs vs n b, SegOk pt.1 pt.2 ∧ PartWf pt.1
  | [], _, _, _ => by simp [varPairs]
  | v :: vs, n, b, hw => by
    simp only [WfVars] at hw
    intro pt hpt
    simp only [varPairs, List.mem_cons] at hpt
    rcases hpt with rfl | hpt
    · have hdata : ("(" ++ String.intercalate " " (serParts v n b true) ++ ")").data =
          ('(' :: joinParts (serParts v n b true)) ++ [')'] := by
        simp [String.data_append, intercalate_data]
      constructor
      · intro rest hrest
        dsimp only
        rw [hdata]
        rw [show (('(' :: joinParts (serParts v n b true)) ++ [')']) ++ rest =
          '(' :: (joinParts (serParts v n b true) ++ (')' :: rest)) by simp]
        rw [tokenizeChars_open]
        rw [← serPairs_fst v n b true]
        rw [tokJoinParts (serPairs v n b true) (')' :: rest)
          (fun x hx => (serPairs_ok v n b true hw.1 x hx).1) (by simp [RestOk])]
        rw [serPairs_snd v n b true, tokenizeChars_close]
        simp
      · refine ⟨?_, ?_, ?_, ?_, ?_⟩ <;> dsimp only
        · rw [hdata]
          simp
        · rw [hdata]
          rfl
        · rw [hdata]
          rw [List.getLastD_eq_getLast?, List.getLast?_concat]
          rfl
        · intro x hx heq
          subst heq
          rw [hdata] at hx
          rcases List.mem_append.mp hx with hm | hm
          · rcases List.mem_cons.mp hm with h1 | hm2
            · exact absurd h1 (by decide)
            · refine joinParts_chars (serParts v n b true) '[' ?_ (by decide) hm2
              intro p hpmem hmem
              rw [← serPairs_fst v n b true] at hpmem
              rcases List.mem_map.mp hpmem with ⟨q, hq, rfl⟩
              exact (serPairs_ok v n b true hw.1 q hq).2.2.2.2.1 '[' hmem rfl
          · exact absurd (List.mem_singleton.mp hm) (by decide)
        · rw [hdata]
          refine resultSuffix_of_getLast ')' ?_ (by decide) (by decide) (by decide)
            (by decide)
          rw [List.getLast?_concat]
    · exact varPairs_ok vs n b hw.2 pt hpt

end

/-! ## The strip and trim phases are no-ops on serialized text -/

theorem stripHF_id : ∀ (fuel : Nat) (cs : List Char), (∀ c ∈ cs, c ≠ '[') →
    stripHF fuel cs = cs
  | 0, _, _ => rfl
  | _ + 1, [], _ => rfl
  | fuel + 1, c :: cs, h => by
    simp only [stripHF]
    rw [if_neg (h c (by simp))]
    rw [stripHF_id fuel cs (fun x hx => h x (by simp [hx]))]

theorem stripHeaders_id (cs : List Char) (h : ∀ c ∈ cs, c ≠ '[') :
    stripHeaders cs = cs := stripHF_id _ _ h

theorem jsTrimLeft_id (cs : List Char) (h : jsSpace (cs.headD ' ') = false ∨ cs = []) :
    jsTrimLeft cs = cs := by
  cases cs with
  | nil => rfl
  | cons c cs2 =>
    rcases h with h | h
    · simp only [List.headD_cons] at h
      simp [jsTrimLeft, List.dropWhile_cons, h]
    · exact absurd h (by simp)

theorem jsTrimRight_id (cs : List Char) (h : jsSpace (cs.getLastD ' ') = false ∨ cs = []) :
    jsTrimRight cs = cs := by
  rcases h with h | h
  · unfold jsTrimRight
    have hrev : jsSpace (cs.reverse.headD ' ') = false := by
      rw [List.headD_eq_head?_getD, List.head?_reverse, ← List.getLastD_eq_getLast?]
      exact h
    rw [show cs.reverse.dropWhile jsSpace = cs.reverse from by
      have := jsTrimLeft_id cs.reverse (Or.inl hrev)
      simpa [jsTrimLeft] using this]
    exact List.reverse_reverse cs
  · subst h
    rfl

theorem jsTrim_id (cs : List Char) (h1 : jsSpace (cs.headD ' ') = false ∨ cs = [])
    (h2 : jsSpace (cs.getLastD ' ') = false ∨ cs = []) : jsTrim cs = cs := by
  unfold jsTrim
  rw [jsTrimLeft_id cs h1, jsTrimRight_id cs h2]

theorem stripResult_id (cs : List Char)
    (h2 : jsSpace (cs.getLastD ' ') = false ∨ cs = [])
    (hsuf : ∀ tok ∈ resultToks, tok.isSuffixOf cs = false) : stripResult cs = cs := by
  simp only [stripResult]
  rw [jsTrimRight_id cs h2]
  rw [List.find?_eq_none.mpr (fun tok htok => by simp [hsuf tok htok])]

theorem joinParts_wf : ∀ (ps : List String), ps ≠ [] → (∀ p ∈ ps, PartWf p) →
    joinParts ps ≠ [] ∧
    jsSpace ((joinParts ps).headD ' ') = false ∧
    jsSpace ((joinParts ps).getLastD ' ') = false ∧
    (∀ tok ∈ resultToks, tok.isSuffixOf (joinParts ps) = false)
  | [], h, _ => absurd rfl h
  | [p], _, h => by
    obtain ⟨hne, hh, hl, -, hs⟩ := h p (by simp)
    exact ⟨by simpa [joinParts] using hne, by simpa [joinParts] using hh,
      by simpa [joinParts] using hl, by simpa [joinParts] using hs⟩
  | p :: q :: ps, _, h => by
    obtain ⟨hne, hh, -, -, -⟩ := h p (by simp)
    obtain ⟨jne, -, jl, js⟩ :=
      joinParts_wf (q :: ps) (by simp) (fun r hr => h r (by simp [hr]))
    have hpj : joinParts (p :: q :: ps) = p.data ++ ' ' :: joinParts (q :: ps) := rfl
    refine ⟨?_, ?_, ?_, ?_⟩
    · rw [hpj]
      simp
    · rw [hpj]
      obtain ⟨c, cs2, hc⟩ : ∃ c cs2, p.data = c :: cs2 := by
        cases hd : p.data with
        | nil => exact absurd hd hne
        | cons c cs2 => exact ⟨c, cs2, rfl⟩
      rw [hc]
      rw [hc] at hh
      simpa using hh
    · rw [hpj]
      have hstep : (p.data ++ ' ' :: joinParts (q :: ps)).getLastD ' ' =
          (joinParts (q :: ps)).getLastD ' ' := by
        rw [List.getLastD_eq_getLast?, List.getLastD_eq_getLast?,
          show p.data ++ ' ' :: joinParts (q :: ps) =
            (p.data ++ [' ']) ++ joinParts (q :: ps) by simp,
          List.getLast?_append_of_ne_nil _ jne]
      rw [hstep]
      exact jl
    · rw [hpj]
      intro tok htok
      by_cases hlen : tok.length ≤ (joinParts (q :: ps)).length
      · by_contra hcon
        rw [Bool.not_eq_false, List.isSuffixOf_iff_suffix] at hcon
        have hJ : joinParts (q :: ps) <:+ (p.data ++ ' ' :: joinParts (q :: ps)) :=
          ⟨p.data ++ [' '], by simp⟩
        have hsub := suffix_of_suffix_le hcon hJ hlen
        exact absurd (List.isSuffixOf_iff_suffix.mpr hsub) (by simp [js tok htok])
      · by_contra hcon
        rw [Bool.not_eq_false, List.isSuffixOf_iff_suffix] at hcon
        have hJ2 : (' ' :: joinParts (q :: ps)) <:+ (p.data ++ ' ' :: joinParts (q :: ps)) :=
          ⟨p.data, rfl⟩
        have hsub := suffix_of_suffix_le hJ2 hcon
          (by simp only [List.length_cons]; omega)
        obtain ⟨t, ht⟩ := hsub
        have hmem : ' ' ∈ tok := by
          rw [← ht]
          simp
        have hnosp : ∀ tk ∈ resultToks, ' ' ∉ tk := by decide
        exact hnosp tok htok hmem

/-- Stage A of the round trip: tokenizing the serialized text of a
well-formed tree yields exactly its canonical token stream. -/
theorem tokenizePgn_serialize (l : List MoveNode) (hw : WfLine l) (n : Nat) (isB : Bool) :
    tokenizePgn (serializeLine l n isB) = canonLine l := by
  cases l with
  | nil =>
    show tokenizePgn (String.intercalate " " (serParts [] n isB true)) = canonLine []
    rw [show serParts [] n isB true = [] from by simp [serParts],
      show canonLine [] = [] from by simp [canonLine]]
    rfl
  | cons node rest =>
    have hfst := serPairs_fst (node :: rest) n isB true
    have hok := serPairs_ok (node :: rest) n isB true hw
    have hpsne : serParts (node :: rest) n isB true ≠ [] := by
      cases node with
      | mk sa fr ds fe co ng an vars =>
        simp only [serParts]
        cases isB <;> simp
    have hwfp : ∀ p ∈ serParts (node :: rest) n isB true, PartWf p := by
      intro p hp
      rw [← hfst] at hp
      rcases List.mem_map.mp hp with ⟨q, hq, rfl⟩
      exact (hok q hq).2
    obtain ⟨jne, jh, jl, js⟩ := joinParts_wf _ hpsne hwfp
    have hnb : ∀ c ∈ joinParts (serParts (node :: rest) n isB true), c ≠ '[' := by
      intro c hc heq
      subst heq
      refine joinParts_chars _ '[' ?_ (by decide) hc
      intro p hp hm
      exact (hwfp p hp).2.2.2.1 '[' hm rfl
    show tokenizeChars (jsTrim (stripResult (stripHeaders
      (String.intercalate " " (serParts (node :: rest) n isB true)).data))) = _
    rw [intercalate_data]
    rw [stripHeaders_id _ hnb]
    rw [stripResult_id _ (Or.inl jl) js]
    rw [jsTrim_id _ (Or.inl jh) (Or.inl jl)]
    have hjoin := tokJoinParts (serPairs (node :: rest) n isB true) []
      (fun x hx => (hok x hx).1) (by simp [RestOk])
    rw [hfst, List.append_nil] at hjoin
    rw [hjoin, show tokenizeChars [] = [] from rfl, List.append_nil]
    exact serPairs_snd _ n isB true

/-! ## Stage B support: comment/NAG/SAN behaviour of the rebuilt tokens -/

theorem extractInlineNag_id (s : String) (h : ∀ c ∈ s.data, sanBodyChar c = true) :
    extractInlineNag s = (s, none) := by
  unfold extractInlineNag
  have htail : s.data.reverse.takeWhile glyphChar = [] := by
    cases hr : s.data.reverse with
    | nil => rfl
    | cons c cs2 =>
      have hc : c ∈ s.data := by
        have : c ∈ s.data.reverse := by rw [hr]; simp
        simpa using this
      rw [List.takeWhile_cons, sanBody_not_glyph (h c hc)]
      simp
  dsimp only
  rw [htail]
  rfl

theorem matchDirectiveAt_none (tag : List Char) (c : Char) (cs : List Char)
    (hc : c ≠ '[') : matchDirectiveAt tag (c :: cs) = none := by
  unfold matchDirectiveAt
  split
  · next cs2 heq =>
    injection heq with h1 h2
    exact absurd h1 hc
  · rfl

theorem stripDirectivesF_id (tag : List Char) : ∀ (fuel : Nat) (cs : List Char),
    (∀ c ∈ cs, c ≠ '[') → stripDirectivesF tag fuel cs = cs
  | 0, _, _ => rfl
  | _ + 1, [], _ => rfl
  | fuel + 1, c :: cs, h => by
    simp only [stripDirectivesF]
    rw [matchDirectiveAt_none tag c cs (h c (by simp))]
    rw [stripDirectivesF_id tag fuel cs (fun x hx => h x (by simp [hx]))]

theorem firstDirectiveF_none (tag : List Char) : ∀ (fuel : Nat) (cs : List Char),
    (∀ c ∈ cs, c ≠ '[') → firstDirectiveF tag fuel cs = none
  | 0, _, _ => rfl
  | _ + 1, [], _ => rfl
  | fuel + 1, c :: cs, h => by
    simp only [firstDirectiveF]
    rw [matchDirectiveAt_none tag c cs (h c (by simp))]
    exact firstDirectiveF_none tag fuel cs (fun x hx => h x (by simp [hx]))

theorem commentText_id (c : String) (h : WfComment c) : commentText c.data = c.data := by
  unfold commentText stripDirectives
  rw [stripDirectivesF_id _ _ _ (fun x hx => (h.2.2.2 x hx).2.2)]
  rw [stripDirectivesF_id _ _ _ (fun x hx => (h.2.2.2 x hx).2.2)]
  exact h.2.2.1

theorem parseCommentAnnotations_nil (content : List Char)
    (h : ∀ c ∈ content, c ≠ '[') : parseCommentAnnotations content = ⟨[], [], []⟩ := by
  unfold parseCommentAnnotations firstDirective
  rw [firstDirectiveF_none _ _ _ h, firstDirectiveF_none _ _ _ h]

/-! ## Node-surgery lemmas -/

theorem withVariations_variations (m : MoveNode) (x : List (List MoveNode)) :
    (m.withVariations x).variations = x := by cases m; rfl

theorem withVariations_withVariations (m : MoveNode) (x y : List (List MoveNode)) :
    (m.withVariations x).withVariations y = m.withVariations y := by cases m; rfl

theorem withVariations_self (m : MoveNode) : m.withVariations m.variations = m := by
  cases m; rfl

theorem roundTripLine_nil : roundTripLine [] = [] := by simp [roundTripLine]

theorem roundTripLine_cons (sa fr ds fe : String) (co ng : Option String)
    (an : Option MoveAnnot) (vars : List (List MoveNode)) (rest : List MoveNode) :
    roundTripLine (.mk sa fr ds fe co ng an vars :: rest) =
      .mk sa fr ds fe (roundComment co) (roundNag ng) none (roundTripVars vars)
        :: roundTripLine rest := by
  simp [roundTripLine]

theorem roundTripVars_nil : roundTripVars [] = [] := by simp [roundTripVars]

theorem roundTripVars_cons (v : List MoveNode) (vs : List (List MoveNode)) :
    roundTripVars (v :: vs) = roundTripLine v :: roundTripVars vs := by
  simp [roundTripVars]

theorem roundTripLine_ne_nil {v : List MoveNode} (h : v ≠ []) : roundTripLine v ≠ [] := by
  cases v with
  | nil => exact absurd rfl h
  | cons a b =>
    cases a with
    | mk sa fr ds fe co ng an vars =>
      rw [roundTripLine_cons]
      simp

theorem attachVariation_length (cur : List MoveNode) (i : Nat) (v : List MoveNode) :
    (attachVariation cur i v).length = cur.length := by
  unfold attachVariation
  cases hg : cur.get? i with
  | none => rfl
  | some m => simp

theorem attachVariation_getD_ne (cur : List MoveNode) (i j : Nat) (v : List MoveNode)
    (h : i ≠ j) :
    (attachVariation cur i v).getD j default = cur.getD j default := by
  unfold attachVariation
  cases hg : cur.get? i with
  | none => rfl
  | some m =>
    dsimp only
    simp only [List.getD, List.get?_eq_getElem?]
    rw [List.getElem?_set_ne h]

theorem attachAll_concat : ∀ (vss : List (List MoveNode)) (pre : List MoveNode)
    (m : MoveNode),
    attachAll pre.length (pre ++ [m]) vss = pre ++ [m.withVariations (m.variations ++ vss)]
  | [], pre, m => by
    show pre ++ [m] = _
    rw [List.append_nil, withVariations_self]
  | v :: vss, pre, m => by
    show attachAll pre.length (attachVariation (pre ++ [m]) pre.length v) vss = _
    have hset : (pre ++ [m]).set pre.length (m.withVariations (m.variations ++ [v])) =
        pre ++ [m.withVariations (m.variations ++ [v])] := by
      have hidx : pre.length = (pre ++ [m]).length - 1 := by simp
      rw [hidx, ← dropLast_append_eq_set _ _ (by simp), List.dropLast_concat]
    have hatt : attachVariation (pre ++ [m]) pre.length v =
        pre ++ [m.withVariations (m.variations ++ [v])] := by
      unfold attachVariation
      rw [List.get?_concat_length]
      exact hset
    rw [hatt, attachAll_concat vss pre (m.withVariations (m.variations ++ [v]))]
    rw [withVariations_variations, withVariations_withVariations]
    simp

/-! ## Canonical-token builder steps -/

theorem buildStep_canonMove (eng : Engine) (R : String) (sa fr ds fe f : String)
    (pre : List MoveNode) (stk : List BFrame) (w : List String)
    (hchars : ∀ c ∈ sa.data, sanBodyChar c = true)
    (hm : eng.moveSan f sa = .legal ⟨sa, fr, ds, fe⟩) :
    buildStep eng R ⟨f, pre, stk, none, none, none, w⟩ (.move sa) =
      ⟨fe, pre ++ [.mk sa fr ds fe none none none []], stk, none, none, none, w⟩ := by
  simp only [buildStep]
  rw [extractInlineNag_id sa hchars]
  dsimp only
  rw [hm]

theorem buildStep_canonNag (eng : Engine) (R : String) (g : String) (d : NagDefinition)
    (f : String) (pre : List MoveNode) (m : MoveNode) (stk : List BFrame)
    (w : List String) (hn : nagByCode g = some d) :
    buildStep eng R ⟨f, pre ++ [m], stk, none, none, none, w⟩ (.nag g) =
      ⟨f, pre ++ [m.withNag d.code], stk, none, none, none, w⟩ := by
  simp only [buildStep]
  rw [hn, List.getLast?_concat]
  dsimp only
  rw [List.dropLast_concat]

theorem buildStep_canonComment (eng : Engine) (R : String) (c : String) (hWf : WfComment c)
    (f : String) (pre : List MoveNode) (m : MoveNode) (stk : List BFrame)
    (w : List String) :
    buildStep eng R ⟨f, pre ++ [m], stk, none, none, none, w⟩ (.comment c) =
      ⟨f, pre ++ [m.withComment c], stk, none, none, none, w⟩ := by
  simp only [buildStep]
  rw [List.getLast?_concat]
  dsimp only
  rw [parseCommentAnnotations_nil c.data (fun x hx => (hWf.2.2.2 x hx).2.2)]
  rw [commentText_id c hWf]
  rw [show c.data.isEmpty = false from by
    cases hd : c.data with
    | nil => exact absurd hd hWf.1
    | cons a b => rfl]
  rw [List.dropLast_concat]
  rfl

theorem buildStep_canonOpen (eng : Engine) (R : String)
    (hld : ∀ f, eng.load f = some f) (f bv : String) (cur : List MoveNode)
    (stk : List BFrame) (w : List String) (hne : cur ≠ [])
    (hbv : bv = (if cur.length - 1 > 0 then (cur.getD (cur.length - 1 - 1) default).fen
      else R)) :
    buildStep eng R ⟨f, cur, stk, none, none, none, w⟩ .openVar =
      ⟨bv, [], .saved f cur (cur.length - 1) :: stk, none, none, none, w⟩ := by
  simp only [buildStep]
  have hemp : cur.isEmpty = false := by
    cases cur with
    | nil => exact absurd rfl hne
    | cons a b => rfl
  rw [hemp]
  simp only [Bool.false_eq_true, if_false]
  rw [← hbv, hld bv]

theorem buildStep_canonClose (eng : Engine) (R : String) (f fs : String)
    (cur parent : List MoveNode) (bfi : Nat) (stk : List BFrame) (w : List String)
    (hne : cur ≠ []) :
    buildStep eng R ⟨f, cur, .saved fs parent bfi :: stk, none, none, none, w⟩ .closeVar =
      ⟨fs, attachVariation parent bfi cur, stk, none, none, none, w⟩ := by
  simp only [buildStep, closeStep]
  have hemp : cur.isEmpty = false := by
    cases cur with
    | nil => exact absurd rfl hne
    | cons a b => rfl
  rw [hemp]
  simp only [Bool.false_eq_true, if_false]

/-! ## Index lemmas for the branch-fen computation -/

theorem getD_append_lt : ∀ (p xs : List MoveNode) (i : Nat), i < p.length →
    (p ++ xs).getD i default = p.getD i default
  | [], _, _, h => by simp at h
  | x :: p, xs, 0, _ => rfl
  | x :: p, xs, i + 1, h => by
    rw [List.cons_append, List.getD_cons_succ, List.getD_cons_succ]
    exact getD_append_lt p xs i (by simpa using h)

theorem getD_append_cons : ∀ (p : List MoveNode) (q : MoveNode) (rest : List MoveNode),
    (p ++ q :: rest).getD p.length default = q
  | [], _, _ => rfl
  | x :: p, q, rest => by
    rw [List.cons_append, List.length_cons, List.getD_cons_succ]
    exact getD_append_cons p q rest

theorem attachVariation_concat (pre : List MoveNode) (m : MoveNode) (v : List MoveNode) :
    attachVariation (pre ++ [m]) pre.length v =
      pre ++ [m.withVariations (m.variations ++ [v])] := by
  have hset : (pre ++ [m]).set pre.length (m.withVariations (m.variations ++ [v])) =
      pre ++ [m.withVariations (m.variations ++ [v])] := by
    have hidx : pre.length = (pre ++ [m]).length - 1 := by simp
    rw [hidx, ← dropLast_append_eq_set _ _ (by simp), List.dropLast_concat]
  unfold attachVariation
  rw [List.get?_concat_length]
  exact hset

/-! ## The NAG and comment tokens reattach what the round trip keeps -/

theorem foldl_canonNag (eng : Engine) (R : String) (ng : Option String)
    (hng : ∀ g, ng = some g → WfNag g) (f sa fr ds fe : String)
    (pre : List MoveNode) (stk : List BFrame) (w : List String) (ts : List PgnToken) :
    List.foldl (buildStep eng R)
      ⟨f, pre ++ [.mk sa fr ds fe none none none []], stk, none, none, none, w⟩
      (canonNagToks ng ++ ts) =
    List.foldl (buildStep eng R)
      ⟨f, pre ++ [.mk sa fr ds fe none (roundNag ng) none []], stk, none, none, none, w⟩
      ts := by
  cases ng with
  | none => rfl
  | some g =>
    obtain ⟨d, hd⟩ := Option.isSome_iff_exists.mp (hng g rfl)
    by_cases hi : d.inlinePgn.isSome
    · rw [show canonNagToks (some g) = [] from by simp [canonNagToks, hd, hi],
        show roundNag (some g) = none from by simp [roundNag, hd, hi]]
      rfl
    · rw [show canonNagToks (some g) = [.nag g] from by simp [canonNagToks, hd, hi],
        show roundNag (some g) = some g from by simp [roundNag, hd, hi],
        List.singleton_append, List.foldl_cons,
        buildStep_canonNag eng R g d f pre (.mk sa fr ds fe none none none []) stk w hd,
        show (MoveNode.mk sa fr ds fe none none none []).withNag d.code =
          .mk sa fr ds fe none (some g) none [] from by rw [nagByCode_code hd]; rfl]

theorem foldl_canonComment (eng : Engine) (R : String) (co : Option String)
    (hco : ∀ c, co = some c → WfComment c) (f sa fr ds fe : String) (ng2 : Option String)
    (pre : List MoveNode) (stk : List BFrame) (w : List String) (ts : List PgnToken) :
    List.foldl (buildStep eng R)
      ⟨f, pre ++ [.mk sa fr ds fe none ng2 none []], stk, none, none, none, w⟩
      (canonCommentToks co ++ ts) =
    List.foldl (buildStep eng R)
      ⟨f, pre ++ [.mk sa fr ds fe (roundComment co) ng2 none []], stk, none, none,
        none, w⟩ ts := by
  cases co with
  | none => rfl
  | some c =>
    have hWf := hco c rfl
    have hcw : (c = "" || c = "wrong") = false := by
      simp only [Bool.or_eq_false_iff, decide_eq_false_iff_not]
      exact ⟨fun he => hWf.1 (by rw [he]), hWf.2.1⟩
    rw [show canonCommentToks (some c) = [.comment c] from by
        simp [canonCommentToks, hcw],
      show roundComment (some c) = some c from by simp [roundComment, hcw],
      List.singleton_append, List.foldl_cons,
      buildStep_canonComment eng R c hWf f pre (.mk sa fr ds fe none ng2 none []) stk w]
    rfl

/-! ## The rebuild: folding the builder over the canonical token stream of a
well-formed engine-consistent tree reproduces its round trip -/

mutual

theorem buildCanonLine : ∀ (l : List MoveNode) (eng : Engine) (R : String)
    (hld : ∀ g, eng.load g = some g) (f : String) (pre : List MoveNode) (isF : Bool),
    ((isF = true ∧ pre = []) ∨
      (isF = false ∧ ∃ p q, pre = p ++ [q] ∧ q.fen = f)) →
    WfLine l → Consistent eng f l → RLineInv eng R f isF l →
    ∀ (stk : List BFrame) (w : List String) (ts : List PgnToken),
    List.foldl (buildStep eng R) ⟨f, pre, stk, none, none, none, w⟩ (canonLine l ++ ts) =
      List.foldl (buildStep eng R)
        ⟨endFen f l, pre ++ roundTripLine l, stk, none, none, none, w⟩ ts
  | [], eng, R, hld, f, pre, isF, hpre, hw, hc, hinv, stk, w, ts => by
    rw [show canonLine [] = [] from by simp [canonLine], List.nil_append,
      show roundTripLine [] = [] from by simp [roundTripLine], List.append_nil]
    rfl
  | .mk sa fr ds fe co ng an vars :: rest, eng, R, hld, f, pre, isF, hpre, hw, hc,
      hinv, stk, w, ts => by
    simp only [WfLine] at hw
    obtain ⟨⟨hsan, hco, hng, hvars⟩, hwrest⟩ := hw
    simp only [Consistent, MoveNode.san, MoveNode.frm, MoveNode.dst, MoveNode.fen] at hc
    obtain ⟨hmv, hcrest⟩ := hc
    simp only [RLineInv] at hinv
    obtain ⟨hvinv, hrinv⟩ := hinv
    rw [show canonLine (.mk sa fr ds fe co ng an vars :: rest) = .move sa ::
        (canonNagToks ng ++ canonCommentToks co ++ canonVars vars) ++ canonLine rest
      from by simp [canonLine]]
    rw [List.cons_append, List.cons_append, List.foldl_cons,
      buildStep_canonMove eng R sa fr ds fe f pre stk w hsan.2.2 hmv]
    rw [show ((canonNagToks ng ++ canonCommentToks co ++ canonVars vars) ++
        canonLine rest) ++ ts = canonNagToks ng ++ (canonCommentToks co ++
        (canonVars vars ++ (canonLine rest ++ ts))) from by simp [List.append_assoc]]
    rw [foldl_canonNag eng R ng hng fe sa fr ds fe pre stk w _]
    rw [foldl_canonComment eng R co hco fe sa fr ds fe (roundNag ng) pre stk w _]
    have hbv : (if pre.length > 0 then (pre.getD (pre.length - 1) default).fen else R)
        = (if isF then R else f) := by
      rcases hpre with ⟨hisF, rfl⟩ | ⟨hisF, p, q, rfl, hqf⟩
      · rw [hisF]
        rfl
      · rw [hisF]
        simp only [List.length_append, List.length_cons, List.length_nil]
        rw [if_pos (by omega), if_neg (by simp)]
        rw [show p.length + 1 - 1 = p.length from rfl, getD_append_cons, hqf]
    rw [buildCanonVars vars eng R hld (if isF then R else f) fe pre
      (.mk sa fr ds fe (roundComment co) (roundNag ng) none []) hbv hvars hvinv stk w _]
    rw [show (MoveNode.mk sa fr ds fe (roundComment co) (roundNag ng) none
        []).withVariations ((MoveNode.mk sa fr ds fe (roundComment co) (roundNag ng)
        none []).variations ++ roundTripVars vars) =
      .mk sa fr ds fe (roundComment co) (roundNag ng) none (roundTripVars vars) from by
        simp [MoveNode.withVariations, MoveNode.variations]]
    have hrec := buildCanonLine rest eng R hld fe
      (pre ++ [MoveNode.mk sa fr ds fe (roundComment co) (roundNag ng) none
        (roundTripVars vars)])
      false (Or.inr ⟨rfl, pre,
        MoveNode.mk sa fr ds fe (roundComment co) (roundNag ng) none (roundTripVars vars),
        rfl, rfl⟩) hwrest hcrest hrinv stk w ts
    rw [hrec]
    rw [endFen_cons, show (MoveNode.mk sa fr ds fe co ng an vars).fen = fe from rfl]
    rw [show roundTripLine (.mk sa fr ds fe co ng an vars :: rest) =
      .mk sa fr ds fe (roundComment co) (roundNag ng) none (roundTripVars vars)
        :: roundTripLine rest from by simp [roundTripLine]]
    rw [List.append_assoc, List.singleton_append]

theorem buildCanonVars : ∀ (vs : List (List MoveNode)) (eng : Engine) (R : String)
    (hld : ∀ g, eng.load g = some g) (b f : String) (pre : List MoveNode) (m : MoveNode),
    (if pre.length > 0 then (pre.getD (pre.length - 1) default).fen else R) = b →
    WfVars vs → RVarsInv eng R b vs →
    ∀ (stk : List BFrame) (w : List String) (ts : List PgnToken),
    List.foldl (buildStep eng R) ⟨f, pre ++ [m], stk, none, none, none, w⟩
      (canonVars vs ++ ts) =
      List.foldl (buildStep eng R)
        ⟨f, pre ++ [m.withVariations (m.variations ++ roundTripVars vs)], stk,
          none, none, none, w⟩ ts
  | [], eng, R, hld, b, f, pre, m, hbv, hw, hinv, stk, w, ts => by
    rw [show canonVars [] = [] from by simp [canonVars], List.nil_append,
      show roundTripVars [] = [] from by simp [roundTripVars], List.append_nil,
      withVariations_self]
  | v :: vs, eng, R, hld, b, f, pre, m, hbv, hw, hinv, stk, w, ts => by
    simp only [WfVars] at hw
    simp only [RVarsInv] at hinv
    obtain ⟨⟨hvne, hvcons, hvinv⟩, hvsinv⟩ := hinv
    rw [show canonVars (v :: vs) = .openVar :: (canonLine v ++ ([.closeVar] ++
        canonVars vs)) from by simp [canonVars]]
    rw [List.cons_append, List.foldl_cons]
    rw [buildStep_canonOpen eng R hld f b (pre ++ [m]) stk w (by simp)
      (by
        simp only [List.length_append, List.length_cons, List.length_nil]
        rw [show pre.length + 1 - 1 = pre.length from rfl]
        by_cases hp : pre.length > 0
        · rw [if_pos hp] at hbv ⊢
          rw [getD_append_lt pre [m] (pre.length - 1) (by omega)]
          exact hbv.symm
        · rw [if_neg hp] at hbv ⊢
          exact hbv.symm)]
    rw [show (pre ++ [m]).length - 1 = pre.length from by simp]
    rw [List.append_assoc, buildCanonLine v eng R hld b [] true (Or.inl ⟨rfl, rfl⟩)
      hw.1 hvcons hvinv (.saved f (pre ++ [m]) pre.length :: stk) w _]
    rw [List.nil_append, List.cons_append, List.nil_append, List.cons_append,
      List.foldl_cons]
    rw [buildStep_canonClose eng R (endFen b v) f (roundTripLine v) (pre ++ [m])
      pre.length stk w (roundTripLine_ne_nil hvne)]
    rw [attachVariation_concat]
    rw [buildCanonVars vs eng R hld b f pre
      (m.withVariations (m.variations ++ [roundTripLine v])) hbv hw.2 hvsinv stk w ts]
    rw [withVariations_variations, withVariations_withVariations]
    rw [show roundTripVars (v :: vs) = roundTripLine v :: roundTripVars vs from by
      simp [roundTripVars]]
    rw [List.append_assoc, List.singleton_append]

end

/-- Running the whole builder (token fold plus drain) over the canonical
token stream from the root reproduces the round trip and leaves the
warnings untouched. -/
theorem buildMoves_canon (eng : Engine) (R : String) (l : List MoveNode)
    (w0 : List String) (hld : ∀ g, eng.load g = some g) (hw : WfLine l)
    (hc : Consistent eng R l) (hinv : RLineInv eng R R true l) :
    buildMoves eng R R (canonLine l) w0 = (roundTripLine l, w0) := by
  have h := buildCanonLine l eng R hld R [] true (Or.inl ⟨rfl, rfl⟩) hw hc hinv [] w0 []
  rw [List.append_nil] at h
  unfold buildMoves
  dsimp only
  rw [h]
  rfl

/-- Re-parsing the serialized text of a well-formed, engine-consistent
tree satisfying the builder's branching invariant yields exactly the
tree's round trip. -/
theorem parse_serialize_roundTrip (eng : Engine) (startFen : Option String)
    (l : List MoveNode) (w0 : List String) (n : Nat) (isB : Bool)
    (hld : ∀ g, eng.load g = some g) (hw : WfLine l)
    (hc : Consistent eng (rootBaseFen startFen) l)
    (hinv : RLineInv eng (rootBaseFen startFen) (rootBaseFen startFen) true l) :
    parseMovesWithVariations eng (serializeLine l n isB) startFen w0 =
      (roundTripLine l, w0) := by
  cases startFen with
  | none =>
    unfold parseMovesWithVariations
    dsimp only
    rw [tokenizePgn_serialize l hw n isB]
    exact buildMoves_canon eng (rootBaseFen none) l w0 hld hw hc hinv
  | some sf =>
    unfold parseMovesWithVariations
    dsimp only
    rw [tokenizePgn_serialize l hw n isB, hld (normalizeFen sf)]
    exact buildMoves_canon eng (rootBaseFen (some sf)) l w0 hld hw hc hinv

/-! ## The round trip preserves the move skeleton -/

mutual

theorem stripMeta_roundTripLine : ∀ (l : List MoveNode),
    stripMeta (roundTripLine l) = stripMeta l
  | [] => by rw [show roundTripLine [] = [] from by simp [roundTripLine]]
  | .mk sa fr ds fe co ng an vars :: rest => by
    rw [show roundTripLine (.mk sa fr ds fe co ng an vars :: rest) =
      .mk sa fr ds fe (roundComment co) (roundNag ng) none (roundTripVars vars)
        :: roundTripLine rest from by simp [roundTripLine]]
    rw [show stripMeta (.mk sa fr ds fe (roundComment co) (roundNag ng) none
        (roundTripVars vars) :: roundTripLine rest) =
      .mk sa fr ds fe none none none (stripMetaVars (roundTripVars vars))
        :: stripMeta (roundTripLine rest) from by simp [stripMeta]]
    rw [show stripMeta (.mk sa fr ds fe co ng an vars :: rest) =
      .mk sa fr ds fe none none none (stripMetaVars vars) :: stripMeta rest from by
        simp [stripMeta]]
    rw [stripMeta_roundTripVars vars, stripMeta_roundTripLine rest]

theorem stripMeta_roundTripVars : ∀ (vs : List (List MoveNode)),
    stripMetaVars (roundTripVars vs) = stripMetaVars vs
  | [] => by rw [show roundTripVars [] = [] from by simp [roundTripVars]]
  | v :: vs => by
    rw [show roundTripVars (v :: vs) = roundTripLine v :: roundTripVars vs from by
      simp [roundTripVars]]
    rw [show stripMetaVars (roundTripLine v :: roundTripVars vs) =
      stripMeta (roundTripLine v) :: stripMetaVars (roundTripVars vs) from by
        simp [stripMetaVars]]
    rw [show stripMetaVars (v :: vs) = stripMeta v :: stripMetaVars vs from by
      simp [stripMetaVars]]
    rw [stripMeta_roundTripLine v, stripMeta_roundTripVars vs]

end

/-! ## C1: the round-trip claim -/

/-- C1 counterexample: the NAG `$1` is NOT preserved by the round trip.
Parsing `1. e4 $1` produces a one-node tree carrying NAG `$1`; the
serializer emits that NAG as its inline glyph form `!`, producing
`1. e4 !`, and the tokenizer discards the bare glyph, so the re-parsed
tree carries no NAG. -/
theorem C1_counterexample :
    (parseMovesWithVariations engA "1. e4 $1" none []).1 =
      [.mk "e4" "e2" "e4" "A" none (some "$1") none []] ∧
    serializeLine [.mk "e4" "e2" "e4" "A" none (some "$1") none []] 1 false =
      "1. e4 !" ∧
    (parseMovesWithVariations engA
        (serializeLine [.mk "e4" "e2" "e4" "A" none (some "$1") none []] 1 false)
        none []).1 = [.mk "e4" "e2" "e4" "A" none none none []] ∧
    (parseMovesWithVariations engA
        (serializeLine [.mk "e4" "e2" "e4" "A" none (some "$1") none []] 1 false)
        none []).1.map MoveNode.nag ≠
      (parseMovesWithVariations engA "1. e4 $1" none []).1.map MoveNode.nag := by
  have hng : nagByCode "$1" = some ⟨"$1", "!", some "!", "Great move", "nag-good"⟩ := rfl
  have hs : serializeLine [MoveNode.mk "e4" "e2" "e4" "A" none (some "$1") none []] 1
      false = "1. e4 !" := by
    unfold serializeLine
    rw [show serParts [MoveNode.mk "e4" "e2" "e4" "A" none (some "$1") none []] 1
        false true = ["1.", "e4", "!"] from by
      simp only [serParts, serVars, serNagParts, serCommentParts, MoveNode.nag,
        MoveNode.comment, hng]
      rfl]
    rfl
  refine ⟨rfl, hs, ?_, ?_⟩
  · rw [hs]
    rfl
  · rw [hs]
    decide

/-- C1 (amended): over an engine with total identity `load`, re-parsing
`serializeLine`'s output of a well-formed, engine-consistent tree
satisfying the builder's branching invariant reproduces the tree's round
trip `roundTripLine` — identical SAN sequences, squares, FENs and
variation structure at every depth (the `stripMeta` skeleton is
preserved), comments preserved except the empty and reserved `wrong`
values, overlay annotations dropped, and NAGs preserved exactly when
their code has no inline glyph form (glyph-form NAGs like `$1` are
serialized as bare glyphs, which the tokenizer discards). -/
theorem C1_roundTrip (eng : Engine) (startFen : Option String) (l : List MoveNode)
    (w0 : List String) (n : Nat) (isB : Bool)
    (hld : ∀ g, eng.load g = some g) (hw : WfLine l)
    (hc : Consistent eng (rootBaseFen startFen) l)
    (hinv : RLineInv eng (rootBaseFen startFen) (rootBaseFen startFen) true l) :
    parseMovesWithVariations eng (serializeLine l n isB) startFen w0 =
      (roundTripLine l, w0) ∧
    stripMeta (roundTripLine l) = stripMeta l :=
  ⟨parse_serialize_roundTrip eng startFen l w0 n isB hld hw hc hinv,
   stripMeta_roundTripLine l⟩

theorem treeC1_wf : WfLine treeC1 := by
  simp only [treeC1, WfLine, WfVars]
  refine ⟨⟨⟨by decide, by decide, by decide⟩, ?_, ?_, trivial⟩,
    ⟨⟨by decide, by decide, by decide⟩, ?_, ?_,
      ⟨⟨⟨⟨by decide, by decide, by decide⟩, ?_, ?_, trivial⟩, trivial⟩, trivial⟩⟩,
    trivial⟩
  · intro c hc
    injection hc with hc
    subst hc
    exact ⟨by decide, by decide, by decide, by decide⟩
  · intro g hg
    injection hg with hg
    subst hg
    show (nagByCode "$7").isSome = true
    decide
  · intro c hc
    cases hc
  · intro g hg
    cases hg
  · intro c hc
    cases hc
  · intro g hg
    cases hg

theorem treeC1_consistent : Consistent engA (rootBaseFen none) treeC1 := by
  simp only [treeC1, Consistent, MoveNode.san, MoveNode.frm, MoveNode.dst, MoveNode.fen]
  exact ⟨rfl, rfl, trivial⟩

theorem treeC1_rinv :
    RLineInv engA (rootBaseFen none) (rootBaseFen none) true treeC1 := by
  simp only [treeC1, RLineInv, RVarsInv, if_true, Bool.false_eq_true, if_false]
  exact ⟨trivial, ⟨⟨by simp, ⟨rfl, trivial⟩, trivial, trivial⟩, trivial⟩, trivial⟩

theorem C1_roundTrip_witness :
    parseMovesWithVariations engA (serializeLine treeC1 1 false) none [] =
      (roundTripLine treeC1, []) ∧
    stripMeta (roundTripLine treeC1) = stripMeta treeC1 :=
  C1_roundTrip engA none treeC1 [] 1 false (fun _ => rfl)
    treeC1_wf treeC1_consistent treeC1_rinv

end ChessView
